import Mathlib

/-!
# Compiled evaluator (`lib/src/eval/evaluator.cpp`)

A shallow embedding of `Evaluator` (constructor, `setMatrix`, `push`, `pop`,
`eval`, `newClause`) together with the statements proved about it.

Conventions of the embedding:

* a `Clause*` is an index into the arena `data`; a `const Atom*` is the
  address `Atom.id`;
* the numeric type of the result buffers is a type parameter `α`, and the
  numeric kernels of the opcodes are a parameter `sem`;
* the batch capacity `Result::count<double>()` is a parameter `K`;
* `assert` is the failing branch of an `Except` / `Option` result.
-/

namespace Ao

/-! ## Data model -/

/-- Modelled from the spec: the opcode enumeration, whose declaration is missing.  The
leaves are the three axis variables, the mutable transform parameters and the constants;
the remaining tags are operations. -/
inductive Opcode where
  | OP_CONST
  | OP_MUTABLE
  | OP_X
  | OP_Y
  | OP_Z
  | OP_ADD
  | OP_MUL
  | OP_MIN
  | OP_MAX
  | OP_SUB
  | OP_DIV
  | OP_SQRT
  | OP_NEG
  deriving DecidableEq, Repr

/-- Modelled from the spec: an `Atom` of the expression graph, whose declaration is
missing.  `id` is the address of the atom (its identity), `operands` are the addresses of
its operand atoms, in order. -/
structure Atom (α : Type) where
  id : Nat
  op : Opcode
  operands : List Nat
  value : α

/-- Modelled from the spec: the `Tree` handed to the constructor, whose declaration
(`ao/tree/tree.hpp`) is missing; the fields are the ones the constructor reads. -/
structure Tree (α : Type) where
  constants : List (Atom α)
  X : Atom α
  Y : Atom α
  Z : Atom α
  matrix : List (Atom α)
  rows : List (List (Atom α))
  root : Atom α

/-- Modelled from the spec: a `Clause`, whose declaration is missing: opcode tag, operand
references (arena indices), the batched result buffer, the scalar mutable value and the
flag set, whose only member is `CLAUSE_FLAG_IGNORED`. -/
structure Clause (α : Type) where
  op : Opcode
  operands : List Nat
  value : α
  mutable_value : α
  result : List α
  ignored : Bool

/-- The clause with `CLAUSE_FLAG_IGNORED` set: `setFlag(CLAUSE_FLAG_IGNORED)`. -/
def Clause.setFlag {α : Type} (c : Clause α) : Clause α := { c with ignored := true }

/-- The clause with `CLAUSE_FLAG_IGNORED` cleared: `clearFlag(CLAUSE_FLAG_IGNORED)`. -/
def Clause.clearFlag {α : Type} (c : Clause α) : Clause α := { c with ignored := false }

/-- The storage obtained from `malloc(sizeof(Clause) * count)`: `count` slots, a slot
being `none` until a clause has been constructed in it. -/
abbrev Arena (α : Type) := List (Option (Clause α))

/-- Dereference of a `Clause*`: the clause in slot `i`, if the slot exists and has been
constructed. -/
def Arena.get {α : Type} : Arena α → Nat → Option (Clause α)
  | [], _ => none
  | c :: _, 0 => c
  | _ :: cs, i + 1 => Arena.get cs i

/-- In-place update through a `Clause*`. -/
def Arena.modify {α : Type} (f : Clause α → Clause α) : Arena α → Nat → Arena α
  | [], _ => []
  | c :: cs, 0 => c.map f :: cs
  | c :: cs, i + 1 => c :: Arena.modify f cs i

/-- Placement construction `new (p) Clause(..)` at slot `i`. -/
def Arena.place {α : Type} (c : Clause α) : Arena α → Nat → Arena α
  | [], _ => []
  | _ :: cs, 0 => some c :: cs
  | x :: cs, i + 1 => x :: Arena.place c cs i

/-- Modelled from the spec: a `Row`, whose declaration is missing: the clauses of one
schedule tier, the `active` count, and the row's own saved state, a stack of the
previous `active` counts. -/
structure Row where
  clauses : List Nat
  active : Nat
  saved : List Nat
  deriving DecidableEq, Repr

/-- The clauses that take part in the next evaluation: `row[0] .. row[active-1]`. -/
def Row.activeClauses (row : Row) : List Nat := row.clauses.take row.active

/-- Modelled from the spec: `Row::push_back`, appending a clause to the tier. -/
def Row.push_back (row : Row) (c : Nat) : Row := { row with clauses := row.clauses ++ [c] }

/-- Modelled from the spec: `Row::setSize`, "each completed row records its length as
its initial `active` count". -/
def Row.setSize (row : Row) : Row := { row with active := row.clauses.length }

/-- Whether the clause behind a pointer carries `CLAUSE_FLAG_IGNORED`. -/
def Arena.isIgnored {α : Type} (d : Arena α) (c : Nat) : Bool :=
  match d.get c with
  | some cl => cl.ignored
  | none => false

/-- One step of the walk of `Row::push`: a clause that is not ignored is needed, and
"each needed clause's operands have their IGNORED flag cleared". -/
def clearOperands {α : Type} (d : Arena α) (c : Nat) : Arena α :=
  match d.get c with
  | some cl =>
    if cl.ignored then d
    else cl.operands.foldl (fun d o => Arena.modify Clause.clearFlag d o) d
  | none => d

/-- Modelled from the spec: `Row::push`, whose definition is missing.  The active clauses
are walked, the operands of every non-ignored one are un-ignored; then "the row
partitions itself so that all non-ignored clauses are grouped first and `active` is
reduced to their count".  The previous count goes on the row's saved state. -/
def Row.push {α : Type} (d : Arena α) (row : Row) : Arena α × Row :=
  let d1 := row.activeClauses.foldl clearOperands d
  let keep := row.activeClauses.filter (fun c => !d1.isIgnored c)
  let drop := row.activeClauses.filter (fun c => d1.isIgnored c)
  (d1, { clauses := keep ++ drop ++ row.clauses.drop row.active,
         active := keep.length,
         saved := row.active :: row.saved })

/-- Modelled from the spec: `Row::pop`, "restore the previous `active` count (undoing
exactly the last `push()`)".  With nothing saved the prior state is undefined: the model
gives no row then (`none`), which is not an error the code reports. -/
def Row.pop (row : Row) : Option Row :=
  match row.saved with
  | [] => none
  | a :: s => some { row with active := a, saved := s }

/-- The state of an `Evaluator`. -/
structure Evaluator (α : Type) where
  data : Arena α
  ptr : Nat
  constants : List Nat
  X : Nat
  Y : Nat
  Z : Nat
  matrix : List Nat
  rows : List Row
  root : Nat

/-! ## `push` and `pop` -/

/-- First loop of `Evaluator::push`: every active clause of every row gets
`CLAUSE_FLAG_IGNORED`. -/
def markRows {α : Type} (d : Arena α) (rows : List Row) : Arena α :=
  rows.foldl (fun d row => row.activeClauses.foldl (fun d c => Arena.modify Clause.setFlag d c) d) d

/-- Last loop of `Evaluator::push`: `Row::push` on every row, from `rbegin` to `rend`. -/
def pushRows {α : Type} (d : Arena α) : List Row → Arena α × List Row
  | [] => (d, [])
  | row :: rest =>
    let p := pushRows d rest
    let q := Row.push p.1 row
    (q.1, q.2 :: p.2)

/-- `Evaluator::push`. -/
def Evaluator.push {α : Type} (e : Evaluator α) : Evaluator α :=
  let d1 := markRows e.data e.rows
  let d2 := Arena.modify Clause.clearFlag d1 e.root
  let p := pushRows d2 e.rows
  { e with data := p.1, rows := p.2 }

/-- The loop of `Evaluator::pop`: `Row::pop` on every row, in order. -/
def popRows : List Row → Option (List Row)
  | [] => some []
  | row :: rest =>
    match Row.pop row with
    | none => none
    | some row' => (popRows rest).map (fun rest' => row' :: rest')

/-- `Evaluator::pop`: `Row::pop` on every row, without a check of its own.  The state is
defined (`some`) when `Row::pop` gives a row for every row. -/
def Evaluator.pop {α : Type} (e : Evaluator α) : Option (Evaluator α) :=
  (popRows e.rows).map (fun rows => { e with rows := rows })

/-! ## `eval` -/

/-- Modelled from the spec: one axis of a `Region`, whose declaration is missing: `size`
sample positions, `pos(i)` the coordinate of the i-th. -/
structure Axis (α : Type) where
  size : Nat
  pos : Nat → α

/-- Modelled from the spec: a `Region`, three per-axis coordinate sequences. -/
structure Region (α : Type) where
  X : Axis α
  Y : Axis α
  Z : Axis α

/-- Modelled from the spec: `Region::voxels`, the number of sample points. -/
def Region.voxels {α : Type} (r : Region α) : Nat := r.X.size * r.Y.size * r.Z.size

/-- Modelled from the spec: the macro `REGION_ITERATE_XYZ`, whose definition is missing,
as the sequence of loop indices `(i, j, k)` it makes the body run over: "X varies
fastest, then Y, then Z". -/
def REGION_ITERATE_XYZ {α : Type} (r : Region α) : List (Nat × Nat × Nat) :=
  (List.range r.Z.size).flatMap fun k =>
    (List.range r.Y.size).flatMap fun j =>
      (List.range r.X.size).map fun i => (i, j, k)

/-- Modelled from the spec: `Result::set(v, index)`. -/
def Clause.setResult {α : Type} (v : α) (index : Nat) (c : Clause α) : Clause α :=
  { c with result := c.result.set index v }

/-- Body of the flattening loop of `Evaluator::eval`. -/
def flattenStep {α : Type} (X Y Z : Nat) (r : Region α) (s : Arena α × Nat) (ijk : Nat × Nat × Nat) :
    Arena α × Nat :=
  let d1 := Arena.modify (Clause.setResult (r.X.pos ijk.1) s.2) s.1 X
  let d2 := Arena.modify (Clause.setResult (r.Y.pos ijk.2.1) s.2) d1 Y
  let d3 := Arena.modify (Clause.setResult (r.Z.pos (r.Z.size - ijk.2.2 - 1)) s.2) d2 Z
  (d3, s.2 + 1)

/-- The flattening loop of `Evaluator::eval`: the arena and the final `index`. -/
def flatten {α : Type} (X Y Z : Nat) (r : Region α) (d : Arena α) : Arena α × Nat :=
  (REGION_ITERATE_XYZ r).foldl (flattenStep X Y Z r) (d, 0)

/-- The values of the operands in slot `s`, when every operand buffer has that slot. -/
def slotValues {α : Type} (args : List (List α)) (s : Nat) : Option (List α) :=
  args.mapM (fun buf => buf[s]?)

/-- The result buffer of a clause after evaluating slots `0 .. count-1` from the operand
buffers `args`; the remaining slots keep their old contents. -/
def evalSlots {α : Type} (sem : Opcode → List α → α) (op : Opcode) (args : List (List α))
    (old : List α) (count : Nat) : List α :=
  (List.range count).foldl
    (fun res s => match slotValues args s with
      | some vs => res.set s (sem op vs)
      | none => res) old

/-- The result buffer behind a `Clause*`. -/
def Arena.resultOf {α : Type} (d : Arena α) (c : Nat) : List α :=
  match d.get c with
  | some cl => cl.result
  | none => []

/-- Modelled from the spec: the evaluation of one clause, "computing each clause's
per-slot batched result from its operands' already-computed batched results according to
its opcode's numeric semantics". -/
def evalClause {α : Type} (sem : Opcode → List α → α) (count : Nat) (d : Arena α) (c : Nat) :
    Arena α :=
  match d.get c with
  | some cl =>
    Arena.modify
      (fun x => { x with result := evalSlots sem cl.op (cl.operands.map d.resultOf) cl.result count })
      d c
  | none => d

/-- Modelled from the spec: `evalCore<double>(count)`, whose definition is missing:
"evaluate clauses strictly in row order, and within a row, strictly up to its current
`active` count"; returns the root's result buffer. -/
def evalCore {α : Type} (sem : Opcode → List α → α) (e : Evaluator α) (count : Nat) :
    Evaluator α × List α :=
  let d := e.rows.foldl (fun d row => row.activeClauses.foldl (evalClause sem count) d) e.data
  ({ e with data := d }, d.resultOf e.root)

/-- `Evaluator::eval`: `none` is the failed `assert(r.voxels() <= Result::count<double>())`. -/
def Evaluator.eval {α : Type} (sem : Opcode → List α → α) (K : Nat) (e : Evaluator α)
    (r : Region α) : Option (Evaluator α × List α) :=
  if r.voxels ≤ K then
    let f := flatten e.X e.Y e.Z r e.data
    some (evalCore sem { e with data := f.1 } r.voxels)
  else none

/-- The operand references of the clause behind a pointer. -/
def Arena.operandsOf {α : Type} (d : Arena α) (c : Nat) : List Nat :=
  match d.get c with
  | some cl => cl.operands
  | none => []

/-- All clauses `evalCore` evaluates, in evaluation order. -/
def activeSeq (rows : List Row) : List Nat := rows.flatMap Row.activeClauses

/-- The rows are topologically ordered: an operand of an active clause of a row is never
an active clause of that row or of a later row. -/
def Tiered {α : Type} (d : Arena α) : List Row → Prop
  | [] => True
  | row :: rest =>
    (∀ c ∈ row.activeClauses, ∀ o ∈ d.operandsOf c, ∀ r ∈ row :: rest, o ∉ r.activeClauses)
      ∧ Tiered d rest

instance decTiered {α : Type} (d : Arena α) : (rows : List Row) → Decidable (Tiered d rows)
  | [] => isTrue trivial
  | _ :: rest =>
    @instDecidableAnd _ _ inferInstance (decTiered d rest)

/-- Two arenas hold the same clauses up to the flags. -/
def FlagEq {α : Type} (d d' : Arena α) : Prop :=
  ∀ c, (d.get c).map Clause.clearFlag = (d'.get c).map Clause.clearFlag

/-- The inner loop of `clearOperands`. -/
def clearList {α : Type} (d : Arena α) (os : List Nat) : Arena α :=
  os.foldl (fun d o => Arena.modify Clause.clearFlag d o) d

/-- The opcode and operand references of a clause. -/
def Clause.shape {α : Type} (c : Clause α) : Opcode × List Nat := (c.op, c.operands)

/-- Two arenas hold clauses of the same shape, with the same result buffers on the
clauses selected by `p`. -/
def Agree {α : Type} (p : Nat → Bool) (d1 d2 : Arena α) : Prop :=
  (∀ c, (d1.get c).map Clause.shape = (d2.get c).map Clause.shape) ∧
  (∀ c, p c = true → (d1.get c).map Clause.result = (d2.get c).map Clause.result)

/-- The new result buffer `evalClause` computes for a clause. -/
def Clause.evaluated {α : Type} (sem : Opcode → List α → α) (count : Nat) (d : Arena α)
    (cl : Clause α) : Clause α :=
  { cl with result := evalSlots sem cl.op (cl.operands.map d.resultOf) cl.result count }

/-- The arena just before the last loop of `Evaluator::push`. -/
def Evaluator.marked {α : Type} (e : Evaluator α) : Arena α :=
  Arena.modify Clause.clearFlag (markRows e.data e.rows) e.root

/-- The clauses the root depends on through active clauses: the root itself, and every
operand of a needed clause that `evalCore` evaluates. -/
inductive Needed {α : Type} (e : Evaluator α) : Nat → Prop
  | root : Needed e e.root
  | operand (c o : Nat) : Needed e c → c ∈ activeSeq e.rows → o ∈ e.data.operandsOf c →
      Needed e o

/-- The arena `eval` leaves behind: the region flattened into the axis buffers, then
every active clause evaluated in row order. -/
def Evaluator.evalData {α : Type} (sem : Opcode → List α → α) (e : Evaluator α) (r : Region α) :
    Arena α :=
  (activeSeq e.rows).foldl (evalClause sem r.voxels) (flatten e.X e.Y e.Z r e.data).1

/-- The row `Row::pop` yields on a row `q` that `Row::push` produced from `row`: the
clause order of `q`, the count and saved state of `row`. -/
def Row.unpush (row q : Row) : Row :=
  { clauses := q.clauses, active := row.active, saved := row.saved }

/-- The state `push(); pop()` leads to: the flags and clause order of `push()`, the
counts and saved state from before. -/
def Evaluator.restored {α : Type} (e : Evaluator α) : Evaluator α :=
  { e.push with rows := List.zipWith Row.unpush e.rows e.push.rows }

/-! ## Construction -/

/-- The points at which the model of the constructor stops before its last statement:
`matrixSize` is the failed `assert` on the size of the matrix, `missingOperand` the
invariant violation of the `Clause` constructor, `outOfArena` a placement past the end
of the allocation.  They are bookkeeping of `build`; the constructor hands no value to
its caller when it stops. -/
inductive BuildStop where
  | matrixSize
  | missingOperand
  | outOfArena
  deriving DecidableEq, Repr

/-- The identity map `std::unordered_map<const Atom*, Clause*>`: atom address to arena
index, at most one entry per address. -/
abbrev AtomMap := List (Nat × Nat)

/-- The lookup `clauses[a]` of an address that may be absent. -/
def AtomMap.find : AtomMap → Nat → Option Nat
  | [], _ => none
  | (k, v) :: m, a => if k = a then some v else AtomMap.find m a

/-- The assignment `clauses[a] = c`. -/
def AtomMap.insert : AtomMap → Nat → Nat → AtomMap
  | [], a, c => [(a, c)]
  | (k, v) :: m, a, c => if k = a then (k, c) :: m else (k, v) :: AtomMap.insert m a c

/-- The clauses of a list of operand atoms, `none` when one of them has no clause yet. -/
def AtomMap.findAll (m : AtomMap) : List Nat → Option (List Nat)
  | [] => some []
  | a :: as =>
    match m.find a, AtomMap.findAll m as with
    | some c, some cs => some (c :: cs)
    | _, _ => none

/-- The record the `Clause` constructor builds from an atom and the clauses of its
operands: the opcode mirrors the atom's; the buffer has `K` slots, which hold the atom's
value; no flag is set. -/
def Clause.ofAtom {α : Type} (K : Nat) (m : Atom α) (ops : List Nat) : Clause α :=
  { op := m.op, operands := ops, value := m.value, mutable_value := m.value,
    result := List.replicate K m.value, ignored := false }

/-- Modelled from the spec: the constructor `Clause(m, clauses)`, whose definition is
missing: "each build step looks up each of the Atom's operands in an identity map", an
operand without a clause being an invariant violation. -/
def Clause.construct {α : Type} (K : Nat) (m : Atom α) (clauses : AtomMap) :
    Except BuildStop (Clause α) :=
  match clauses.findAll m.operands with
  | none => .error .missingOperand
  | some ops => .ok (Clause.ofAtom K m ops)

/-- The state of the constructor: the arena `data`, the cursor `ptr` and the local map
`clauses`. -/
structure Builder (α : Type) where
  data : Arena α
  ptr : Nat
  clauses : AtomMap

/-- `Evaluator::newClause`: `new (ptr++) Clause(m, clauses)`; the new clause registers
itself in `clauses`.  Returns the pointer to the new clause. -/
def newClause {α : Type} (K : Nat) (m : Atom α) (b : Builder α) :
    Except BuildStop (Nat × Builder α) :=
  if b.ptr < b.data.length then
    match Clause.construct K m b.clauses with
    | .error err => .error err
    | .ok c =>
      .ok (b.ptr, { data := Arena.place c b.data b.ptr, ptr := b.ptr + 1,
                    clauses := b.clauses.insert m.id b.ptr })
  else .error .outOfArena

/-- A loop `for (auto m : ms) out.push_back(newClause(m, clauses))`. -/
def newClauses {α : Type} (K : Nat) : List (Atom α) → List Nat → Builder α →
    Except BuildStop (List Nat × Builder α)
  | [], out, b => .ok (out, b)
  | m :: ms, out, b =>
    match newClause K m b with
    | .error err => .error err
    | .ok (c, b1) => newClauses K ms (out ++ [c]) b1

/-- The inner loop over a tier: `rows.back().push_back(newClause(m, clauses))`. -/
def fillRow {α : Type} (K : Nat) : List (Atom α) → Row → Builder α →
    Except BuildStop (Row × Builder α)
  | [], row, b => .ok (row, b)
  | m :: ms, row, b =>
    match newClause K m b with
    | .error err => .error err
    | .ok (c, b1) => fillRow K ms (row.push_back c) b1

/-- Modelled from the spec: `Row()`, an empty row. -/
def Row.empty : Row := { clauses := [], active := 0, saved := [] }

/-- The loop over the tiers of the tree: a new `Row`, its clauses, then `setSize()`. -/
def buildRows {α : Type} (K : Nat) : List (List (Atom α)) → List Row → Builder α →
    Except BuildStop (List Row × Builder α)
  | [], rows, b => .ok (rows, b)
  | r :: rs, rows, b =>
    match fillRow K r Row.empty b with
    | .error err => .error err
    | .ok (row, b1) => buildRows K rs (rows ++ [row.setSize]) b1

/-- The number of clauses the constructor allocates room for. -/
def Tree.count {α : Type} (tree : Tree α) : Nat :=
  tree.rows.foldl (fun count r => count + r.length)
    (3 + tree.matrix.length + tree.constants.length)

/-- What the constructor has built when it reaches its final `assert`. -/
structure Built (α : Type) where
  data : Arena α
  ptr : Nat
  clauses : AtomMap
  constants : List Nat
  X : Nat
  Y : Nat
  Z : Nat
  matrix : List Nat
  rows : List Row

/-- The constructor `Evaluator::Evaluator` up to the final `assert`: allocation, then the
constants, the axes, the matrix and the rows. -/
def build {α : Type} (K : Nat) (tree : Tree α) : Except BuildStop (Built α) :=
  let b0 : Builder α := { data := List.replicate tree.count none, ptr := 0, clauses := [] }
  match newClauses K tree.constants [] b0 with
  | .error err => .error err
  | .ok (constants, b1) =>
    match newClause K tree.X b1 with
    | .error err => .error err
    | .ok (X, b2) =>
      match newClause K tree.Y b2 with
      | .error err => .error err
      | .ok (Y, b3) =>
        match newClause K tree.Z b3 with
        | .error err => .error err
        | .ok (Z, b4) =>
          if tree.matrix.length = 12 then
            match newClauses K tree.matrix [] b4 with
            | .error err => .error err
            | .ok (matrix, b5) =>
              match buildRows K tree.rows [] b5 with
              | .error err => .error err
              | .ok (rows, b6) =>
                .ok { data := b6.data, ptr := b6.ptr, clauses := b6.clauses,
                      constants := constants, X := X, Y := Y, Z := Z, matrix := matrix,
                      rows := rows }
          else .error .matrixSize

/-- The members of the evaluator once `root` has been set. -/
def Built.toEvaluator {α : Type} (s : Built α) (root : Nat) : Evaluator α :=
  { data := s.data, ptr := s.ptr, constants := s.constants, X := s.X, Y := s.Y,
    Z := s.Z, matrix := s.matrix, rows := s.rows, root := root }

/-- The end of the constructor: `assert(clauses[tree->root]); root = clauses[tree->root]`.
`none` is the failed `assert`: the constructor has no error value to return. -/
def finish {α : Type} (tree : Tree α) (s : Built α) : Option (Evaluator α) :=
  match s.clauses.find tree.root.id with
  | none => none
  | some root => some (s.toEvaluator root)

/-- The constructor `Evaluator::Evaluator(const Tree* tree)`; `none` when it does not
run to its end, so that no evaluator is returned. -/
def compile {α : Type} (K : Nat) (tree : Tree α) : Option (Evaluator α) :=
  match build K tree with
  | .error _ => none
  | .ok s => finish tree s

/-! ## `setMatrix` -/

/-- The pairs `(i, j)` of the first loop nest of `setMatrix`, in order. -/
def matrixIndices : List (Nat × Nat) :=
  (List.range 3).flatMap fun i => (List.range 4).map fun j => (i, j)

/-- Body of the first loop nest of `setMatrix`, `m j i` being `m[j][i]`:
`assert(matrix[index]->op == OP_MUTABLE); matrix[index++]->mutable_value = m[j][i]`. -/
def setMatrixStep {α : Type} (matrix : List Nat) (m : Nat → Nat → α) (s : Option (Arena α × Nat))
    (ij : Nat × Nat) : Option (Arena α × Nat) :=
  match s with
  | none => none
  | some (d, index) =>
    match matrix[index]? with
    | none => none
    | some c =>
      match d.get c with
      | none => none
      | some cl =>
        if cl.op = Opcode.OP_MUTABLE then
          some (Arena.modify (fun x => { x with mutable_value := m ij.2 ij.1 }) d c, index + 1)
        else none

/-- Modelled from the spec: `Result::fill(v)`, the `K`-slot buffer filled with `v`. -/
def Clause.fill {α : Type} (K : Nat) (c : Clause α) : Clause α :=
  { c with result := List.replicate K c.mutable_value }

/-- `Evaluator::setMatrix`; `none` is a failed `assert`. -/
def Evaluator.setMatrix {α : Type} (K : Nat) (m : Nat → Nat → α) (e : Evaluator α) :
    Option (Evaluator α) :=
  match matrixIndices.foldl (setMatrixStep e.matrix m) (some (e.data, 0)) with
  | none => none
  | some (d, _) =>
    some { e with data := e.matrix.foldl (fun d c => Arena.modify (Clause.fill K) d c) d }

/-- The atoms of a tree in the order the constructor visits them. -/
def Tree.atoms {α : Type} (tree : Tree α) : List (Atom α) :=
  tree.constants ++ [tree.X, tree.Y, tree.Z] ++ tree.matrix ++ tree.rows.flatten

/-- The addresses that have an entry in the identity map. -/
def AtomMap.keys (m : AtomMap) : List Nat := m.map Prod.fst

/-- The state of the constructor after the atoms `done`, with an arena of `cap` slots:
the cursor counts the atoms; slot `i` holds the clause of atom `i`, whose operand
references point to earlier clauses built from the atoms at the operand addresses; the
later slots are unconstructed; the identity map sends the address of every atom built so
far to a clause built from an atom at that address. -/
structure BuildInv {α : Type} (K : Nat) (cap : Nat) (done : List (Atom α)) (b : Builder α) :
    Prop where
  ptr_eq : b.ptr = done.length
  len_eq : b.data.length = cap
  ptr_le : b.ptr ≤ cap
  slot : ∀ i m, done[i]? = some m → ∃ ops, b.data.get i = some (Clause.ofAtom K m ops) ∧
    List.Forall₂ (fun a o => o < i ∧ (done[o]?).map Atom.id = some a) m.operands ops
  free : ∀ i, done.length ≤ i → b.data.get i = none
  map_val : ∀ a v, b.clauses.find a = some v → (done[v]?).map Atom.id = some a
  map_keys : b.clauses.keys.Nodup
  map_dom : ∀ a, a ∈ b.clauses.keys ↔ a ∈ done.map Atom.id

/-- The rows the constructor builds from the tiers `rs` when the cursor stands at `n`:
consecutive arena indices, nothing pruned, nothing saved. -/
def rowsFrom {α : Type} : Nat → List (List (Atom α)) → List Row
  | _, [] => []
  | n, r :: rs =>
    { clauses := List.range' n r.length, active := r.length, saved := [] }
      :: rowsFrom (n + r.length) rs

/-- The buffer after the writes `set(v, n)`, `set(v', n+1)`, ... -/
def writeFrom {α : Type} (buf : List α) : Nat → List α → List α
  | _, [] => buf
  | n, v :: vs => writeFrom (buf.set n v) (n + 1) vs


/-! ## Buffers as targets of write sequences -/

/-- A buffer after the writes `set(v, i)` of a sequence of pairs `(i, v)`. -/
def applyWrites {α : Type} (ws : List (Nat × α)) (buf : List α) : List α :=
  ws.foldl (fun b w => b.set w.1 w.2) buf

/-- The value the last write of a sequence to slot `s` stores, if there is one. -/
def lastWrite {α : Type} : List (Nat × α) → Nat → Option α
  | [], _ => none
  | w :: ws, s =>
    match lastWrite ws s with
    | some v => some v
    | none => if w.1 = s then some w.2 else none

/-- The writes of `evalSlots`: slot `s < count` gets the opcode's value on the operand
slots, when every operand buffer has that slot. -/
def evalWrites {α : Type} (sem : Opcode → List α → α) (op : Opcode) (args : List (List α))
    (count : Nat) : List (Nat × α) :=
  (List.range count).filterMap fun s => (slotValues args s).map fun vs => (s, sem op vs)

/-- The writes one pass of the flattening loop makes to the buffer of clause `c`. -/
def stepWrites {α : Type} (X Y Z : Nat) (r : Region α) (c : Nat) (n : Nat)
    (ijk : Nat × Nat × Nat) : List (Nat × α) :=
  (if X = c then [(n, r.X.pos ijk.1)] else [])
    ++ (if Y = c then [(n, r.Y.pos ijk.2.1)] else [])
    ++ (if Z = c then [(n, r.Z.pos (r.Z.size - ijk.2.2 - 1))] else [])

/-- The writes the flattening loop makes to the buffer of clause `c`, `index` starting
at `n`. -/
def flattenWrites {α : Type} (X Y Z : Nat) (r : Region α) (c : Nat) :
    Nat → List (Nat × Nat × Nat) → List (Nat × α)
  | _, [] => []
  | n, ijk :: l => stepWrites X Y Z r c n ijk ++ flattenWrites X Y Z r c (n + 1) l

/-- The buffer `evalClause` computes for clause `c` from the buffer `buf`, the opcode and
operand references being read in `shape` and the operand buffers in `ref`. -/
def evalBuf {α : Type} (sem : Opcode → List α → α) (count : Nat) (shape ref : Arena α)
    (c : Nat) (buf : List α) : List α :=
  match shape.get c with
  | some cl => evalSlots sem cl.op (cl.operands.map ref.resultOf) buf count
  | none => buf

/-- An evaluation order in which no clause is evaluated before an operand of it is: an
operand of a clause of the sequence occurs neither at its place nor later. -/
def SeqOrdered {α : Type} (d : Arena α) : List Nat → Prop
  | [] => True
  | c :: l => (∀ o ∈ d.operandsOf c, o ∉ c :: l) ∧ SeqOrdered d l

/-- The writes `evalBuf` makes. -/
def evalBufWrites {α : Type} (sem : Opcode → List α → α) (count : Nat) (shape ref : Arena α)
    (c : Nat) : List (Nat × α) :=
  match shape.get c with
  | some cl => evalWrites sem cl.op (cl.operands.map ref.resultOf) count
  | none => []

instance decSeqOrdered {α : Type} (d : Arena α) : (l : List Nat) → Decidable (SeqOrdered d l)
  | [] => isTrue trivial
  | _ :: l => @instDecidableAnd _ _ inferInstance (decSeqOrdered d l)

/-- The state after `n` calls of `push()`. -/
def pushN {α : Type} : Nat → Evaluator α → Evaluator α
  | 0, e => e
  | n + 1, e => (pushN n e).push

/-- The state after `k` calls of `pop()`, when each of them finds a saved count. -/
def popN {α : Type} : Nat → Evaluator α → Option (Evaluator α)
  | 0, e => some e
  | k + 1, e => (e.pop).bind (popN k)

/-- Two rows carry the same counts: the same `active` and the same saved state. -/
def Row.sameCounts (row row' : Row) : Prop :=
  row.active = row'.active ∧ row.saved = row'.saved

/-! ## Concrete instances -/

/-- Integer kernels for some opcodes. -/
def intSem : Opcode → List Int → Int
  | .OP_ADD, [x, y] => x + y
  | .OP_SUB, [x, y] => x - y
  | .OP_MUL, [x, y] => x * y
  | .OP_MIN, [x, y] => min x y
  | .OP_MAX, [x, y] => max x y
  | .OP_NEG, [x] => -x
  | _, _ => 0

/-- An atom with integer value. -/
def intAtom (id : Nat) (op : Opcode) (operands : List Nat) (value : Int) : Atom Int :=
  { id := id, op := op, operands := operands, value := value }

/-- The twelve transform-parameter atoms, at the addresses `10 .. 21`. -/
def matrixAtoms : List (Atom Int) :=
  (List.range 12).map fun i => intAtom (10 + i) Opcode.OP_MUTABLE [] 0

/-- The tree `root = -(X + 5)` with an unused product `Y * 5` in the first tier. -/
def prunedTree : Tree Int :=
  { constants := [intAtom 100 Opcode.OP_CONST [] 5]
    X := intAtom 1 Opcode.OP_X [] 0
    Y := intAtom 2 Opcode.OP_Y [] 0
    Z := intAtom 3 Opcode.OP_Z [] 0
    matrix := matrixAtoms
    rows := [[intAtom 201 Opcode.OP_MUL [2, 100] 0, intAtom 200 Opcode.OP_ADD [1, 100] 0],
             [intAtom 202 Opcode.OP_NEG [200] 0]]
    root := intAtom 202 Opcode.OP_NEG [200] 0 }

/-- The evaluator a failed construction stands for in the examples. -/
def noEvaluator : Evaluator Int :=
  { data := [], ptr := 0, constants := [], X := 0, Y := 0, Z := 0, matrix := [], rows := [],
    root := 0 }

/-- The result of a construction that is known to succeed. -/
def compiled (K : Nat) (tree : Tree Int) : Evaluator Int :=
  match compile K tree with
  | some e => e
  | none => noEvaluator

/-- The compiled evaluator of `prunedTree`, with batch capacity 8. -/
def prunedEvaluator : Evaluator Int := compiled 8 prunedTree

/-- The 2x2x2 region with the coordinates 10, 11 on X, 20, 21 on Y and 30, 31 on Z. -/
def cubeRegion : Region Int :=
  { X := { size := 2, pos := fun i => 10 + i }
    Y := { size := 2, pos := fun i => 20 + i }
    Z := { size := 2, pos := fun i => 30 + i } }

/-- The single point `(2, 0, 0)`. -/
def pointRegion : Region Int :=
  { X := { size := 1, pos := fun _ => 2 }
    Y := { size := 1, pos := fun _ => 0 }
    Z := { size := 1, pos := fun _ => 0 } }

/-- The matrix with `m[j][i] = 10*j + i`. -/
def sampleMatrix : Nat → Nat → Int := fun j i => 10 * j + i

/-- The evaluator `prunedEvaluator` after `setMatrix(sampleMatrix)`. -/
def transformedEvaluator : Evaluator Int :=
  match prunedEvaluator.setMatrix 8 sampleMatrix with
  | some e => e
  | none => noEvaluator

/-- What the constructor has built for `prunedTree` when it reaches its final `assert`. -/
def prunedBuilt : Built Int :=
  match build 8 prunedTree with
  | .ok s => s
  | .error _ =>
    { data := [], ptr := 0, clauses := [], constants := [], X := 0, Y := 0, Z := 0,
      matrix := [], rows := [] }

/-- The tree `prunedTree` with a root atom that is in no tier: the address 999 occurs
nowhere in the schedule. -/
def strayTree : Tree Int :=
  { prunedTree with root := intAtom 999 Opcode.OP_NEG [200] 0 }

/-- What the constructor has built for `strayTree` when it reaches its final `assert`. -/
def strayBuilt : Built Int :=
  match build 8 strayTree with
  | .ok s => s
  | .error _ =>
    { data := [], ptr := 0, clauses := [], constants := [], X := 0, Y := 0, Z := 0,
      matrix := [], rows := [] }

/-- A region of 3x3x1 = 9 sample points. -/
def nineRegion : Region Int :=
  { X := { size := 3, pos := fun i => i }
    Y := { size := 3, pos := fun i => i }
    Z := { size := 1, pos := fun _ => 0 } }

/-- The tree of the expression `X`: no operation, hence no row; the root is the `X`
leaf. -/
def leafTree : Tree Int :=
  { constants := []
    X := intAtom 1 Opcode.OP_X [] 0
    Y := intAtom 2 Opcode.OP_Y [] 0
    Z := intAtom 3 Opcode.OP_Z [] 0
    matrix := matrixAtoms
    rows := []
    root := intAtom 1 Opcode.OP_X [] 0 }

/-- The compiled evaluator of `leafTree`, with batch capacity 8. -/
def leafEvaluator : Evaluator Int := compiled 8 leafTree

/-- The tree `root = X + constant(five)`: one constant, one row that holds the addition.
The atoms other than the constant carry the value `zero`. -/
def sumTree {α : Type} (zero five : α) : Tree α :=
  { constants := [{ id := 100, op := Opcode.OP_CONST, operands := [], value := five }]
    X := { id := 1, op := Opcode.OP_X, operands := [], value := zero }
    Y := { id := 2, op := Opcode.OP_Y, operands := [], value := zero }
    Z := { id := 3, op := Opcode.OP_Z, operands := [], value := zero }
    matrix := (List.range 12).map fun i =>
      { id := 10 + i, op := Opcode.OP_MUTABLE, operands := [], value := zero }
    rows := [[{ id := 200, op := Opcode.OP_ADD, operands := [1, 100], value := zero }]]
    root := { id := 200, op := Opcode.OP_ADD, operands := [1, 100], value := zero } }

/-- The region of the single point `(x, y, z)`. -/
def pointAt {α : Type} (x y z : α) : Region α :=
  { X := { size := 1, pos := fun _ => x }
    Y := { size := 1, pos := fun _ => y }
    Z := { size := 1, pos := fun _ => z } }

/-- The compiled evaluator of `sumTree`, written out: the constant is clause 0, the axes
the clauses 1 to 3, the parameters the clauses 4 to 15 and the addition clause 16. -/
def sumEvaluator {α : Type} (K : Nat) (zero five : α) : Evaluator α :=
  { data :=
      (sumTree zero five).atoms.map fun m =>
        some (Clause.ofAtom K m (if m.id = 200 then [1, 0] else []))
    ptr := 17
    constants := [0]
    X := 1
    Y := 2
    Z := 3
    matrix := [4, 5, 6, 7, 8, 9, 10, 11, 12, 13, 14, 15]
    rows := [{ clauses := [16], active := 1, saved := [] }]
    root := 16 }

/-- The identity matrix over values `zero` and `one`: entry `m[j][i]` is `one` on the
diagonal and `zero` elsewhere. -/
def identityMatrix {α : Type} (zero one : α) : Nat → Nat → α :=
  fun j i => if j = i then one else zero

/-- The atoms the constructor builds before the rows. -/
def Tree.leaves {α : Type} (tree : Tree α) : List (Atom α) :=
  tree.constants ++ [tree.X, tree.Y, tree.Z] ++ tree.matrix

/-- Modelled from the spec: the tiers `rs`, coming after the atoms `done`, place every
operand of an atom among `done` or in an earlier tier. -/
def scheduledFrom {α : Type} : List (Atom α) → List (List (Atom α)) → Prop
  | _, [] => True
  | done, r :: rs =>
    (∀ m ∈ r, ∀ a ∈ m.operands, a ∈ done.map Atom.id) ∧ scheduledFrom (done ++ r) rs

instance decScheduledFrom {α : Type} :
    ∀ (done : List (Atom α)) (rs : List (List (Atom α))), Decidable (scheduledFrom done rs)
  | _, [] => isTrue trivial
  | done, r :: rs =>
    have := decScheduledFrom (done ++ r) rs
    inferInstanceAs (Decidable
      ((∀ m ∈ r, ∀ a ∈ m.operands, a ∈ done.map Atom.id) ∧ scheduledFrom (done ++ r) rs))

/-- Modelled from the spec: the schedule contract of a tree.  The constants, the axis
variables and the transform parameters have no operands, and every operand of an atom of
a tier is one of them or an atom of an earlier tier. -/
def Scheduled {α : Type} (tree : Tree α) : Prop :=
  (∀ m ∈ tree.leaves, m.operands = []) ∧ scheduledFrom tree.leaves tree.rows

instance decScheduled {α : Type} (tree : Tree α) : Decidable (Scheduled tree) :=
  inferInstanceAs (Decidable
    ((∀ m ∈ tree.leaves, m.operands = []) ∧ scheduledFrom tree.leaves tree.rows))

/-- The bound of a row: the `active` count and every saved count are at most the number
of clauses of the row. -/
def Row.bounded (row : Row) : Prop :=
  row.active ≤ row.clauses.length ∧ ∀ n ∈ row.saved, n ≤ row.clauses.length

instance decRowBounded (row : Row) : Decidable row.bounded :=
  inferInstanceAs (Decidable
    (row.active ≤ row.clauses.length ∧ ∀ n ∈ row.saved, n ≤ row.clauses.length))

/-- A call of one of the public operations of an evaluator. -/
inductive Call (α : Type) where
  | setMatrix (m : Nat → Nat → α)
  | push
  | eval (r : Region α)
  | pop

/-- The state after one call; `none` when an `assert` fails or when `pop()` finds no
saved count, that is, when the `pop()` is not balanced by an earlier `push()`. -/
def Evaluator.call {α : Type} (sem : Opcode → List α → α) (K : Nat) (e : Evaluator α) :
    Call α → Option (Evaluator α)
  | .setMatrix m => e.setMatrix K m
  | .push => some e.push
  | .eval r => (e.eval sem K r).map Prod.fst
  | .pop => e.pop

/-- The state after a sequence of calls. -/
def Evaluator.calls {α : Type} (sem : Opcode → List α → α) (K : Nat) :
    List (Call α) → Evaluator α → Option (Evaluator α)
  | [], e => some e
  | c :: cs, e => (e.call sem K c).bind (Evaluator.calls sem K cs)

/-- A session on `prunedEvaluator`: two pushes around an evaluation and a transform
update, with one pop in between. -/
def sampleCalls : List (Call Int) :=
  [Call.push, Call.eval cubeRegion, Call.pop, Call.setMatrix sampleMatrix, Call.push,
    Call.push, Call.eval pointRegion]

/-- The rows are layered: an operand of a clause of a row is never a clause of that row
or of a later row, pruned or not. -/
def Layered {α : Type} (d : Arena α) : List Row → Prop
  | [] => True
  | row :: rest =>
    (∀ c ∈ row.clauses, ∀ o ∈ d.operandsOf c, ∀ r ∈ row :: rest, o ∉ r.clauses)
      ∧ Layered d rest

instance decLayered {α : Type} (d : Arena α) : (rows : List Row) → Decidable (Layered d rows)
  | [] => isTrue trivial
  | _ :: rest =>
    @instDecidableAnd _ _ inferInstance (decLayered d rest)

/-! # Lemmas -/

/-! ## Arena lemmas -/

theorem Arena.get_modify {α : Type} (f : Clause α → Clause α) (d : Arena α) (i j : Nat) :
    (Arena.modify f d i).get j = if i = j then (d.get j).map f else d.get j := by
  induction d generalizing i j with
  | nil => cases i <;> simp [Arena.modify, Arena.get]
  | cons c cs ih =>
    cases i with
    | zero =>
      cases j with
      | zero => simp [Arena.modify, Arena.get]
      | succ j => simp [Arena.modify, Arena.get]
    | succ i =>
      cases j with
      | zero => simp [Arena.modify, Arena.get]
      | succ j => simp [Arena.modify, Arena.get, ih]

theorem Arena.length_modify {α : Type} (f : Clause α → Clause α) (d : Arena α) (i : Nat) :
    (Arena.modify f d i).length = d.length := by
  induction d generalizing i with
  | nil => cases i <;> rfl
  | cons c cs ih => cases i <;> simp [Arena.modify, ih]

theorem FlagEq.flag_refl {α : Type} (d : Arena α) : FlagEq d d := fun _ => rfl

theorem FlagEq.flag_symm {α : Type} {d d' : Arena α} (h : FlagEq d d') : FlagEq d' d :=
  fun c => (h c).symm

theorem FlagEq.flag_trans {α : Type} {d d' d'' : Arena α} (h : FlagEq d d') (h' : FlagEq d' d'') :
    FlagEq d d'' := fun c => (h c).trans (h' c)

theorem flagEq_modify_setFlag {α : Type} (d : Arena α) (i : Nat) :
    FlagEq d (Arena.modify Clause.setFlag d i) := by
  intro c
  rw [Arena.get_modify]
  split
  · cases d.get c <;> simp [Clause.setFlag, Clause.clearFlag]
  · rfl

theorem flagEq_modify_clearFlag {α : Type} (d : Arena α) (i : Nat) :
    FlagEq d (Arena.modify Clause.clearFlag d i) := by
  intro c
  rw [Arena.get_modify]
  split
  · cases d.get c <;> simp [Clause.clearFlag]
  · rfl

theorem FlagEq.flag_operandsOf {α : Type} {d d' : Arena α} (h : FlagEq d d') (c : Nat) :
    d.operandsOf c = d'.operandsOf c := by
  have h0 := h c
  unfold Arena.operandsOf
  cases h1 : d.get c with
  | none =>
    cases h2 : d'.get c with
    | none => rfl
    | some b => rw [h1, h2] at h0; cases h0
  | some a =>
    cases h2 : d'.get c with
    | none => rw [h1, h2] at h0; cases h0
    | some b =>
      rw [h1, h2] at h0
      simp only [Option.map_some'] at h0
      have h3 := congrArg Clause.operands (Option.some.inj h0)
      exact h3

/-! ## Flags during `push` -/

theorem Arena.isIgnored_modify_clearFlag {α : Type} (d : Arena α) (i c : Nat) :
    (Arena.modify Clause.clearFlag d i).isIgnored c = if i = c then false else d.isIgnored c := by
  unfold Arena.isIgnored
  rw [Arena.get_modify]
  by_cases h : i = c
  · simp only [h, if_true]
    cases d.get c <;> simp [Clause.clearFlag]
  · simp only [h, if_false]

theorem flagEq_clearList {α : Type} (d : Arena α) (os : List Nat) : FlagEq d (clearList d os) := by
  induction os generalizing d with
  | nil => exact FlagEq.flag_refl d
  | cons o os ih => exact (flagEq_modify_clearFlag d o).flag_trans (ih _)

theorem isIgnored_clearList {α : Type} (d : Arena α) (os : List Nat) (x : Nat) :
    (clearList d os).isIgnored x = if x ∈ os then false else d.isIgnored x := by
  induction os generalizing d with
  | nil => simp [clearList]
  | cons o os ih =>
    have h := ih (Arena.modify Clause.clearFlag d o)
    simp only [clearList, List.foldl_cons] at h ⊢
    rw [h, Arena.isIgnored_modify_clearFlag]
    by_cases h1 : x ∈ os
    · simp [h1]
    · by_cases h2 : o = x
      · simp [h2]
      · have h3 : ¬ x = o := fun h => h2 h.symm
        simp [h1, h2, h3]

theorem clearOperands_eq {α : Type} (d : Arena α) (c : Nat) :
    clearOperands d c = if d.isIgnored c then d else clearList d (d.operandsOf c) := by
  unfold clearOperands Arena.isIgnored Arena.operandsOf clearList
  cases d.get c with
  | none => simp
  | some cl => simp

theorem flagEq_clearOperands {α : Type} (d : Arena α) (c : Nat) :
    FlagEq d (clearOperands d c) := by
  rw [clearOperands_eq]
  split
  · exact FlagEq.flag_refl d
  · exact flagEq_clearList d _

theorem isIgnored_clearOperands {α : Type} (d : Arena α) (c x : Nat) :
    (clearOperands d c).isIgnored x =
      if d.isIgnored c = false ∧ x ∈ d.operandsOf c then false else d.isIgnored x := by
  rw [clearOperands_eq]
  by_cases h : d.isIgnored c = true
  · simp [h]
  · have h' : d.isIgnored c = false := by simpa using h
    simp [h', isIgnored_clearList]

theorem flagEq_walk {α : Type} (d : Arena α) (l : List Nat) :
    FlagEq d (l.foldl clearOperands d) := by
  induction l generalizing d with
  | nil => exact FlagEq.flag_refl d
  | cons c l ih => exact (flagEq_clearOperands d c).flag_trans (ih _)

theorem walk_mono {α : Type} (d : Arena α) (l : List Nat) (x : Nat)
    (h : d.isIgnored x = false) : (l.foldl clearOperands d).isIgnored x = false := by
  induction l generalizing d with
  | nil => exact h
  | cons c l ih =>
    apply ih
    rw [isIgnored_clearOperands]
    split
    · rfl
    · exact h

theorem walk_frame {α : Type} (d : Arena α) (l : List Nat) (x : Nat)
    (h : ∀ c ∈ l, x ∉ d.operandsOf c) : (l.foldl clearOperands d).isIgnored x = d.isIgnored x := by
  induction l generalizing d with
  | nil => rfl
  | cons c l ih =>
    have hc : x ∉ d.operandsOf c := h c (List.mem_cons_self _ _)
    have h1 : (clearOperands d c).isIgnored x = d.isIgnored x := by
      rw [isIgnored_clearOperands]; simp [hc]
    simp only [List.foldl_cons]
    rw [ih (clearOperands d c), h1]
    intro c' hc'
    rw [← (flagEq_clearOperands d c).flag_operandsOf c']
    exact h c' (List.mem_cons_of_mem _ hc')

theorem walk_effect {α : Type} (d : Arena α) (l : List Nat)
    (hl : ∀ c ∈ l, ∀ c' ∈ l, c ∉ d.operandsOf c') :
    ∀ c ∈ l, d.isIgnored c = false →
      ∀ o ∈ d.operandsOf c, (l.foldl clearOperands d).isIgnored o = false := by
  induction l generalizing d with
  | nil => intro c hc; cases hc
  | cons a l ih =>
    intro c hc hi o ho
    have hops : ∀ y, (clearOperands d a).operandsOf y = d.operandsOf y :=
      fun y => ((flagEq_clearOperands d a).flag_operandsOf y).symm
    simp only [List.foldl_cons]
    rcases List.mem_cons.1 hc with rfl | hc'
    · apply walk_mono
      rw [isIgnored_clearOperands]
      simp [hi, ho]
    · apply ih (clearOperands d a) _ c hc'
      · rw [isIgnored_clearOperands]
        have : c ∉ d.operandsOf a := hl c hc a (List.mem_cons_self _ _)
        simp [this, hi]
      · rw [hops]; exact ho
      · intro y hy y' hy'
        rw [hops]
        exact hl y (List.mem_cons_of_mem _ hy) y' (List.mem_cons_of_mem _ hy')

theorem flagEq_pushRows {α : Type} (d : Arena α) (rows : List Row) :
    FlagEq d (pushRows d rows).1 := by
  induction rows with
  | nil => exact FlagEq.flag_refl d
  | cons row rest ih => exact ih.flag_trans (flagEq_walk _ _)

theorem pushRows_mono {α : Type} (d : Arena α) (rows : List Row) (x : Nat)
    (h : d.isIgnored x = false) : (pushRows d rows).1.isIgnored x = false := by
  induction rows with
  | nil => exact h
  | cons row rest ih => exact walk_mono _ _ _ ih

theorem Row.push_activeClauses {α : Type} (d : Arena α) (row : Row) :
    (Row.push d row).2.activeClauses
      = row.activeClauses.filter (fun c => !(Row.push d row).1.isIgnored c) := by
  simp [Row.push, Row.activeClauses, List.append_assoc]

theorem pushRows_tiered {α : Type} (d : Arena α) (rows : List Row) (ht : Tiered d rows) :
    (pushRows d rows).2.map Row.activeClauses
        = rows.map (fun row => row.activeClauses.filter (fun c => !(pushRows d rows).1.isIgnored c))
    ∧ (∀ row ∈ rows, ∀ c ∈ row.activeClauses, (pushRows d rows).1.isIgnored c = false →
        ∀ o ∈ d.operandsOf c, (pushRows d rows).1.isIgnored o = false) := by
  induction rows with
  | nil => exact ⟨rfl, fun row hrow => by cases hrow⟩
  | cons row rest ih =>
    obtain ⟨h1, h2⟩ := ht
    obtain ⟨ih1, ih2⟩ := ih h2
    have hops : ∀ y, (pushRows d rest).1.operandsOf y = d.operandsOf y :=
      fun y => ((flagEq_pushRows d rest).flag_operandsOf y).symm
    have hdF : (pushRows d (row :: rest)).1
        = row.activeClauses.foldl clearOperands (pushRows d rest).1 := rfl
    have hframe : ∀ r ∈ row :: rest, ∀ x ∈ r.activeClauses,
        (pushRows d (row :: rest)).1.isIgnored x = (pushRows d rest).1.isIgnored x := by
      intro r hr x hx
      rw [hdF]
      apply walk_frame
      intro c hc
      rw [hops]
      exact fun ho => h1 c hc x ho r hr hx
    constructor
    · show (Row.push (pushRows d rest).1 row).2.activeClauses
          :: (pushRows d rest).2.map Row.activeClauses = _
      rw [Row.push_activeClauses, ih1, List.map_cons]
      congr 1
      apply List.map_congr_left
      intro r hr
      apply List.filter_congr
      intro x hx
      rw [hframe r (List.mem_cons_of_mem _ hr) x hx]
    · intro r hr c hc hi o ho
      rw [hframe r hr c hc] at hi
      rcases List.mem_cons.1 hr with rfl | hr'
      · rw [hdF]
        apply walk_effect _ _ _ c hc hi o
        · rw [hops]; exact ho
        · intro y hy y' hy'
          rw [hops]
          exact fun hm => h1 y' hy' y hm r (List.mem_cons_self _ _) hy
      · rw [hdF]
        exact walk_mono _ _ _ (ih2 r hr' c hc hi o ho)

/-! ## Evaluation up to irrelevant clauses -/

theorem Agree.agree_symm {α : Type} {p : Nat → Bool} {d1 d2 : Arena α} (h : Agree p d1 d2) :
    Agree p d2 d1 := ⟨fun c => (h.1 c).symm, fun c hc => (h.2 c hc).symm⟩

theorem Agree.agree_trans {α : Type} {p : Nat → Bool} {d1 d2 d3 : Arena α} (h : Agree p d1 d2)
    (h' : Agree p d2 d3) : Agree p d1 d3 :=
  ⟨fun c => (h.1 c).trans (h'.1 c), fun c hc => (h.2 c hc).trans (h'.2 c hc)⟩

theorem FlagEq.agree {α : Type} {d d' : Arena α} (h : FlagEq d d') (p : Nat → Bool) :
    Agree p d d' := by
  have key : ∀ c, (d.get c).map Clause.shape = (d'.get c).map Clause.shape
      ∧ (d.get c).map Clause.result = (d'.get c).map Clause.result := by
    intro c
    have h0 := h c
    cases h1 : d.get c with
    | none =>
      cases h2 : d'.get c with
      | none => exact ⟨rfl, rfl⟩
      | some b => rw [h1, h2] at h0; cases h0
    | some a =>
      cases h2 : d'.get c with
      | none => rw [h1, h2] at h0; cases h0
      | some b =>
        rw [h1, h2] at h0
        simp only [Option.map_some'] at h0
        have h3 := congrArg Clause.shape (Option.some.inj h0)
        have h4 := congrArg Clause.result (Option.some.inj h0)
        exact ⟨congrArg some h3, congrArg some h4⟩
  exact ⟨fun c => (key c).1, fun c _ => (key c).2⟩

theorem Arena.resultOf_eq {α : Type} (d : Arena α) (c : Nat) :
    d.resultOf c = ((d.get c).map Clause.result).getD [] := by
  unfold Arena.resultOf
  cases d.get c <;> rfl

theorem Arena.operandsOf_eq {α : Type} (d : Arena α) (c : Nat) :
    d.operandsOf c = ((d.get c).map Clause.shape).elim [] Prod.snd := by
  unfold Arena.operandsOf
  cases d.get c <;> rfl

theorem Agree.resultOf {α : Type} {p : Nat → Bool} {d1 d2 : Arena α} (h : Agree p d1 d2)
    {c : Nat} (hc : p c = true) : d1.resultOf c = d2.resultOf c := by
  rw [Arena.resultOf_eq, Arena.resultOf_eq, h.2 c hc]

theorem Agree.agree_operandsOf {α : Type} {p : Nat → Bool} {d1 d2 : Arena α} (h : Agree p d1 d2)
    (c : Nat) : d1.operandsOf c = d2.operandsOf c := by
  rw [Arena.operandsOf_eq, Arena.operandsOf_eq, h.1 c]

theorem get_evalClause {α : Type} (sem : Opcode → List α → α) (count : Nat) (d : Arena α)
    (c x : Nat) :
    (evalClause sem count d c).get x
      = if c = x then (d.get x).map (Clause.evaluated sem count d) else d.get x := by
  unfold evalClause
  cases h : d.get c with
  | none =>
    by_cases hx : c = x
    · subst hx; simp [h]
    · simp [hx]
  | some cl =>
    simp only [Arena.get_modify]
    by_cases hx : c = x
    · subst hx; simp [h, Clause.evaluated]
    · simp [hx]

theorem agree_evalClause_self {α : Type} (sem : Opcode → List α → α) (count : Nat)
    (p : Nat → Bool) (d : Arena α) (c : Nat) (hc : p c = false) :
    Agree p (evalClause sem count d c) d := by
  constructor
  · intro x
    rw [get_evalClause]
    split
    · cases d.get x <;> rfl
    · rfl
  · intro x hx
    rw [get_evalClause]
    have : c ≠ x := fun h => by rw [h, hx] at hc; cases hc
    simp [this]

theorem agree_evalClause_both {α : Type} (sem : Opcode → List α → α) (count : Nat)
    (p : Nat → Bool) (d1 d2 : Arena α) (c : Nat) (h : Agree p d1 d2) (hc : p c = true)
    (ho : ∀ o ∈ d1.operandsOf c, p o = true) :
    Agree p (evalClause sem count d1 c) (evalClause sem count d2 c) := by
  constructor
  · intro x
    rw [get_evalClause, get_evalClause]
    have := h.1 x
    split
    · cases h1 : d1.get x <;> cases h2 : d2.get x <;> simp_all [Clause.shape, Clause.evaluated]
    · exact this
  · intro x hx
    rw [get_evalClause, get_evalClause]
    by_cases hcx : c = x
    · subst hcx
      simp only [if_true]
      have hs := h.1 c
      have hr := h.2 c hc
      cases h1 : d1.get c with
      | none =>
        cases h2 : d2.get c with
        | none => rfl
        | some b => rw [h1, h2] at hs; cases hs
      | some a =>
        cases h2 : d2.get c with
        | none => rw [h1, h2] at hs; cases hs
        | some b =>
          rw [h1, h2] at hs hr
          simp only [Option.map_some', Option.some.injEq, Clause.shape, Prod.mk.injEq] at hs hr
          have hops : d1.operandsOf c = a.operands := by simp [Arena.operandsOf, h1]
          have hargs : a.operands.map d1.resultOf = a.operands.map d2.resultOf := by
            apply List.map_congr_left
            intro o hmem
            exact h.resultOf (ho o (hops ▸ hmem))
          simp only [Option.map_some', Clause.evaluated, hs.1, ← hs.2, hr, hargs]
    · simp only [hcx, if_false]
      exact h.2 x hx

theorem operandsOf_evalClause {α : Type} (sem : Opcode → List α → α) (count : Nat)
    (d : Arena α) (c x : Nat) : (evalClause sem count d c).operandsOf x = d.operandsOf x := by
  rw [Arena.operandsOf_eq, Arena.operandsOf_eq, get_evalClause]
  by_cases h : c = x
  · simp only [h, if_true]
    cases d.get x <;> rfl
  · simp only [h, if_false]

theorem agree_evalSeq_filter {α : Type} (sem : Opcode → List α → α) (count : Nat)
    (p : Nat → Bool) (l : List Nat) (d1 d2 : Arena α) (h : Agree p d1 d2)
    (hcl : ∀ c ∈ l, p c = true → ∀ o ∈ d1.operandsOf c, p o = true) :
    Agree p (l.foldl (evalClause sem count) d1) ((l.filter p).foldl (evalClause sem count) d2) := by
  induction l generalizing d1 d2 with
  | nil => exact h
  | cons c l ih =>
    have hcl' : ∀ c' ∈ l, p c' = true →
        ∀ o ∈ (evalClause sem count d1 c).operandsOf c', p o = true := by
      intro c' hc' hp o ho
      rw [operandsOf_evalClause] at ho
      exact hcl c' (List.mem_cons_of_mem _ hc') hp o ho
    by_cases hc : p c = true
    · rw [List.filter_cons_of_pos hc]
      simp only [List.foldl_cons]
      exact ih _ _ (agree_evalClause_both sem count p d1 d2 c h hc
        (hcl c (List.mem_cons_self _ _) hc)) hcl'
    · have hc' : p c = false := by simpa using hc
      rw [List.filter_cons_of_neg hc]
      simp only [List.foldl_cons]
      exact ih _ _ ((agree_evalClause_self sem count p d1 c hc').agree_trans h) hcl'

theorem foldl_rows_eq {α : Type} (f : Arena α → Nat → Arena α) (rows : List Row) (d : Arena α) :
    rows.foldl (fun d row => row.activeClauses.foldl f d) d = (activeSeq rows).foldl f d := by
  induction rows generalizing d with
  | nil => rfl
  | cons row rest ih => simp [activeSeq, List.foldl_append, ih]

theorem agree_modify_setResult {α : Type} (p : Nat → Bool) (d1 d2 : Arena α) (v : α)
    (i x : Nat) (h : Agree p d1 d2) :
    Agree p (Arena.modify (Clause.setResult v i) d1 x) (Arena.modify (Clause.setResult v i) d2 x) := by
  constructor
  · intro c
    rw [Arena.get_modify, Arena.get_modify]
    have := h.1 c
    split
    · cases h1 : d1.get c <;> cases h2 : d2.get c <;> simp_all [Clause.shape, Clause.setResult]
    · exact this
  · intro c hc
    rw [Arena.get_modify, Arena.get_modify]
    have := h.2 c hc
    split
    · cases h1 : d1.get c <;> cases h2 : d2.get c <;> simp_all [Clause.setResult]
    · exact this

theorem agree_flatten {α : Type} (p : Nat → Bool) (X Y Z : Nat) (r : Region α)
    (d1 d2 : Arena α) (h : Agree p d1 d2) :
    Agree p (flatten X Y Z r d1).1 (flatten X Y Z r d2).1 := by
  unfold flatten
  generalize REGION_ITERATE_XYZ r = l
  generalize 0 = n
  induction l generalizing d1 d2 n with
  | nil => exact h
  | cons a l ih =>
    simp only [List.foldl_cons, flattenStep]
    apply ih
    exact agree_modify_setResult _ _ _ _ _ _
      (agree_modify_setResult _ _ _ _ _ _ (agree_modify_setResult _ _ _ _ _ _ h))

theorem activeSeq_eq_flatten (rows : List Row) :
    activeSeq rows = (rows.map Row.activeClauses).flatten := by
  simp [activeSeq, List.flatMap]

theorem filter_activeSeq (p : Nat → Bool) (rows : List Row) :
    (activeSeq rows).filter p = ((rows.map (fun row => row.activeClauses.filter p))).flatten := by
  induction rows with
  | nil => rfl
  | cons row rest ih =>
    simp only [activeSeq, List.flatMap_cons, List.filter_append, List.map_cons,
      List.flatten_cons] at ih ⊢
    rw [ih]

theorem shape_flatten {α : Type} (X Y Z : Nat) (r : Region α) (d : Arena α) (c : Nat) :
    ((flatten X Y Z r d).1.get c).map Clause.shape = (d.get c).map Clause.shape := by
  unfold flatten
  generalize REGION_ITERATE_XYZ r = l
  generalize 0 = n
  induction l generalizing d n with
  | nil => rfl
  | cons a l ih =>
    simp only [List.foldl_cons, flattenStep]
    rw [ih]
    simp only [Arena.get_modify]
    split_ifs <;> cases d.get c <;> rfl

theorem operandsOf_flatten {α : Type} (X Y Z : Nat) (r : Region α) (d : Arena α) (c : Nat) :
    (flatten X Y Z r d).1.operandsOf c = d.operandsOf c := by
  rw [Arena.operandsOf_eq, Arena.operandsOf_eq, shape_flatten]

theorem flagEq_markRows {α : Type} (d : Arena α) (rows : List Row) :
    FlagEq d (markRows d rows) := by
  have inner : ∀ (l : List Nat) (d : Arena α),
      FlagEq d (l.foldl (fun d c => Arena.modify Clause.setFlag d c) d) := by
    intro l
    induction l with
    | nil => exact fun d => FlagEq.flag_refl d
    | cons c l ih => exact fun d => (flagEq_modify_setFlag d c).flag_trans (ih _)
  unfold markRows
  induction rows generalizing d with
  | nil => exact FlagEq.flag_refl d
  | cons row rest ih => exact (inner _ d).flag_trans (ih _)

theorem tiered_congr {α : Type} {d d' : Arena α} (h : ∀ c, d.operandsOf c = d'.operandsOf c)
    (rows : List Row) (ht : Tiered d rows) : Tiered d' rows := by
  induction rows with
  | nil => trivial
  | cons row rest ih =>
    refine ⟨?_, ih ht.2⟩
    intro c hc o ho
    exact ht.1 c hc o (h c ▸ ho)

theorem Evaluator.push_data {α : Type} (e : Evaluator α) :
    e.push.data = (pushRows e.marked e.rows).1 := rfl

theorem Evaluator.push_rows {α : Type} (e : Evaluator α) :
    e.push.rows = (pushRows e.marked e.rows).2 := rfl

theorem Evaluator.flagEq_marked {α : Type} (e : Evaluator α) : FlagEq e.data e.marked :=
  (flagEq_markRows e.data e.rows).flag_trans (flagEq_modify_clearFlag _ _)

theorem Evaluator.flagEq_push {α : Type} (e : Evaluator α) : FlagEq e.data e.push.data :=
  e.flagEq_marked.flag_trans (flagEq_pushRows _ _)

theorem Evaluator.root_not_ignored {α : Type} (e : Evaluator α) :
    e.push.data.isIgnored e.root = false := by
  rw [Evaluator.push_data]
  apply pushRows_mono
  unfold Evaluator.marked
  rw [Arena.isIgnored_modify_clearFlag]
  simp

theorem Evaluator.push_closed {α : Type} (e : Evaluator α) (ht : Tiered e.data e.rows) :
    ∀ c ∈ activeSeq e.rows, e.push.data.isIgnored c = false →
      ∀ o ∈ e.data.operandsOf c, e.push.data.isIgnored o = false := by
  intro c hc hi o ho
  have ht' : Tiered e.marked e.rows := tiered_congr (fun c => e.flagEq_marked.flag_operandsOf c) _ ht
  obtain ⟨row, hrow, hmem⟩ := List.mem_flatMap.1 hc
  rw [Evaluator.push_data] at hi ⊢
  exact (pushRows_tiered e.marked e.rows ht').2 row hrow c hmem hi o
    (e.flagEq_marked.flag_operandsOf c ▸ ho)

theorem Evaluator.needed_not_ignored {α : Type} (e : Evaluator α) (ht : Tiered e.data e.rows)
    (c : Nat) (h : Needed e c) : e.push.data.isIgnored c = false := by
  induction h with
  | root => exact e.root_not_ignored
  | operand c o _ hc ho ih => exact e.push_closed ht c hc ih o ho

theorem Evaluator.push_activeSeq {α : Type} (e : Evaluator α) (ht : Tiered e.data e.rows) :
    activeSeq e.push.rows = (activeSeq e.rows).filter (fun c => !e.push.data.isIgnored c) := by
  have ht' : Tiered e.marked e.rows := tiered_congr (fun c => e.flagEq_marked.flag_operandsOf c) _ ht
  rw [filter_activeSeq, activeSeq_eq_flatten, Evaluator.push_rows, Evaluator.push_data,
    (pushRows_tiered e.marked e.rows ht').1]


theorem forall₂_of_map_eq {A B C : Type} (f : A → C) (g : B → C) (l : List A) (l' : List B)
    (h : l.map f = l'.map g) : List.Forall₂ (fun a b => f a = g b) l l' := by
  induction l generalizing l' with
  | nil =>
    cases l' with
    | nil => exact List.Forall₂.nil
    | cons b l' => cases h
  | cons a l ih =>
    cases l' with
    | nil => cases h
    | cons b l' =>
      simp only [List.map_cons, List.cons.injEq] at h
      exact List.Forall₂.cons h.1 (ih _ h.2)

theorem Evaluator.eval_of_le {α : Type} (sem : Opcode → List α → α) (K : Nat) (e : Evaluator α)
    (r : Region α) (hk : r.voxels ≤ K) :
    e.eval sem K r
      = some ({ e with data := e.evalData sem r }, (e.evalData sem r).resultOf e.root) := by
  simp only [Evaluator.eval, hk, if_true, evalCore, foldl_rows_eq, Evaluator.evalData]

theorem Evaluator.push_evalData_agree {α : Type} (sem : Opcode → List α → α) (e : Evaluator α)
    (r : Region α) (ht : Tiered e.data e.rows) :
    Agree (fun c => !e.push.data.isIgnored c) (e.evalData sem r) (e.push.evalData sem r) := by
  have h0 : Agree (fun c => !e.push.data.isIgnored c) (flatten e.X e.Y e.Z r e.data).1
      (flatten e.X e.Y e.Z r e.push.data).1 :=
    agree_flatten _ _ _ _ _ _ _ (e.flagEq_push.agree _)
  have h1 := agree_evalSeq_filter sem r.voxels _ (activeSeq e.rows) _ _ h0 (by
    intro c hc hp o ho
    rw [operandsOf_flatten] at ho
    have := e.push_closed ht c hc (by simpa using hp) o ho
    simpa using this)
  rw [← e.push_activeSeq ht] at h1
  exact h1

theorem Row.pop_push_row {α : Type} (d : Arena α) (row : Row) :
    Row.pop (Row.push d row).2 = some (Row.unpush row (Row.push d row).2) := rfl

theorem popRows_pushRows {α : Type} (d : Arena α) (rows : List Row) :
    popRows (pushRows d rows).2 = some (List.zipWith Row.unpush rows (pushRows d rows).2) := by
  induction rows with
  | nil => rfl
  | cons row rest ih =>
    show popRows ((Row.push (pushRows d rest).1 row).2 :: (pushRows d rest).2) = _
    simp only [popRows, Row.pop_push_row, ih, Option.map_some']
    rfl

theorem length_pushRows {α : Type} (d : Arena α) (rows : List Row) :
    (pushRows d rows).2.length = rows.length := by
  induction rows with
  | nil => rfl
  | cons row rest ih => simp [pushRows, ih]

theorem map_active_unpush (rows qs : List Row) (h : qs.length = rows.length) :
    (List.zipWith Row.unpush rows qs).map Row.active = rows.map Row.active := by
  induction rows generalizing qs with
  | nil => simp
  | cons row rest ih =>
    cases qs with
    | nil => simp at h
    | cons q qs =>
      simp only [List.zipWith_cons_cons, List.map_cons, List.cons.injEq]
      exact ⟨rfl, ih qs (by simpa using h)⟩

theorem Evaluator.pop_push {α : Type} (e : Evaluator α) :
    e.push.pop = some e.restored := by
  simp only [Evaluator.pop, Evaluator.push_rows, popRows_pushRows, Option.map_some',
    Evaluator.restored]

theorem take_partition (p : Nat → Bool) (cs : List Nat) (a : Nat) :
    ((cs.take a).filter (fun c => !p c) ++ (cs.take a).filter p ++ cs.drop a).take a
      = (cs.take a).filter (fun c => !p c) ++ (cs.take a).filter p := by
  have hperm := List.filter_append_perm (fun c => !p c) (cs.take a)
  have hlen : ((cs.take a).filter (fun c => !p c) ++ (cs.take a).filter p).length
      = min a cs.length := by
    have := hperm.length_eq
    simp only [Bool.not_not] at this
    rw [this, List.length_take]
  rw [List.take_append_eq_append_take, List.take_of_length_le (by rw [hlen]; exact min_le_left _ _),
    hlen]
  rcases Nat.le_total a cs.length with h | h
  · rw [Nat.min_eq_left h, Nat.sub_self, List.take_zero, List.append_nil]
  · rw [List.drop_eq_nil_of_le h, List.take_nil, List.append_nil]

theorem Row.unpush_activeClauses {α : Type} (d : Arena α) (row : Row) :
    (Row.unpush row (Row.push d row).2).activeClauses
      = row.activeClauses.filter (fun c => !(Row.push d row).1.isIgnored c)
        ++ row.activeClauses.filter (fun c => (Row.push d row).1.isIgnored c) := by
  simp only [Row.unpush, Row.push, Row.activeClauses]
  exact take_partition _ _ _

theorem pushRows_stable {α : Type} (d : Arena α) (row : Row) (rest : List Row)
    (ht : Tiered d (row :: rest)) :
    ∀ r ∈ row :: rest, ∀ x ∈ r.activeClauses,
      (pushRows d (row :: rest)).1.isIgnored x = (pushRows d rest).1.isIgnored x := by
  intro r hr x hx
  show (row.activeClauses.foldl clearOperands (pushRows d rest).1).isIgnored x = _
  apply walk_frame
  intro c hc
  rw [← (flagEq_pushRows d rest).flag_operandsOf c]
  exact fun ho => ht.1 c hc x ho r hr hx

theorem pushRows_unpush {α : Type} (d : Arena α) (rows : List Row) (ht : Tiered d rows) :
    (List.zipWith Row.unpush rows (pushRows d rows).2).map Row.activeClauses
      = rows.map (fun row =>
          row.activeClauses.filter (fun c => !(pushRows d rows).1.isIgnored c)
            ++ row.activeClauses.filter (fun c => (pushRows d rows).1.isIgnored c)) := by
  induction rows with
  | nil => rfl
  | cons row rest ih =>
    have hst := pushRows_stable d row rest ht
    show (Row.unpush row (Row.push (pushRows d rest).1 row).2).activeClauses
      :: (List.zipWith Row.unpush rest (pushRows d rest).2).map Row.activeClauses = _
    rw [Row.unpush_activeClauses, ih ht.2, List.map_cons]
    congr 1
    apply List.map_congr_left
    intro r hr
    have hr' : r ∈ row :: rest := List.mem_cons_of_mem _ hr
    congr 1
    · exact List.filter_congr (fun x hx => by rw [hst r hr' x hx])
    · exact List.filter_congr (fun x hx => by rw [hst r hr' x hx])

theorem filter_partition (p : Nat → Bool) (l : List Nat) :
    (l.filter p ++ l.filter (fun c => !p c)).filter p = l.filter p := by
  rw [List.filter_append, List.filter_filter, List.filter_filter]
  simp

theorem Evaluator.pop_push_activeSeq {α : Type} (e : Evaluator α) (ht : Tiered e.data e.rows) :
    ((activeSeq (List.zipWith Row.unpush e.rows e.push.rows)).filter
        (fun c => !e.push.data.isIgnored c)
      = (activeSeq e.rows).filter (fun c => !e.push.data.isIgnored c))
    ∧ ∀ c ∈ activeSeq (List.zipWith Row.unpush e.rows e.push.rows), c ∈ activeSeq e.rows := by
  have ht' : Tiered e.marked e.rows := tiered_congr (fun c => e.flagEq_marked.flag_operandsOf c) _ ht
  have hmap := pushRows_unpush e.marked e.rows ht'
  rw [← Evaluator.push_rows, ← Evaluator.push_data] at hmap
  constructor
  · have hsplit : ∀ l : List Row,
        l.map (fun row => row.activeClauses.filter (fun c => !e.push.data.isIgnored c))
          = (l.map Row.activeClauses).map (List.filter (fun c => !e.push.data.isIgnored c)) := by
      intro l
      rw [List.map_map]
      rfl
    rw [filter_activeSeq, filter_activeSeq, hsplit (List.zipWith _ _ _), hmap, List.map_map]
    congr 1
    apply List.map_congr_left
    intro row _
    have := filter_partition (fun c => !e.push.data.isIgnored c) row.activeClauses
    simp at this
    simp [this]
  · intro c hc
    rw [activeSeq_eq_flatten, hmap] at hc
    obtain ⟨l, hl, hcl⟩ := List.mem_flatten.1 hc
    obtain ⟨row, hrow, rfl⟩ := List.mem_map.1 hl
    rw [List.mem_append, List.mem_filter, List.mem_filter] at hcl
    exact List.mem_flatMap.2 ⟨row, hrow, hcl.elim And.left And.left⟩

theorem Evaluator.pop_push_evalData_agree {α : Type} (sem : Opcode → List α → α)
    (e : Evaluator α) (r : Region α) (ht : Tiered e.data e.rows) :
    Agree (fun c => !e.push.data.isIgnored c) (e.evalData sem r)
      (e.restored.evalData sem r) := by
  have h0 : Agree (fun c => !e.push.data.isIgnored c) (flatten e.X e.Y e.Z r e.data).1
      (flatten e.X e.Y e.Z r e.push.data).1 :=
    agree_flatten _ _ _ _ _ _ _ (e.flagEq_push.agree _)
  have hcl : ∀ c ∈ activeSeq e.rows, (fun c => !e.push.data.isIgnored c) c = true →
      ∀ o ∈ e.data.operandsOf c, (fun c => !e.push.data.isIgnored c) o = true := by
    intro c hc hp o ho
    have := e.push_closed ht c hc (by simpa using hp) o ho
    simpa using this
  have h1 := agree_evalSeq_filter sem r.voxels _ (activeSeq e.rows) _ _ h0 (by
    intro c hc hp o ho
    rw [operandsOf_flatten] at ho
    exact hcl c hc hp o ho)
  have h2 := agree_evalSeq_filter sem r.voxels (fun c => !e.push.data.isIgnored c)
    (activeSeq (List.zipWith Row.unpush e.rows e.push.rows))
    (flatten e.X e.Y e.Z r e.push.data).1 (flatten e.X e.Y e.Z r e.push.data).1
    ⟨fun _ => rfl, fun _ _ => rfl⟩ (by
      intro c hc hp o ho
      rw [operandsOf_flatten, ← e.flagEq_push.flag_operandsOf c] at ho
      exact hcl c ((e.pop_push_activeSeq ht).2 c hc) hp o ho)
  rw [(e.pop_push_activeSeq ht).1] at h2
  exact h1.agree_trans h2.agree_symm

/-! ## Construction -/

theorem Arena.get_place {α : Type} (c : Clause α) (d : Arena α) (i j : Nat) :
    (Arena.place c d i).get j = if i = j ∧ i < d.length then some c else d.get j := by
  induction d generalizing i j with
  | nil => cases i <;> simp [Arena.place, Arena.get]
  | cons x xs ih =>
    cases i with
    | zero =>
      cases j with
      | zero => simp [Arena.place, Arena.get]
      | succ j => simp [Arena.place, Arena.get]
    | succ i =>
      cases j with
      | zero => simp [Arena.place, Arena.get]
      | succ j => simp [Arena.place, Arena.get, ih]

theorem Arena.length_place {α : Type} (c : Clause α) (d : Arena α) (i : Nat) :
    (Arena.place c d i).length = d.length := by
  induction d generalizing i with
  | nil => cases i <;> rfl
  | cons x xs ih => cases i <;> simp [Arena.place, ih]

theorem Arena.get_replicate_none {α : Type} (n i : Nat) :
    Arena.get (List.replicate n (none : Option (Clause α))) i = none := by
  induction n generalizing i with
  | zero => rfl
  | succ n ih => cases i <;> simp [List.replicate_succ, Arena.get, ih]

theorem AtomMap.find_insert (m : AtomMap) (a c x : Nat) :
    AtomMap.find (AtomMap.insert m a c) x = if a = x then some c else AtomMap.find m x := by
  induction m with
  | nil => simp [AtomMap.insert, AtomMap.find]
  | cons kv m ih =>
    obtain ⟨k, v⟩ := kv
    by_cases hk : k = a
    · subst hk
      by_cases hx : k = x
      · simp [AtomMap.insert, AtomMap.find, hx]
      · simp [AtomMap.insert, AtomMap.find, hx]
    · by_cases hx : k = x
      · subst hx
        have : ¬ a = k := fun h => hk h.symm
        simp [AtomMap.insert, AtomMap.find, hk, this]
      · simp [AtomMap.insert, AtomMap.find, hk, hx, ih]

theorem AtomMap.mem_keys_insert (m : AtomMap) (a c x : Nat) :
    x ∈ AtomMap.keys (AtomMap.insert m a c) ↔ x = a ∨ x ∈ (AtomMap.keys m) := by
  induction m with
  | nil => simp [AtomMap.insert, AtomMap.keys]
  | cons kv m ih =>
    obtain ⟨k, v⟩ := kv
    by_cases hk : k = a
    · subst hk
      simp [AtomMap.insert, AtomMap.keys]
    · simp only [AtomMap.keys] at ih
      simp only [AtomMap.insert, hk, if_false, AtomMap.keys, List.map_cons, List.mem_cons, ih]
      tauto

theorem AtomMap.nodup_keys_insert (m : AtomMap) (a c : Nat) (h : (AtomMap.keys m).Nodup) :
    (AtomMap.keys (AtomMap.insert m a c)).Nodup := by
  induction m with
  | nil => simp [AtomMap.insert, AtomMap.keys]
  | cons kv m ih =>
    obtain ⟨k, v⟩ := kv
    have h' : k ∉ (AtomMap.keys m) ∧ (AtomMap.keys m).Nodup := by simpa [AtomMap.keys] using h
    by_cases hk : k = a
    · subst hk
      simpa [AtomMap.insert, AtomMap.keys] using h
    · have hmem := AtomMap.mem_keys_insert m a c k
      have : k ∉ AtomMap.keys (AtomMap.insert m a c) := by
        rw [hmem]
        rintro (h1 | h1)
        · exact hk h1
        · exact h'.1 h1
      simp only [AtomMap.insert, hk, if_false]
      exact List.nodup_cons.2 ⟨this, ih h'.2⟩

theorem AtomMap.length_insert_of_not_mem (m : AtomMap) (a c : Nat) (h : a ∉ (AtomMap.keys m)) :
    (AtomMap.insert m a c).length = m.length + 1 := by
  induction m with
  | nil => rfl
  | cons kv m ih =>
    obtain ⟨k, v⟩ := kv
    have h' : ¬ a = k ∧ a ∉ (AtomMap.keys m) := by simpa [AtomMap.keys] using h
    have hk : ¬ k = a := fun e => h'.1 e.symm
    simp [AtomMap.insert, hk, ih h'.2]

theorem AtomMap.find_isSome_iff (m : AtomMap) (a : Nat) :
    (AtomMap.find m a).isSome ↔ a ∈ (AtomMap.keys m) := by
  induction m with
  | nil => simp [AtomMap.find, AtomMap.keys]
  | cons kv m ih =>
    obtain ⟨k, v⟩ := kv
    simp only [AtomMap.keys] at ih
    by_cases hk : k = a
    · simp [AtomMap.find, AtomMap.keys, hk]
    · have : ¬ a = k := fun e => hk e.symm
      simp [AtomMap.find, AtomMap.keys, hk, this, ih]

theorem AtomMap.findAll_forall₂ (m : AtomMap) (as : List Nat) (ops : List Nat)
    (h : AtomMap.findAll m as = some ops) : List.Forall₂ (fun a o => AtomMap.find m a = some o) as ops := by
  induction as generalizing ops with
  | nil =>
    simp only [AtomMap.findAll, Option.some.injEq] at h
    subst h
    exact List.Forall₂.nil
  | cons a as ih =>
    simp only [AtomMap.findAll] at h
    cases h1 : AtomMap.find m a with
    | none => simp [h1] at h
    | some c =>
      cases h2 : AtomMap.findAll m as with
      | none => simp [h1, h2] at h
      | some cs =>
        simp only [h1, h2, Option.some.injEq] at h
        subst h
        exact List.Forall₂.cons h1 (ih cs h2)

theorem getElem?_append_some {A : Type} (l l' : List A) (i : Nat) (x : A) (h : l[i]? = some x) :
    (l ++ l')[i]? = some x := by
  have hi : i < l.length := by
    by_contra hc
    rw [List.getElem?_eq_none (Nat.le_of_not_lt hc)] at h
    cases h
  rw [List.getElem?_append_left hi]
  exact h

theorem map_getElem?_append_some {A B : Type} (f : A → B) (l l' : List A) (i : Nat) (y : B)
    (h : (l[i]?).map f = some y) : ((l ++ l')[i]?).map f = some y := by
  cases hx : l[i]? with
  | none => rw [hx] at h; cases h
  | some x => rw [getElem?_append_some l l' i x hx, ← hx]; exact h

theorem lt_of_map_getElem? {A B : Type} (f : A → B) (l : List A) (i : Nat) (y : B)
    (h : (l[i]?).map f = some y) : i < l.length := by
  by_contra hc
  rw [List.getElem?_eq_none (Nat.le_of_not_lt hc)] at h
  cases h

theorem newClause_ok {α : Type} (K : Nat) (m : Atom α) (b b' : Builder α) (c : Nat)
    (h : newClause K m b = .ok (c, b')) :
    b.ptr < b.data.length ∧ c = b.ptr ∧ ∃ ops, b.clauses.findAll m.operands = some ops ∧
      b' = { data := Arena.place (Clause.ofAtom K m ops) b.data b.ptr, ptr := b.ptr + 1,
             clauses := b.clauses.insert m.id b.ptr } := by
  unfold newClause at h
  by_cases hp : b.ptr < b.data.length
  · simp only [hp, if_true, Clause.construct] at h
    cases hf : b.clauses.findAll m.operands with
    | none => simp [hf] at h
    | some ops =>
      simp only [hf, Except.ok.injEq, Prod.mk.injEq] at h
      exact ⟨hp, h.1.symm, ops, rfl, h.2.symm⟩
  · simp [hp] at h

theorem newClause_error {α : Type} (K : Nat) (m : Atom α) (b : Builder α)
    (err : BuildStop) (h : newClause K m b = .error err) :
    err = .missingOperand ∨ (err = .outOfArena ∧ b.data.length ≤ b.ptr) := by
  unfold newClause at h
  by_cases hp : b.ptr < b.data.length
  · simp only [hp, if_true, Clause.construct] at h
    cases hf : b.clauses.findAll m.operands with
    | none =>
      simp only [hf, Except.error.injEq] at h
      exact Or.inl h.symm
    | some ops => simp [hf] at h
  · simp only [hp, if_false, Except.error.injEq] at h
    exact Or.inr ⟨h.symm, Nat.le_of_not_lt hp⟩

theorem BuildInv.step {α : Type} {K cap : Nat} {done : List (Atom α)} {b b' : Builder α}
    {m : Atom α} {c : Nat} (inv : BuildInv K cap done b) (h : newClause K m b = .ok (c, b')) :
    c = done.length ∧ BuildInv K cap (done ++ [m]) b' := by
  obtain ⟨hp, hc, ops, hops, rfl⟩ := newClause_ok K m b b' c h
  have hptr := inv.ptr_eq
  refine ⟨hc.trans hptr, ?_⟩
  have hfa := AtomMap.findAll_forall₂ _ _ _ hops
  constructor
  · simp [hptr]
  · simp only [Arena.length_place]; exact inv.len_eq
  · show b.ptr + 1 ≤ cap
    have := inv.len_eq
    omega
  · intro i m' hi
    rcases Nat.lt_trichotomy i done.length with hlt | heq | hgt
    · rw [List.getElem?_append_left hlt] at hi
      obtain ⟨ops', h1, h2⟩ := inv.slot i m' hi
      refine ⟨ops', ?_, ?_⟩
      · show (Arena.place _ b.data b.ptr).get i = _
        have hne : ¬ (b.ptr = i ∧ b.ptr < b.data.length) := fun hh => by omega
        rw [Arena.get_place, if_neg hne, h1]
      · exact h2.imp (fun a o hh => ⟨hh.1, map_getElem?_append_some _ _ _ _ _ hh.2⟩)
    · subst heq
      have hm : m' = m := by simpa using hi.symm
      subst hm
      refine ⟨ops, ?_, ?_⟩
      · show (Arena.place _ b.data b.ptr).get done.length = _
        rw [Arena.get_place, if_pos ⟨hptr, hp⟩]
      · refine hfa.imp (fun a o hh => ?_)
        have hv := inv.map_val a o hh
        exact ⟨lt_of_map_getElem? _ _ _ _ hv, map_getElem?_append_some _ _ _ _ _ hv⟩
    · have : (done ++ [m])[i]? = none :=
        List.getElem?_eq_none (by simp; omega)
      rw [this] at hi
      cases hi
  · intro i hi
    show (Arena.place _ b.data b.ptr).get i = none
    have hlen : done.length + 1 ≤ i := by simpa using hi
    have hne : ¬ (b.ptr = i ∧ b.ptr < b.data.length) := fun hh => by omega
    rw [Arena.get_place, if_neg hne]
    exact inv.free i (by omega)
  · intro a v hv
    have hv' : (AtomMap.insert b.clauses m.id b.ptr).find a = some v := hv
    rw [AtomMap.find_insert] at hv'
    by_cases hma : m.id = a
    · simp only [hma, if_true, Option.some.injEq] at hv'
      subst hv'
      rw [hptr]
      simp [hma]
    · simp only [hma, if_false] at hv'
      exact map_getElem?_append_some _ _ _ _ _ (inv.map_val a v hv')
  · exact AtomMap.nodup_keys_insert _ _ _ inv.map_keys
  · intro a
    show a ∈ AtomMap.keys (AtomMap.insert b.clauses m.id b.ptr) ↔ _
    rw [AtomMap.mem_keys_insert, inv.map_dom a]
    simp only [List.map_append, List.map_cons, List.map_nil, List.mem_append,
      List.mem_singleton]
    tauto

theorem BuildInv.newClauses {α : Type} {K cap : Nat} (ms : List (Atom α)) :
    ∀ {done : List (Atom α)} {b b' : Builder α} {out cs : List Nat},
      BuildInv K cap done b → newClauses K ms out b = .ok (cs, b') →
      cs = out ++ List.range' done.length ms.length ∧ BuildInv K cap (done ++ ms) b' := by
  induction ms with
  | nil =>
    intro done b b' out cs inv h
    simp only [Ao.newClauses, Except.ok.injEq, Prod.mk.injEq] at h
    obtain ⟨rfl, rfl⟩ := h
    simpa using inv
  | cons m ms ih =>
    intro done b b' out cs inv h
    simp only [Ao.newClauses] at h
    cases h1 : newClause K m b with
    | error err => simp [h1] at h
    | ok p =>
      obtain ⟨c, b1⟩ := p
      simp only [h1] at h
      obtain ⟨hc, inv1⟩ := inv.step h1
      obtain ⟨hcs, inv2⟩ := ih inv1 h
      subst hc
      refine ⟨?_, by simpa using inv2⟩
      rw [hcs]
      simp [List.range'_succ, Nat.add_comm]

theorem BuildInv.fillRow {α : Type} {K cap : Nat} (ms : List (Atom α)) :
    ∀ {done : List (Atom α)} {b b' : Builder α} {row row' : Row},
      BuildInv K cap done b → fillRow K ms row b = .ok (row', b') →
      row' = { row with clauses := row.clauses ++ List.range' done.length ms.length }
        ∧ BuildInv K cap (done ++ ms) b' := by
  induction ms with
  | nil =>
    intro done b b' row row' inv h
    simp only [Ao.fillRow, Except.ok.injEq, Prod.mk.injEq] at h
    obtain ⟨rfl, rfl⟩ := h
    simpa using inv
  | cons m ms ih =>
    intro done b b' row row' inv h
    simp only [Ao.fillRow] at h
    cases h1 : newClause K m b with
    | error err => simp [h1] at h
    | ok p =>
      obtain ⟨c, b1⟩ := p
      simp only [h1] at h
      obtain ⟨hc, inv1⟩ := inv.step h1
      obtain ⟨hrow, inv2⟩ := ih inv1 h
      subst hc
      refine ⟨?_, by simpa using inv2⟩
      rw [hrow]
      simp [Row.push_back, List.range'_succ, Nat.add_comm]

theorem BuildInv.buildRows {α : Type} {K cap : Nat} (rs : List (List (Atom α))) :
    ∀ {done : List (Atom α)} {b b' : Builder α} {rows rows' : List Row},
      BuildInv K cap done b → buildRows K rs rows b = .ok (rows', b') →
      rows' = rows ++ rowsFrom done.length rs ∧ BuildInv K cap (done ++ rs.flatten) b' := by
  induction rs with
  | nil =>
    intro done b b' rows rows' inv h
    simp only [Ao.buildRows, Except.ok.injEq, Prod.mk.injEq] at h
    obtain ⟨rfl, rfl⟩ := h
    simpa [rowsFrom] using inv
  | cons r rs ih =>
    intro done b b' rows rows' inv h
    simp only [Ao.buildRows] at h
    cases h1 : Ao.fillRow K r Row.empty b with
    | error err => simp [h1] at h
    | ok p =>
      obtain ⟨row, b1⟩ := p
      simp only [h1] at h
      obtain ⟨hrow, inv1⟩ := inv.fillRow r h1
      obtain ⟨hrows, inv2⟩ := ih inv1 h
      refine ⟨?_, by simpa using inv2⟩
      rw [hrows, hrow]
      simp [rowsFrom, Row.setSize, Row.empty]

theorem foldl_add_length {A : Type} (rs : List (List A)) (n : Nat) :
    rs.foldl (fun count r => count + r.length) n = n + rs.flatten.length := by
  induction rs generalizing n with
  | nil => rfl
  | cons r rs ih => simp [ih, Nat.add_assoc]

theorem Tree.count_eq {α : Type} (tree : Tree α) : tree.count = tree.atoms.length := by
  simp only [Tree.count, Tree.atoms, foldl_add_length, List.length_append, List.length_cons,
    List.length_nil]
  omega

theorem BuildInv.init {α : Type} (K cap : Nat) :
    BuildInv K cap ([] : List (Atom α))
      { data := List.replicate cap none, ptr := 0, clauses := [] } := by
  constructor
  · rfl
  · simp
  · exact Nat.zero_le _
  · intro i m h; simp at h
  · intro i _; exact Arena.get_replicate_none _ _
  · intro a v h; simp [AtomMap.find] at h
  · simp [AtomMap.keys]
  · intro a; simp [AtomMap.keys]

theorem build_ok {α : Type} (K : Nat) (tree : Tree α) (s : Built α)
    (h : build K tree = .ok s) :
    tree.matrix.length = 12
    ∧ s.constants = List.range' 0 tree.constants.length
    ∧ s.X = tree.constants.length
    ∧ s.Y = tree.constants.length + 1
    ∧ s.Z = tree.constants.length + 2
    ∧ s.matrix = List.range' (tree.constants.length + 3) 12
    ∧ s.rows = rowsFrom (tree.constants.length + 15) tree.rows
    ∧ BuildInv K tree.count tree.atoms { data := s.data, ptr := s.ptr, clauses := s.clauses } := by
  unfold build at h
  simp only at h
  cases h1 : newClauses K tree.constants []
      { data := List.replicate tree.count none, ptr := 0, clauses := [] } with
  | error err => simp [h1] at h
  | ok p1 =>
    obtain ⟨constants, b1⟩ := p1
    simp only [h1] at h
    obtain ⟨hc1, inv1⟩ := (BuildInv.init K tree.count).newClauses tree.constants h1
    cases h2 : newClause K tree.X b1 with
    | error err => simp [h2] at h
    | ok p2 =>
      obtain ⟨X, b2⟩ := p2
      simp only [h2] at h
      obtain ⟨hc2, inv2⟩ := inv1.step h2
      cases h3 : newClause K tree.Y b2 with
      | error err => simp [h3] at h
      | ok p3 =>
        obtain ⟨Y, b3⟩ := p3
        simp only [h3] at h
        obtain ⟨hc3, inv3⟩ := inv2.step h3
        cases h4 : newClause K tree.Z b3 with
        | error err => simp [h4] at h
        | ok p4 =>
          obtain ⟨Z, b4⟩ := p4
          simp only [h4] at h
          obtain ⟨hc4, inv4⟩ := inv3.step h4
          by_cases hm : tree.matrix.length = 12
          · simp only [hm, if_true] at h
            cases h5 : newClauses K tree.matrix [] b4 with
            | error err => simp [h5] at h
            | ok p5 =>
              obtain ⟨matrix, b5⟩ := p5
              simp only [h5] at h
              obtain ⟨hc5, inv5⟩ := inv4.newClauses tree.matrix h5
              cases h6 : buildRows K tree.rows [] b5 with
              | error err => simp [h6] at h
              | ok p6 =>
                obtain ⟨rows, b6⟩ := p6
                simp only [h6, Except.ok.injEq] at h
                obtain ⟨hc6, inv6⟩ := inv5.buildRows tree.rows h6
                subst h
                simp only [List.nil_append, List.length_nil, List.length_append,
                  List.length_cons, hm] at hc1 hc2 hc3 hc4 hc5 hc6
                refine ⟨hm, by simpa using hc1, by simpa using hc2, by simpa using hc3,
                  by simpa using hc4, ?_, ?_, ?_⟩
                · rw [hc5]
                · rw [hc6]
                · have : tree.atoms
                      = [] ++ tree.constants ++ [tree.X] ++ [tree.Y] ++ [tree.Z] ++ tree.matrix
                        ++ tree.rows.flatten := by
                    simp [Tree.atoms]
                  rw [this]
                  exact inv6
          · simp [hm] at h

theorem BuildInv.step_error {α : Type} {K cap : Nat} {done : List (Atom α)} {b : Builder α}
    {m : Atom α} {err : BuildStop} (inv : BuildInv K cap done b)
    (hcap : done.length < cap) (h : newClause K m b = .error err) : err = .missingOperand := by
  rcases newClause_error K m b err h with h1 | ⟨_, h2⟩
  · exact h1
  · have := inv.ptr_eq
    have := inv.len_eq
    omega

theorem BuildInv.newClauses_error {α : Type} {K cap : Nat} (ms : List (Atom α)) :
    ∀ {done : List (Atom α)} {b : Builder α} {out : List Nat} {err : BuildStop},
      BuildInv K cap done b → done.length + ms.length ≤ cap →
      Ao.newClauses K ms out b = .error err → err = .missingOperand := by
  induction ms with
  | nil =>
    intro done b out err inv hcap h
    simp [Ao.newClauses] at h
  | cons m ms ih =>
    intro done b out err inv hcap h
    simp only [Ao.newClauses] at h
    simp only [List.length_cons] at hcap
    cases h1 : newClause K m b with
    | error err1 =>
      simp only [h1, Except.error.injEq] at h
      subst h
      exact inv.step_error (by omega) h1
    | ok p =>
      obtain ⟨c, b1⟩ := p
      simp only [h1] at h
      exact ih (inv.step h1).2 (by simp only [List.length_append, List.length_cons, List.length_nil]; omega) h

theorem BuildInv.fillRow_error {α : Type} {K cap : Nat} (ms : List (Atom α)) :
    ∀ {done : List (Atom α)} {b : Builder α} {row : Row} {err : BuildStop},
      BuildInv K cap done b → done.length + ms.length ≤ cap →
      Ao.fillRow K ms row b = .error err → err = .missingOperand := by
  induction ms with
  | nil =>
    intro done b row err inv hcap h
    simp [Ao.fillRow] at h
  | cons m ms ih =>
    intro done b row err inv hcap h
    simp only [Ao.fillRow] at h
    simp only [List.length_cons] at hcap
    cases h1 : newClause K m b with
    | error err1 =>
      simp only [h1, Except.error.injEq] at h
      subst h
      exact inv.step_error (by omega) h1
    | ok p =>
      obtain ⟨c, b1⟩ := p
      simp only [h1] at h
      exact ih (inv.step h1).2 (by simp only [List.length_append, List.length_cons, List.length_nil]; omega) h

theorem BuildInv.buildRows_error {α : Type} {K cap : Nat} (rs : List (List (Atom α))) :
    ∀ {done : List (Atom α)} {b : Builder α} {rows : List Row} {err : BuildStop},
      BuildInv K cap done b → done.length + rs.flatten.length ≤ cap →
      Ao.buildRows K rs rows b = .error err → err = .missingOperand := by
  induction rs with
  | nil =>
    intro done b rows err inv hcap h
    simp [Ao.buildRows] at h
  | cons r rs ih =>
    intro done b rows err inv hcap h
    simp only [Ao.buildRows] at h
    simp only [List.flatten_cons, List.length_append] at hcap
    cases h1 : Ao.fillRow K r Row.empty b with
    | error err1 =>
      simp only [h1, Except.error.injEq] at h
      subst h
      exact inv.fillRow_error r (by omega) h1
    | ok p =>
      obtain ⟨row, b1⟩ := p
      simp only [h1] at h
      exact ih (inv.fillRow r h1).2 (by simp only [List.length_append, List.length_cons, List.length_nil]; omega) h

theorem build_error {α : Type} (K : Nat) (tree : Tree α) (err : BuildStop)
    (h : build K tree = .error err) : err = .missingOperand ∨ err = .matrixSize := by
  have hcount : tree.count = tree.constants.length + 3 + tree.matrix.length
      + tree.rows.flatten.length := by
    rw [Tree.count_eq]
    simp [Tree.atoms]
    omega
  unfold build at h
  simp only at h
  cases h1 : newClauses K tree.constants []
      { data := List.replicate tree.count none, ptr := 0, clauses := [] } with
  | error err1 =>
    simp only [h1, Except.error.injEq] at h
    subst h
    exact Or.inl ((BuildInv.init K tree.count).newClauses_error tree.constants
      (by simp only [List.length_append, List.length_cons, List.length_nil]; omega) h1)
  | ok p1 =>
    obtain ⟨constants, b1⟩ := p1
    simp only [h1] at h
    obtain ⟨-, inv1⟩ := (BuildInv.init K tree.count).newClauses tree.constants h1
    cases h2 : newClause K tree.X b1 with
    | error err1 =>
      simp only [h2, Except.error.injEq] at h
      subst h
      exact Or.inl (inv1.step_error (by simp only [List.length_append, List.length_cons, List.length_nil]; omega) h2)
    | ok p2 =>
      obtain ⟨X, b2⟩ := p2
      simp only [h2] at h
      obtain ⟨-, inv2⟩ := inv1.step h2
      cases h3 : newClause K tree.Y b2 with
      | error err1 =>
        simp only [h3, Except.error.injEq] at h
        subst h
        exact Or.inl (inv2.step_error (by simp only [List.length_append, List.length_cons, List.length_nil]; omega) h3)
      | ok p3 =>
        obtain ⟨Y, b3⟩ := p3
        simp only [h3] at h
        obtain ⟨-, inv3⟩ := inv2.step h3
        cases h4 : newClause K tree.Z b3 with
        | error err1 =>
          simp only [h4, Except.error.injEq] at h
          subst h
          exact Or.inl (inv3.step_error (by simp only [List.length_append, List.length_cons, List.length_nil]; omega) h4)
        | ok p4 =>
          obtain ⟨Z, b4⟩ := p4
          simp only [h4] at h
          obtain ⟨-, inv4⟩ := inv3.step h4
          by_cases hm : tree.matrix.length = 12
          · simp only [hm, if_true] at h
            cases h5 : newClauses K tree.matrix [] b4 with
            | error err1 =>
              simp only [h5, Except.error.injEq] at h
              subst h
              exact Or.inl (inv4.newClauses_error tree.matrix (by simp only [List.length_append, List.length_cons, List.length_nil]; omega) h5)
            | ok p5 =>
              obtain ⟨matrix, b5⟩ := p5
              simp only [h5] at h
              obtain ⟨-, inv5⟩ := inv4.newClauses tree.matrix h5
              cases h6 : buildRows K tree.rows [] b5 with
              | error err1 =>
                simp only [h6, Except.error.injEq] at h
                subst h
                exact Or.inl (inv5.buildRows_error tree.rows (by simp only [List.length_append, List.length_cons, List.length_nil]; omega) h6)
              | ok p6 =>
                obtain ⟨rows, b6⟩ := p6
                simp [h6] at h
          · simp only [hm, if_false, Except.error.injEq] at h
            exact Or.inr h.symm

theorem compile_eq_ok {α : Type} (K : Nat) (tree : Tree α) (e : Evaluator α) :
    compile K tree = some e ↔
      ∃ s root, build K tree = .ok s ∧ s.clauses.find tree.root.id = some root
        ∧ e = s.toEvaluator root := by
  unfold compile
  cases hb : build K tree with
  | error err => simp
  | ok s =>
    simp only [finish, Except.ok.injEq, exists_and_left, exists_eq_left']
    cases hf : s.clauses.find tree.root.id with
    | none => simp
    | some root =>
      simp only [Option.some.injEq, exists_eq_left']
      exact eq_comm

theorem compile_eq_none {α : Type} (K : Nat) (tree : Tree α) :
    compile K tree = none ↔
      (∃ err, build K tree = .error err)
        ∨ ∃ s, build K tree = .ok s ∧ s.clauses.find tree.root.id = none := by
  unfold compile
  cases hb : build K tree with
  | error err => simp
  | ok s =>
    simp only [finish, false_or, Except.ok.injEq, exists_eq_left', reduceCtorEq,
      exists_false]
    cases hf : s.clauses.find tree.root.id with
    | none => simp
    | some root => simp

theorem index_unique {α : Type} (l : List (Atom α)) (hnd : (l.map Atom.id).Nodup) (i j : Nat)
    (a : Nat) (hi : (l[i]?).map Atom.id = some a) (hj : (l[j]?).map Atom.id = some a) : i = j := by
  have hi' : i < (l.map Atom.id).length := by
    simpa using lt_of_map_getElem? _ _ _ _ hi
  apply List.getElem?_inj hi' hnd
  rw [List.getElem?_map, List.getElem?_map, hi, hj]

theorem BuildInv.find_id {α : Type} {K cap : Nat} {done : List (Atom α)} {b : Builder α}
    (inv : BuildInv K cap done b) (hnd : (done.map Atom.id).Nodup) (i : Nat) (m : Atom α)
    (hi : done[i]? = some m) : b.clauses.find m.id = some i := by
  have hmem : m.id ∈ b.clauses.keys := by
    rw [inv.map_dom]
    exact List.mem_map.2 ⟨m, List.getElem?_mem hi, rfl⟩
  obtain ⟨v, hv⟩ := Option.isSome_iff_exists.1 ((AtomMap.find_isSome_iff _ _).2 hmem)
  have h1 := inv.map_val m.id v hv
  have h2 : (done[i]?).map Atom.id = some m.id := by rw [hi]; rfl
  rw [hv, index_unique done hnd v i m.id h1 h2]

theorem BuildInv.size {α : Type} {K cap : Nat} {done : List (Atom α)} {b : Builder α}
    (inv : BuildInv K cap done b) (hnd : (done.map Atom.id).Nodup) :
    b.clauses.length = done.length := by
  have hperm : b.clauses.keys.Perm (done.map Atom.id) :=
    (List.perm_ext_iff_of_nodup inv.map_keys hnd).2 inv.map_dom
  have := hperm.length_eq
  simpa [AtomMap.keys] using this

/-! ## `setMatrix` -/

theorem foldl_setMatrixStep_none {α : Type} (matrix : List Nat) (m : Nat → Nat → α)
    (l : List (Nat × Nat)) : l.foldl (setMatrixStep matrix m) none = none := by
  induction l with
  | nil => rfl
  | cons a l ih => simpa [setMatrixStep] using ih

theorem setMatrixStep_some {α : Type} (matrix : List Nat) (m : Nat → Nat → α) (d d' : Arena α)
    (n n' : Nat) (ij : Nat × Nat)
    (h : setMatrixStep matrix m (some (d, n)) ij = some (d', n')) :
    ∃ c cl, matrix[n]? = some c ∧ d.get c = some cl ∧ cl.op = Opcode.OP_MUTABLE
      ∧ d' = Arena.modify (fun x => { x with mutable_value := m ij.2 ij.1 }) d c
      ∧ n' = n + 1 := by
  simp only [setMatrixStep] at h
  cases h1 : matrix[n]? with
  | none => simp [h1] at h
  | some c =>
    cases h2 : d.get c with
    | none => simp [h1, h2] at h
    | some cl =>
      by_cases h3 : cl.op = Opcode.OP_MUTABLE
      · simp only [h1, h2, h3, if_true, Option.some.injEq, Prod.mk.injEq] at h
        exact ⟨c, cl, rfl, h2, h3, h.1.symm, h.2.symm⟩
      · simp [h1, h2, h3] at h

theorem setMatrix_loop {α : Type} (matrix : List Nat) (m : Nat → Nat → α)
    (pairs : List (Nat × Nat)) :
    ∀ (d d' : Arena α) (n n' : Nat),
      pairs.foldl (setMatrixStep matrix m) (some (d, n)) = some (d', n') →
      n' = n + pairs.length
      ∧ (∀ c, (d'.get c).isSome = (d.get c).isSome)
      ∧ (∀ c, (∀ k, k < pairs.length → matrix[n + k]? ≠ some c) → d'.get c = d.get c)
      ∧ (∀ k ij, pairs[k]? = some ij → ∃ c, matrix[n + k]? = some c ∧ (d.get c).isSome ∧
          (matrix.Nodup → ∃ cl, d'.get c = some cl ∧ cl.mutable_value = m ij.2 ij.1)) := by
  induction pairs with
  | nil =>
    intro d d' n n' h
    simp only [List.foldl_nil, Option.some.injEq, Prod.mk.injEq] at h
    obtain ⟨rfl, rfl⟩ := h
    exact ⟨rfl, fun _ => rfl, fun _ _ => rfl, fun k ij hk => by simp at hk⟩
  | cons p ps ih =>
    intro d d' n n' h
    simp only [List.foldl_cons] at h
    cases hs : setMatrixStep matrix m (some (d, n)) p with
    | none => rw [hs, foldl_setMatrixStep_none] at h; cases h
    | some s1 =>
      obtain ⟨d1, n1⟩ := s1
      rw [hs] at h
      obtain ⟨c0, cl0, hc0, hcl0, -, rfl, rfl⟩ := setMatrixStep_some _ _ _ _ _ _ _ hs
      obtain ⟨ih1, ih2, ih3, ih4⟩ := ih _ _ _ _ h
      have hsome : ∀ c, ((Arena.modify (fun x => { x with mutable_value := m p.2 p.1 }) d
          c0).get c).isSome = (d.get c).isSome := by
        intro c
        rw [Arena.get_modify]
        split
        · cases d.get c <;> rfl
        · rfl
      refine ⟨by rw [ih1, List.length_cons]; omega, fun c => (ih2 c).trans (hsome c), ?_, ?_⟩
      · intro c hc
        have hne : c0 ≠ c := by
          intro hcc
          exact hc 0 (by simp) (by simpa [hcc] using hc0)
        rw [ih3 c (fun k hk => by
          have := hc (k + 1) (by simpa using hk)
          rwa [show n + (k + 1) = n + 1 + k by omega] at this)]
        rw [Arena.get_modify, if_neg hne]
      · intro k ij hk
        cases k with
        | zero =>
          simp only [List.getElem?_cons_zero, Option.some.injEq] at hk
          subst hk
          refine ⟨c0, by simpa using hc0, by rw [hcl0]; rfl, ?_⟩
          intro hnd
          have hn : n < matrix.length := by
            by_contra hcon
            rw [List.getElem?_eq_none (Nat.le_of_not_lt hcon)] at hc0
            cases hc0
          rw [ih3 c0 (fun k _ hk' => by
            have := List.getElem?_inj hn hnd (hc0.trans hk'.symm)
            omega)]
          rw [Arena.get_modify, if_pos rfl, hcl0]
          exact ⟨_, rfl, rfl⟩
        | succ k =>
          simp only [List.getElem?_cons_succ] at hk
          obtain ⟨c, h1, h2, h3⟩ := ih4 k ij hk
          rw [show n + 1 + k = n + (k + 1) by omega] at h1
          exact ⟨c, h1, by rw [← hsome c]; exact h2, h3⟩

theorem Clause.fill_fill {α : Type} (K : Nat) (c : Clause α) :
    Clause.fill K (Clause.fill K c) = Clause.fill K c := rfl

theorem get_fill_loop {α : Type} (K : Nat) (l : List Nat) (d : Arena α) (c : Nat) :
    (l.foldl (fun d c => Arena.modify (Clause.fill K) d c) d).get c
      = if c ∈ l then (d.get c).map (Clause.fill K) else d.get c := by
  induction l generalizing d with
  | nil => simp
  | cons a l ih =>
    simp only [List.foldl_cons, ih, Arena.get_modify, List.mem_cons]
    by_cases hl : c ∈ l
    · by_cases ha : a = c
      · simp only [hl, ha, if_true, or_true]
        cases d.get c <;> simp [Clause.fill_fill]
      · simp [hl, ha]
    · by_cases ha : a = c
      · simp [hl, ha]
      · have : ¬ c = a := fun h => ha h.symm
        simp [hl, ha, this]

theorem foldl_congr_mem {A B : Type} (f g : B → A → B) (l : List A)
    (h : ∀ s, ∀ x ∈ l, f s x = g s x) (s : B) : l.foldl f s = l.foldl g s := by
  induction l generalizing s with
  | nil => rfl
  | cons a l ih =>
    simp only [List.foldl_cons]
    rw [h s a (List.mem_cons_self _ _)]
    exact ih (fun s x hx => h s x (List.mem_cons_of_mem _ hx)) _

theorem matrixIndices_get : ∀ i, i < 3 → ∀ j, j < 4 → matrixIndices[4 * i + j]? = some (i, j) := by
  decide

theorem matrixIndices_bound : ∀ ij ∈ matrixIndices, ij.1 < 3 ∧ ij.2 < 4 := by
  decide

theorem matrixIndices_length : matrixIndices.length = 12 := by
  decide

theorem Evaluator.setMatrix_some {α : Type} (K : Nat) (m : Nat → Nat → α) (e e' : Evaluator α)
    (h : e.setMatrix K m = some e') :
    ∃ d n, matrixIndices.foldl (setMatrixStep e.matrix m) (some (e.data, 0)) = some (d, n)
      ∧ e' = { e with data := e.matrix.foldl (fun d c => Arena.modify (Clause.fill K) d c) d } := by
  unfold Evaluator.setMatrix at h
  cases hl : matrixIndices.foldl (setMatrixStep e.matrix m) (some (e.data, 0)) with
  | none => simp [hl] at h
  | some p =>
    obtain ⟨d, n⟩ := p
    simp only [hl, Option.some.injEq] at h
    exact ⟨d, n, rfl, h.symm⟩

/-! ## The flattening loop -/

theorem getElem?_flatMap_range {B : Type} (a b : Nat) (g : Nat → Nat → B) :
    ((List.range a).flatMap (fun k => (List.range b).map (g k))).length = a * b
    ∧ ∀ idx, idx < a * b →
      ((List.range a).flatMap (fun k => (List.range b).map (g k)))[idx]?
        = some (g (idx / b) (idx % b)) := by
  induction a with
  | zero => simp
  | succ a ih =>
    obtain ⟨ihl, ihg⟩ := ih
    have happ : (List.range (a + 1)).flatMap (fun k => (List.range b).map (g k))
        = (List.range a).flatMap (fun k => (List.range b).map (g k)) ++ (List.range b).map (g a) := by
      rw [List.range_succ, List.flatMap_append]
      simp
    rw [happ]
    refine ⟨by rw [List.length_append, ihl]; simp [Nat.succ_mul], ?_⟩
    intro idx hidx
    by_cases hlt : idx < a * b
    · rw [List.getElem?_append_left (by rw [ihl]; exact hlt)]
      exact ihg idx hlt
    · have hge : a * b ≤ idx := Nat.le_of_not_lt hlt
      have hb : idx - a * b < b := by
        rw [Nat.succ_mul] at hidx
        omega
      rw [List.getElem?_append_right (by rw [ihl]; exact hge), ihl]
      have hdiv : idx / b = a := Nat.div_eq_of_lt_le hge hidx
      have hmod : idx % b = idx - a * b := by
        rw [Nat.mod_def, hdiv, Nat.mul_comm]
      rw [hdiv, hmod]
      simp [hb]

theorem length_writeFrom {α : Type} (vs : List α) (buf : List α) (n : Nat) :
    (writeFrom buf n vs).length = buf.length := by
  induction vs generalizing buf n with
  | nil => rfl
  | cons v vs ih => simp [writeFrom, ih]

theorem getElem?_writeFrom {α : Type} (vs : List α) (buf : List α) (n s : Nat) :
    (writeFrom buf n vs)[s]?
      = if n ≤ s ∧ s < n + vs.length ∧ s < buf.length then vs[s - n]? else buf[s]? := by
  induction vs generalizing buf n with
  | nil =>
    have h : ¬ (n ≤ s ∧ s < n + ([] : List α).length ∧ s < buf.length) := by
      simp only [List.length_nil]; omega
    rw [if_neg h]
    rfl
  | cons v vs ih =>
    simp only [writeFrom, ih, List.length_set, List.length_cons]
    by_cases h1 : n + 1 ≤ s ∧ s < n + 1 + vs.length ∧ s < buf.length
    · have h2 : n ≤ s ∧ s < n + (vs.length + 1) ∧ s < buf.length := ⟨by omega, by omega, h1.2.2⟩
      rw [if_pos h1, if_pos h2]
      have : s - n = (s - (n + 1)) + 1 := by omega
      rw [this, List.getElem?_cons_succ]
    · rw [if_neg h1]
      by_cases h3 : n = s
      · subst h3
        by_cases h4 : n < buf.length
        · have h2 : n ≤ n ∧ n < n + (vs.length + 1) ∧ n < buf.length := ⟨le_refl _, by omega, h4⟩
          rw [if_pos h2]
          simp [h4]
        · have h2 : ¬ (n ≤ n ∧ n < n + (vs.length + 1) ∧ n < buf.length) := fun h => h4 h.2.2
          rw [if_neg h2, List.getElem?_eq_none (by simpa using h4),
            List.getElem?_eq_none (by simpa using h4)]
      · have h2 : ¬ (n ≤ s ∧ s < n + (vs.length + 1) ∧ s < buf.length) := by
          intro h; apply h1; exact ⟨by omega, by omega, h.2.2⟩
        rw [if_neg h2, List.getElem?_set_ne h3]

theorem region_iterate_get {α : Type} (r : Region α) :
    (REGION_ITERATE_XYZ r).length = r.voxels
    ∧ ∀ idx, idx < r.X.size * r.Y.size * r.Z.size →
      (REGION_ITERATE_XYZ r)[idx]?
        = some (idx % r.X.size, idx / r.X.size % r.Y.size, idx / (r.X.size * r.Y.size)) := by
  have inner : ∀ k : Nat, ((List.range r.Y.size).flatMap fun j =>
        (List.range r.X.size).map fun i => (i, j, k))
      = (List.range (r.Y.size * r.X.size)).map
          (fun t => (t % r.X.size, t / r.X.size, k)) := by
    intro k
    obtain ⟨hl, hg⟩ := getElem?_flatMap_range r.Y.size r.X.size (fun j i => (i, j, k))
    apply List.ext_getElem?
    intro t
    by_cases ht : t < r.Y.size * r.X.size
    · rw [hg t ht, List.getElem?_map, List.getElem?_range ht]
      rfl
    · rw [List.getElem?_eq_none (by rw [hl]; exact Nat.le_of_not_lt ht),
        List.getElem?_eq_none (by simpa using Nat.le_of_not_lt ht)]
  have hdef : REGION_ITERATE_XYZ r = (List.range r.Z.size).flatMap fun k =>
      (List.range (r.Y.size * r.X.size)).map (fun t => (t % r.X.size, t / r.X.size, k)) := by
    unfold REGION_ITERATE_XYZ
    congr 1
    funext k
    exact inner k
  obtain ⟨hl, hg⟩ := getElem?_flatMap_range r.Z.size (r.Y.size * r.X.size)
    (fun k t => (t % r.X.size, t / r.X.size, k))
  rw [hdef]
  constructor
  · rw [hl, Region.voxels]
    rw [Nat.mul_comm r.Z.size, Nat.mul_comm r.Y.size]
  · intro idx hidx
    rw [hg idx (by rw [Nat.mul_comm r.Z.size, Nat.mul_comm r.Y.size]; exact hidx)]
    simp only [Nat.mul_comm r.Y.size r.X.size, Nat.mod_mul_right_mod,
      Nat.mod_mul_right_div_self]

theorem writeFrom_nil {α : Type} (n : Nat) (vs : List α) : writeFrom ([] : List α) n vs = [] :=
  List.eq_nil_of_length_eq_zero (by rw [length_writeFrom]; rfl)

theorem flatten_loop {α : Type} (X Y Z : Nat) (r : Region α) (c : Nat)
    (val : Nat × Nat × Nat → α)
    (hstep : ∀ (d : Arena α) (n : Nat) (ijk : Nat × Nat × Nat),
      (flattenStep X Y Z r (d, n) ijk).1.get c = (d.get c).map (Clause.setResult (val ijk) n))
    (l : List (Nat × Nat × Nat)) (d : Arena α) (n : Nat) :
    (l.foldl (flattenStep X Y Z r) (d, n)).1.resultOf c
        = writeFrom (d.resultOf c) n (l.map val)
    ∧ (l.foldl (flattenStep X Y Z r) (d, n)).2 = n + l.length := by
  induction l generalizing d n with
  | nil => exact ⟨rfl, rfl⟩
  | cons a l ih =>
    simp only [List.foldl_cons, List.map_cons, List.length_cons]
    have hst : flattenStep X Y Z r (d, n) a = ((flattenStep X Y Z r (d, n) a).1, n + 1) := rfl
    rw [hst]
    obtain ⟨ih1, ih2⟩ := ih (flattenStep X Y Z r (d, n) a).1 (n + 1)
    refine ⟨?_, by rw [ih2]; omega⟩
    rw [ih1]
    have hres : (flattenStep X Y Z r (d, n) a).1.resultOf c = (d.resultOf c).set n (val a) := by
      rw [Arena.resultOf_eq, Arena.resultOf_eq, hstep]
      cases d.get c <;> simp [Clause.setResult]
    rw [hres]
    rfl

theorem flattenStep_get_X {α : Type} (X Y Z : Nat) (r : Region α) (hXY : X ≠ Y) (hXZ : X ≠ Z)
    (d : Arena α) (n : Nat) (ijk : Nat × Nat × Nat) :
    (flattenStep X Y Z r (d, n) ijk).1.get X
      = (d.get X).map (Clause.setResult (r.X.pos ijk.1) n) := by
  simp only [flattenStep, Arena.get_modify, if_neg hXZ.symm, if_neg hXY.symm, if_pos]

theorem flattenStep_get_Y {α : Type} (X Y Z : Nat) (r : Region α) (hXY : X ≠ Y) (hYZ : Y ≠ Z)
    (d : Arena α) (n : Nat) (ijk : Nat × Nat × Nat) :
    (flattenStep X Y Z r (d, n) ijk).1.get Y
      = (d.get Y).map (Clause.setResult (r.Y.pos ijk.2.1) n) := by
  simp only [flattenStep, Arena.get_modify, if_neg hYZ.symm, if_neg hXY, if_pos]

theorem flattenStep_get_Z {α : Type} (X Y Z : Nat) (r : Region α) (hXZ : X ≠ Z) (hYZ : Y ≠ Z)
    (d : Arena α) (n : Nat) (ijk : Nat × Nat × Nat) :
    (flattenStep X Y Z r (d, n) ijk).1.get Z
      = (d.get Z).map (Clause.setResult (r.Z.pos (r.Z.size - ijk.2.2 - 1)) n) := by
  simp only [flattenStep, Arena.get_modify, if_neg hYZ, if_neg hXZ, if_pos]

theorem get_evalSeq_of_not_mem {α : Type} (sem : Opcode → List α → α) (count : Nat)
    (l : List Nat) (d : Arena α) (c : Nat) (hc : c ∉ l) :
    (l.foldl (evalClause sem count) d).get c = d.get c := by
  induction l generalizing d with
  | nil => rfl
  | cons a l ih =>
    have h1 : a ≠ c := fun h => hc (h ▸ List.mem_cons_self _ _)
    have h2 : c ∉ l := fun h => hc (List.mem_cons_of_mem _ h)
    simp only [List.foldl_cons]
    rw [ih _ h2, get_evalClause, if_neg h1]

theorem Evaluator.evalData_resultOf {α : Type} (sem : Opcode → List α → α) (e : Evaluator α)
    (r : Region α) (c : Nat) (val : Nat × Nat × Nat → α) (hc : c ∉ activeSeq e.rows)
    (hstep : ∀ (d : Arena α) (n : Nat) (ijk : Nat × Nat × Nat),
      (flattenStep e.X e.Y e.Z r (d, n) ijk).1.get c
        = (d.get c).map (Clause.setResult (val ijk) n)) :
    (e.evalData sem r).resultOf c
      = writeFrom (e.data.resultOf c) 0 ((REGION_ITERATE_XYZ r).map val) := by
  have h1 : (e.evalData sem r).resultOf c = (flatten e.X e.Y e.Z r e.data).1.resultOf c := by
    rw [Arena.resultOf_eq, Arena.resultOf_eq]
    unfold Evaluator.evalData
    rw [get_evalSeq_of_not_mem _ _ _ _ _ hc]
  rw [h1]
  exact (flatten_loop e.X e.Y e.Z r c val hstep _ _ _).1

/-! ## Evaluating twice -/

theorem length_applyWrites {α : Type} (ws : List (Nat × α)) (buf : List α) :
    (applyWrites ws buf).length = buf.length := by
  induction ws generalizing buf with
  | nil => rfl
  | cons w ws ih =>
    show (applyWrites ws (buf.set w.1 w.2)).length = _
    rw [ih, List.length_set]

theorem applyWrites_append {α : Type} (ws ws' : List (Nat × α)) (buf : List α) :
    applyWrites (ws ++ ws') buf = applyWrites ws' (applyWrites ws buf) := by
  simp [applyWrites, List.foldl_append]

theorem getElem?_applyWrites {α : Type} (ws : List (Nat × α)) (buf : List α) (s : Nat) :
    (applyWrites ws buf)[s]?
      = match lastWrite ws s with
        | some v => if s < buf.length then some v else none
        | none => buf[s]? := by
  induction ws generalizing buf with
  | nil => rfl
  | cons w ws ih =>
    show (applyWrites ws (buf.set w.1 w.2))[s]? = _
    rw [ih]
    simp only [lastWrite, List.length_set]
    cases lastWrite ws s with
    | some v => rfl
    | none =>
      by_cases hw : w.1 = s
      · simp only [hw, if_true]
        rw [← hw, List.getElem?_set]
        simp
      · simp only [hw, if_false]
        rw [List.getElem?_set_ne hw]

/-- Writing `p`, then `q`, then `p` again leaves the buffer as writing `q`, then `p`. -/
theorem applyWrites_absorb {α : Type} (p q : List (Nat × α)) (buf : List α) :
    applyWrites p (applyWrites q (applyWrites p buf)) = applyWrites p (applyWrites q buf) := by
  apply List.ext_getElem?
  intro s
  simp only [getElem?_applyWrites, length_applyWrites]
  cases lastWrite p s with
  | some v => rfl
  | none =>
    cases lastWrite q s with
    | some v => rfl
    | none => rfl

theorem applyWrites_idem {α : Type} (p : List (Nat × α)) (buf : List α) :
    applyWrites p (applyWrites p buf) = applyWrites p buf :=
  applyWrites_absorb p [] buf

theorem evalSlots_eq_applyWrites {α : Type} (sem : Opcode → List α → α) (op : Opcode)
    (args : List (List α)) (old : List α) (count : Nat) :
    evalSlots sem op args old count = applyWrites (evalWrites sem op args count) old := by
  unfold evalSlots evalWrites applyWrites
  generalize List.range count = l
  induction l generalizing old with
  | nil => rfl
  | cons s l ih =>
    simp only [List.foldl_cons, List.filterMap_cons]
    cases slotValues args s with
    | none => exact ih old
    | some vs => exact ih _

theorem evalBuf_eq_applyWrites {α : Type} (sem : Opcode → List α → α) (count : Nat)
    (shape ref : Arena α) (c : Nat) (buf : List α) :
    evalBuf sem count shape ref c buf
      = applyWrites (evalBufWrites sem count shape ref c) buf := by
  unfold evalBuf evalBufWrites
  cases shape.get c with
  | none => rfl
  | some cl => exact evalSlots_eq_applyWrites _ _ _ _ _

theorem evalBuf_idem {α : Type} (sem : Opcode → List α → α) (count : Nat)
    (shape ref : Arena α) (c : Nat) (buf : List α) :
    evalBuf sem count shape ref c (evalBuf sem count shape ref c buf)
      = evalBuf sem count shape ref c buf := by
  simp only [evalBuf_eq_applyWrites, applyWrites_idem]

theorem evalBuf_congr {α : Type} (sem : Opcode → List α → α) (count : Nat)
    (shape shape' ref ref' : Arena α) (c : Nat) (buf : List α)
    (hs : (shape.get c).map Clause.shape = (shape'.get c).map Clause.shape)
    (hr : ∀ o ∈ shape.operandsOf c, ref.resultOf o = ref'.resultOf o) :
    evalBuf sem count shape ref c buf = evalBuf sem count shape' ref' c buf := by
  unfold evalBuf
  cases h1 : shape.get c with
  | none =>
    cases h2 : shape'.get c with
    | none => rfl
    | some b => rw [h1, h2] at hs; cases hs
  | some a =>
    cases h2 : shape'.get c with
    | none => rw [h1, h2] at hs; cases hs
    | some b =>
      rw [h1, h2] at hs
      simp only [Option.map_some', Option.some.injEq, Clause.shape, Prod.mk.injEq] at hs
      have hops : shape.operandsOf c = a.operands := by simp [Arena.operandsOf, h1]
      have hargs : a.operands.map ref.resultOf = a.operands.map ref'.resultOf :=
        List.map_congr_left (fun o ho => hr o (hops ▸ ho))
      simp only [hs.1, ← hs.2, hargs]

theorem resultOf_evalClause {α : Type} (sem : Opcode → List α → α) (count : Nat)
    (d : Arena α) (c x : Nat) :
    (evalClause sem count d c).resultOf x
      = if c = x then evalBuf sem count d d c (d.resultOf c) else d.resultOf x := by
  rw [Arena.resultOf_eq, get_evalClause]
  by_cases h : c = x
  · subst h
    simp only [if_true]
    unfold evalBuf Arena.resultOf
    cases d.get c with
    | none => rfl
    | some cl => rfl
  · simp only [h, if_false, Arena.resultOf_eq]

theorem shape_evalSeq {α : Type} (sem : Opcode → List α → α) (count : Nat) (l : List Nat)
    (d : Arena α) (c : Nat) :
    ((l.foldl (evalClause sem count) d).get c).map Clause.shape = (d.get c).map Clause.shape := by
  induction l generalizing d with
  | nil => rfl
  | cons a l ih =>
    simp only [List.foldl_cons]
    rw [ih]
    exact (agree_evalClause_self sem count (fun _ => false) d a rfl).1 c

theorem resultOf_evalSeq_of_not_mem {α : Type} (sem : Opcode → List α → α) (count : Nat)
    (l : List Nat) (d : Arena α) (c : Nat) (hc : c ∉ l) :
    (l.foldl (evalClause sem count) d).resultOf c = d.resultOf c := by
  rw [Arena.resultOf_eq, Arena.resultOf_eq, get_evalSeq_of_not_mem _ _ _ _ _ hc]

theorem operandsOf_of_shape {α : Type} (d d' : Arena α) (c : Nat)
    (h : (d.get c).map Clause.shape = (d'.get c).map Clause.shape) :
    d.operandsOf c = d'.operandsOf c := by
  rw [Arena.operandsOf_eq, Arena.operandsOf_eq, h]

/-- After an ordered evaluation every evaluated clause holds the value of its opcode on
the final operand buffers. -/
theorem run_once {α : Type} (sem : Opcode → List α → α) (count : Nat) (d0 : Arena α)
    (l : List Nat) :
    ∀ A : Arena α, (∀ c, (A.get c).map Clause.shape = (d0.get c).map Clause.shape) →
      SeqOrdered d0 l → ∀ c ∈ l,
        (l.foldl (evalClause sem count) A).resultOf c
          = evalBuf sem count d0 (l.foldl (evalClause sem count) A) c (A.resultOf c) := by
  induction l with
  | nil => intro A _ _ c hc; cases hc
  | cons x T ih =>
    intro A hA hso c hc
    simp only [List.foldl_cons]
    have hA' : ∀ c, ((evalClause sem count A x).get c).map Clause.shape
        = (d0.get c).map Clause.shape := fun c =>
      ((agree_evalClause_self sem count (fun _ => false) A x rfl).1 c).trans (hA c)
    have hkey : (evalClause sem count A x).resultOf x
        = evalBuf sem count d0 (T.foldl (evalClause sem count) (evalClause sem count A x)) x
            (A.resultOf x) := by
      rw [resultOf_evalClause, if_pos rfl]
      apply evalBuf_congr _ _ _ _ _ _ _ _ (hA x)
      intro o ho
      rw [operandsOf_of_shape A d0 x (hA x)] at ho
      have hnot := hso.1 o ho
      rw [resultOf_evalSeq_of_not_mem _ _ _ _ _ (fun h => hnot (List.mem_cons_of_mem _ h)),
        resultOf_evalClause,
        if_neg (fun h : x = o => hnot (by rw [← h]; exact List.mem_cons_self _ _))]
    by_cases hcT : c ∈ T
    · rw [ih _ hA' hso.2 c hcT]
      by_cases hcx : x = c
      · subst hcx
        rw [hkey, evalBuf_idem]
      · rw [resultOf_evalClause, if_neg hcx]
    · have hcx : c = x := by
        rcases List.mem_cons.1 hc with h | h
        · exact h
        · exact absurd h hcT
      subst hcx
      rw [resultOf_evalSeq_of_not_mem _ _ _ _ _ hcT]
      exact hkey

/-- An ordered evaluation that starts from buffers one evaluation away from the final
buffers `F` ends in `F`. -/
theorem run_twice {α : Type} (sem : Opcode → List α → α) (count : Nat) (d0 F : Arena α)
    (l : List Nat) :
    ∀ G : Arena α, (∀ c, (G.get c).map Clause.shape = (d0.get c).map Clause.shape) →
      SeqOrdered d0 l →
      (∀ c, c ∉ l → G.resultOf c = F.resultOf c) →
      (∀ c ∈ l, evalBuf sem count d0 F c (G.resultOf c) = F.resultOf c) →
      ∀ c, (l.foldl (evalClause sem count) G).resultOf c = F.resultOf c := by
  induction l with
  | nil => intro G _ _ h1 _ c; exact h1 c (List.not_mem_nil c)
  | cons x T ih =>
    intro G hG hso h1 h2 c
    simp only [List.foldl_cons]
    have hG' : ∀ c, ((evalClause sem count G x).get c).map Clause.shape
        = (d0.get c).map Clause.shape := fun c =>
      ((agree_evalClause_self sem count (fun _ => false) G x rfl).1 c).trans (hG c)
    have hx : (evalClause sem count G x).resultOf x = F.resultOf x := by
      rw [resultOf_evalClause, if_pos rfl, ← h2 x (List.mem_cons_self _ _)]
      apply evalBuf_congr _ _ _ _ _ _ _ _ (hG x)
      intro o ho
      rw [operandsOf_of_shape G d0 x (hG x)] at ho
      exact h1 o (hso.1 o ho)
    apply ih _ hG' hso.2
    · intro c hc
      by_cases hcx : x = c
      · subst hcx; exact hx
      · rw [resultOf_evalClause, if_neg hcx]
        exact h1 c (fun h => by
          rcases List.mem_cons.1 h with h | h
          · exact hcx h.symm
          · exact hc h)
    · intro c hc
      by_cases hcx : x = c
      · subst hcx
        rw [hx, ← h2 x (List.mem_cons_self _ _), evalBuf_idem]
      · rw [resultOf_evalClause, if_neg hcx]
        exact h2 c (List.mem_cons_of_mem _ hc)

theorem seqOrdered_append {α : Type} (d : Arena α) (l1 l2 : List Nat)
    (h1 : ∀ c ∈ l1, ∀ o ∈ d.operandsOf c, o ∉ l1 ++ l2) (h2 : SeqOrdered d l2) :
    SeqOrdered d (l1 ++ l2) := by
  induction l1 with
  | nil => exact h2
  | cons x l1 ih =>
    refine ⟨fun o ho => h1 x (List.mem_cons_self _ _) o ho, ih ?_⟩
    intro c hc o ho hmem
    exact h1 c (List.mem_cons_of_mem _ hc) o ho (List.mem_cons_of_mem _ hmem)

theorem tiered_seqOrdered {α : Type} (d : Arena α) (rows : List Row) (ht : Tiered d rows) :
    SeqOrdered d (activeSeq rows) := by
  induction rows with
  | nil => trivial
  | cons row rest ih =>
    show SeqOrdered d ((row :: rest).flatMap Row.activeClauses)
    rw [List.flatMap_cons]
    apply seqOrdered_append _ _ _ _ (ih ht.2)
    intro c hc o ho hmem
    rcases List.mem_append.1 hmem with h | h
    · exact ht.1 c hc o ho row (List.mem_cons_self _ _) h
    · obtain ⟨r, hr, hor⟩ := List.mem_flatMap.1 h
      exact ht.1 c hc o ho r (List.mem_cons_of_mem _ hr) hor

theorem resultOf_modify_setResult {α : Type} (d : Arena α) (v : α) (n t c : Nat) :
    (Arena.modify (Clause.setResult v n) d t).resultOf c
      = if t = c then (d.resultOf c).set n v else d.resultOf c := by
  rw [Arena.resultOf_eq, Arena.get_modify]
  by_cases h : t = c
  · simp only [h, if_true, Arena.resultOf_eq]
    cases d.get c <;> simp [Clause.setResult]
  · simp only [h, if_false, Arena.resultOf_eq]

theorem flattenStep_resultOf {α : Type} (X Y Z : Nat) (r : Region α) (d : Arena α) (n : Nat)
    (ijk : Nat × Nat × Nat) (c : Nat) :
    (flattenStep X Y Z r (d, n) ijk).1.resultOf c
      = applyWrites (stepWrites X Y Z r c n ijk) (d.resultOf c) := by
  simp only [flattenStep, resultOf_modify_setResult, stepWrites]
  by_cases hX : X = c <;> by_cases hY : Y = c <;> by_cases hZ : Z = c <;>
    simp [hX, hY, hZ, applyWrites]

theorem flatten_writes {α : Type} (X Y Z : Nat) (r : Region α) (c : Nat)
    (l : List (Nat × Nat × Nat)) (d : Arena α) (n : Nat) :
    (l.foldl (flattenStep X Y Z r) (d, n)).1.resultOf c
      = applyWrites (flattenWrites X Y Z r c n l) (d.resultOf c) := by
  induction l generalizing d n with
  | nil => rfl
  | cons a l ih =>
    simp only [List.foldl_cons, flattenWrites, applyWrites_append]
    have hst : flattenStep X Y Z r (d, n) a = ((flattenStep X Y Z r (d, n) a).1, n + 1) := rfl
    rw [hst, ih, flattenStep_resultOf]

/-- Evaluating a second time on the same region, from the buffers the first evaluation
left, gives every clause the same buffer again, when the evaluation order respects the
dependencies. -/
theorem Evaluator.evalData_again {α : Type} (sem : Opcode → List α → α) (e : Evaluator α)
    (r : Region α) (hso : SeqOrdered e.data (activeSeq e.rows)) (c : Nat) :
    (Evaluator.evalData sem { e with data := e.evalData sem r } r).resultOf c
      = (e.evalData sem r).resultOf c := by
  have hshA : ∀ c, ((flatten e.X e.Y e.Z r e.data).1.get c).map Clause.shape
      = (e.data.get c).map Clause.shape := shape_flatten _ _ _ _ _
  have hF : ∀ c, ((e.evalData sem r).get c).map Clause.shape
      = (e.data.get c).map Clause.shape := fun c =>
    (shape_evalSeq sem r.voxels _ _ c).trans (hshA c)
  have hshB : ∀ c, ((flatten e.X e.Y e.Z r (e.evalData sem r)).1.get c).map Clause.shape
      = (e.data.get c).map Clause.shape := fun c =>
    (shape_flatten _ _ _ _ _ c).trans (hF c)
  have hflatA : ∀ c, (flatten e.X e.Y e.Z r e.data).1.resultOf c
      = applyWrites (flattenWrites e.X e.Y e.Z r c 0 (REGION_ITERATE_XYZ r))
          (e.data.resultOf c) := fun c => flatten_writes _ _ _ _ _ _ _ _
  have hflatB : ∀ c, (flatten e.X e.Y e.Z r (e.evalData sem r)).1.resultOf c
      = applyWrites (flattenWrites e.X e.Y e.Z r c 0 (REGION_ITERATE_XYZ r))
          ((e.evalData sem r).resultOf c) := fun c => flatten_writes _ _ _ _ _ _ _ _
  show ((activeSeq e.rows).foldl (evalClause sem r.voxels)
      (flatten e.X e.Y e.Z r (e.evalData sem r)).1).resultOf c = _
  apply run_twice sem r.voxels e.data (e.evalData sem r) (activeSeq e.rows) _ hshB hso
  · intro c hc
    rw [hflatB]
    have : (e.evalData sem r).resultOf c = (flatten e.X e.Y e.Z r e.data).1.resultOf c :=
      resultOf_evalSeq_of_not_mem _ _ _ _ _ hc
    rw [this, hflatA, applyWrites_idem]
  · intro c hc
    have h1 : (e.evalData sem r).resultOf c
        = evalBuf sem r.voxels e.data (e.evalData sem r) c
            ((flatten e.X e.Y e.Z r e.data).1.resultOf c) :=
      run_once sem r.voxels e.data (activeSeq e.rows) _ hshA hso c hc
    rw [hflatB]
    conv_lhs => rw [h1]
    conv_rhs => rw [h1]
    rw [hflatA]
    simp only [evalBuf_eq_applyWrites]
    rw [applyWrites_absorb, applyWrites_idem]

/-- Evaluating a second time on the same region, from the buffers the first evaluation
left, gives every clause the same buffer again. -/
theorem Evaluator.evalData_twice {α : Type} (sem : Opcode → List α → α) (e : Evaluator α)
    (r : Region α) (ht : Tiered e.data e.rows) (c : Nat) :
    (Evaluator.evalData sem { e with data := e.evalData sem r } r).resultOf c
      = (e.evalData sem r).resultOf c :=
  e.evalData_again sem r (tiered_seqOrdered e.data e.rows ht) c

/-! ## Structure of a compiled evaluator -/

theorem le_of_mem_activeSeq_rowsFrom {α : Type} (rs : List (List (Atom α))) (n x : Nat)
    (h : x ∈ activeSeq (rowsFrom n rs)) : n ≤ x := by
  induction rs generalizing n with
  | nil => simp [rowsFrom, activeSeq] at h
  | cons r rs ih =>
    simp only [rowsFrom, activeSeq, List.flatMap_cons, List.mem_append] at h
    rcases h with h | h
    · have hx : x ∈ List.range' n r.length := List.mem_of_mem_take h
      exact (List.mem_range'_1.1 hx).1
    · exact Nat.le_trans (Nat.le_add_right _ _) (ih _ h)

theorem Tree.atoms_axes {α : Type} (tree : Tree α) :
    tree.atoms[tree.constants.length]? = some tree.X
    ∧ tree.atoms[tree.constants.length + 1]? = some tree.Y
    ∧ tree.atoms[tree.constants.length + 2]? = some tree.Z := by
  have h : tree.atoms
      = tree.constants ++ (tree.X :: tree.Y :: tree.Z :: (tree.matrix ++ tree.rows.flatten)) := by
    simp [Tree.atoms]
  rw [h]
  refine ⟨?_, ?_, ?_⟩
  · rw [List.getElem?_append_right (Nat.le_refl _)]; simp
  · rw [List.getElem?_append_right (Nat.le_add_right _ _)]; simp
  · rw [List.getElem?_append_right (Nat.le_add_right _ _)]; simp

/-- In a compiled evaluator the three axis leaves are different clauses with `K`-slot
buffers that belong to no row, and the twelve parameter pointers are distinct. -/
theorem compile_leaves {α : Type} (K : Nat) (tree : Tree α) (e : Evaluator α)
    (h : compile K tree = some e) :
    e.X ≠ e.Y ∧ e.X ≠ e.Z ∧ e.Y ≠ e.Z ∧ e.matrix.Nodup
    ∧ (e.data.resultOf e.X).length = K ∧ (e.data.resultOf e.Y).length = K
    ∧ (e.data.resultOf e.Z).length = K
    ∧ e.X ∉ activeSeq e.rows ∧ e.Y ∉ activeSeq e.rows ∧ e.Z ∉ activeSeq e.rows := by
  obtain ⟨s, root, hb, -, rfl⟩ := (compile_eq_ok K tree e).1 h
  obtain ⟨-, -, hX, hY, hZ, hM, hR, inv⟩ := build_ok K tree s hb
  obtain ⟨aX, aY, aZ⟩ := tree.atoms_axes
  have hbuf : ∀ i m, tree.atoms[i]? = some m → (s.data.resultOf i).length = K := by
    intro i m hi
    obtain ⟨ops, hget, -⟩ := inv.slot i m hi
    simp [Arena.resultOf, hget, Clause.ofAtom]
  have hrow : ∀ x, x ∈ activeSeq s.rows → tree.constants.length + 15 ≤ x := by
    intro x hx
    rw [hR] at hx
    exact le_of_mem_activeSeq_rowsFrom _ _ _ hx
  simp only [Built.toEvaluator]
  refine ⟨by omega, by omega, by omega, ?_, ?_, ?_, ?_, ?_, ?_, ?_⟩
  · rw [hM]; exact List.nodup_range' _ _
  · rw [hX]; exact hbuf _ _ aX
  · rw [hY]; exact hbuf _ _ aY
  · rw [hZ]; exact hbuf _ _ aZ
  · intro hx; have := hrow _ hx; omega
  · intro hx; have := hrow _ hx; omega
  · intro hx; have := hrow _ hx; omega

/-! ## Nested `push` and `pop` -/

theorem popRows_sameCounts (rows rows' : List Row)
    (h : List.Forall₂ Row.sameCounts rows rows') :
    ∀ out', popRows rows' = some out' →
      ∃ out, popRows rows = some out ∧ List.Forall₂ Row.sameCounts out out' := by
  induction h with
  | nil =>
    intro out' ho
    simp only [popRows, Option.some.injEq] at ho
    subst ho
    exact ⟨[], rfl, List.Forall₂.nil⟩
  | @cons row row' rows rows' hr _ ih =>
    intro out' ho
    simp only [popRows] at ho
    cases hp : Row.pop row' with
    | none => simp [hp] at ho
    | some q' =>
      simp only [hp] at ho
      cases hrest : popRows rows' with
      | none => simp [hrest] at ho
      | some rest' =>
        simp only [hrest, Option.map_some', Option.some.injEq] at ho
        subst ho
        obtain ⟨rest, hrest1, hrest2⟩ := ih rest' hrest
        obtain ⟨hact, hsav⟩ := hr
        unfold Row.pop at hp
        cases hs : row'.saved with
        | nil => simp [hs] at hp
        | cons a s =>
          simp only [hs, Option.some.injEq] at hp
          subst hp
          refine ⟨{ row with active := a, saved := s } :: rest, ?_, ?_⟩
          · simp only [popRows, Row.pop, hsav, hs, hrest1, Option.map_some']
          · exact List.Forall₂.cons ⟨rfl, rfl⟩ hrest2

theorem forall₂_sameCounts_unpush (rows qs : List Row) (h : qs.length = rows.length) :
    List.Forall₂ Row.sameCounts (List.zipWith Row.unpush rows qs) rows := by
  induction rows generalizing qs with
  | nil => simp
  | cons row rest ih =>
    cases qs with
    | nil => simp at h
    | cons q qs =>
      simp only [List.zipWith_cons_cons]
      exact List.Forall₂.cons ⟨rfl, rfl⟩ (ih qs (by simpa using h))

theorem forall₂_sameCounts_unpush_refl (rows : List Row) :
    List.Forall₂ Row.sameCounts rows rows := by
  induction rows with
  | nil => exact List.Forall₂.nil
  | cons row rest ih => exact List.Forall₂.cons ⟨rfl, rfl⟩ ih

theorem Evaluator.restored_sameCounts {α : Type} (e : Evaluator α) :
    List.Forall₂ Row.sameCounts e.restored.rows e.rows :=
  forall₂_sameCounts_unpush _ _ (by rw [Evaluator.push_rows, length_pushRows])

theorem forall₂_sameCounts_trans (a b c : List Row) (h1 : List.Forall₂ Row.sameCounts a b)
    (h2 : List.Forall₂ Row.sameCounts b c) : List.Forall₂ Row.sameCounts a c := by
  induction h1 generalizing c with
  | nil => cases h2; exact List.Forall₂.nil
  | cons hab _ ih =>
    cases h2 with
    | cons hbc h2' =>
      exact List.Forall₂.cons ⟨hab.1.trans hbc.1, hab.2.trans hbc.2⟩ (ih _ h2')

theorem popN_sameCounts {α : Type} (k : Nat) :
    ∀ (s t : Evaluator α), List.Forall₂ Row.sameCounts s.rows t.rows →
      ∀ t', popN k t = some t' →
        ∃ s', popN k s = some s' ∧ List.Forall₂ Row.sameCounts s'.rows t'.rows := by
  induction k with
  | zero =>
    intro s t h t' ht
    simp only [popN, Option.some.injEq] at ht
    subst ht
    exact ⟨s, rfl, h⟩
  | succ k ih =>
    intro s t h t' ht
    simp only [popN, Evaluator.pop] at ht
    cases hp : popRows t.rows with
    | none => simp [hp] at ht
    | some out' =>
      simp only [hp, Option.map_some', Option.some_bind] at ht
      obtain ⟨out, hout, hsame⟩ := popRows_sameCounts s.rows t.rows h out' hp
      obtain ⟨s', hs', hsame'⟩ := ih { s with rows := out } { t with rows := out' } hsame t' ht
      exact ⟨s', by simp only [popN, Evaluator.pop, hout, Option.map_some',
        Option.some_bind, hs'], hsame'⟩

theorem popN_pushN {α : Type} (e : Evaluator α) (n : Nat) :
    ∀ k, k ≤ n → ∃ e', popN k (pushN n e) = some e'
      ∧ List.Forall₂ Row.sameCounts e'.rows (pushN (n - k) e).rows := by
  induction n with
  | zero =>
    intro k hk
    have : k = 0 := Nat.le_zero.1 hk
    subst this
    exact ⟨e, rfl, forall₂_sameCounts_unpush_refl e.rows⟩
  | succ n ih =>
    intro k hk
    cases k with
    | zero => exact ⟨pushN (n + 1) e, rfl, forall₂_sameCounts_unpush_refl _⟩
    | succ k =>
      obtain ⟨e', he', hsame⟩ := ih k (Nat.le_of_succ_le_succ hk)
      obtain ⟨s', hs', hsame'⟩ := popN_sameCounts k (pushN n e).restored (pushN n e)
        (pushN n e).restored_sameCounts e' he'
      refine ⟨s', ?_, ?_⟩
      · show ((pushN n e).push.pop).bind (popN k) = some s'
        rw [Evaluator.pop_push, Option.some_bind, hs']
      · rw [Nat.succ_sub_succ]
        exact forall₂_sameCounts_trans _ _ _ hsame' hsame

/-! ## The sum of `X` and a constant -/

theorem slotValues_pair {α : Type} (a b : List α) (s : Nat) :
    slotValues [a, b] s = (a[s]?).bind (fun x => (b[s]?).bind (fun y => some [x, y])) := by
  simp only [slotValues, List.mapM_cons, List.mapM_nil]
  cases a[s]? <;> cases b[s]? <;> rfl

theorem sum_compile {α : Type} (K : Nat) (zero five : α) :
    compile K (sumTree zero five) = some (sumEvaluator K zero five) := by
  simp [compile, build, sumTree, sumEvaluator, newClauses, newClause, Clause.construct,
    AtomMap.findAll, AtomMap.find, AtomMap.insert, Arena.place, buildRows, fillRow, finish,
    Tree.count, Tree.atoms, Row.empty, Row.push_back, Row.setSize, Built.toEvaluator,
    List.range, List.range.loop, List.replicate]

theorem sum_eval {α : Type} (sem : Opcode → List α → α) (K : Nat) (zero two five : α)
    (hK : 1 ≤ K) :
    ((sumEvaluator K zero five).evalData sem (pointAt two zero zero)).resultOf 16
      = (List.replicate K zero).set 0 (sem Opcode.OP_ADD [two, five]) := by
  obtain ⟨k, rfl⟩ : ∃ k, K = k + 1 := ⟨K - 1, by omega⟩
  simp [Evaluator.evalData, activeSeq, sumEvaluator, sumTree, Tree.atoms, flatten,
    REGION_ITERATE_XYZ, pointAt, flattenStep, evalClause, Arena.get, Arena.modify,
    Arena.resultOf, Row.activeClauses, Region.voxels, Clause.setResult, Clause.ofAtom,
    evalSlots, slotValues_pair, List.range, List.range.loop, List.replicate]

/-! ## The rows of a compiled evaluator -/

theorem forall₂_range' {α : Type} (P : Atom α → Nat → Prop) (r : List (Atom α)) :
    ∀ n, (∀ k m, r[k]? = some m → P m (n + k)) → List.Forall₂ P r (List.range' n r.length) := by
  induction r with
  | nil => intro n _; exact List.Forall₂.nil
  | cons m r ih =>
    intro n h
    rw [List.length_cons, List.range'_succ]
    refine List.Forall₂.cons (h 0 m (by simp)) (ih (n + 1) ?_)
    intro k m' hk
    have := h (k + 1) m' (by simpa using hk)
    rwa [Nat.add_assoc, Nat.add_comm 1 k]

theorem rowsFrom_forall₂ {α : Type} (P : Atom α → Nat → Prop) (rs : List (List (Atom α))) :
    ∀ n, (∀ k m, rs.flatten[k]? = some m → P m (n + k)) →
      List.Forall₂ (fun tier (row : Row) => row.active = row.clauses.length
          ∧ row.saved = [] ∧ List.Forall₂ P tier row.clauses) rs (rowsFrom n rs) := by
  induction rs with
  | nil => intro n _; exact List.Forall₂.nil
  | cons r rs ih =>
    intro n h
    refine List.Forall₂.cons ⟨by simp, rfl, forall₂_range' P r n ?_⟩ (ih (n + r.length) ?_)
    · intro k m hk
      refine h k m ?_
      rw [List.flatten_cons]
      exact getElem?_append_some _ _ _ _ hk
    · intro k m hk
      have := h (r.length + k) m (by
        rw [List.flatten_cons, List.getElem?_append_right (Nat.le_add_right _ _)]
        simpa using hk)
      rwa [Nat.add_assoc]

/-! ## Operand lookups under the schedule contract -/

theorem AtomMap.findAll_of_keys (m : AtomMap) (as : List Nat)
    (h : ∀ a ∈ as, a ∈ AtomMap.keys m) : ∃ ops, AtomMap.findAll m as = some ops := by
  induction as with
  | nil => exact ⟨[], rfl⟩
  | cons a as ih =>
    obtain ⟨ops, hops⟩ := ih (fun x hx => h x (List.mem_cons_of_mem _ hx))
    obtain ⟨c, hc⟩ := Option.isSome_iff_exists.1
      ((AtomMap.find_isSome_iff m a).2 (h a (List.mem_cons_self _ _)))
    exact ⟨c :: ops, by simp only [AtomMap.findAll, hc, hops]⟩

theorem BuildInv.step_total {α : Type} {K cap : Nat} {done : List (Atom α)} {b : Builder α}
    (m : Atom α) (inv : BuildInv K cap done b) (hcap : done.length < cap)
    (hops : ∀ a ∈ m.operands, a ∈ done.map Atom.id) :
    ∃ c b', newClause K m b = .ok (c, b') ∧ BuildInv K cap (done ++ [m]) b' := by
  obtain ⟨ops, hfind⟩ := AtomMap.findAll_of_keys b.clauses m.operands
    (fun a ha => (inv.map_dom a).2 (hops a ha))
  have hp : b.ptr < b.data.length := by
    rw [inv.ptr_eq, inv.len_eq]
    exact hcap
  have h : newClause K m b = .ok (b.ptr,
      { data := Arena.place (Clause.ofAtom K m ops) b.data b.ptr, ptr := b.ptr + 1,
        clauses := AtomMap.insert b.clauses m.id b.ptr }) := by
    simp only [newClause, hp, if_true, Clause.construct, hfind]
  exact ⟨_, _, h, (inv.step h).2⟩

theorem BuildInv.newClauses_total {α : Type} {K cap : Nat} (ms : List (Atom α)) :
    ∀ {done : List (Atom α)} {b : Builder α} (out : List Nat),
      BuildInv K cap done b → done.length + ms.length ≤ cap →
      (∀ m ∈ ms, ∀ a ∈ m.operands, a ∈ done.map Atom.id) →
      ∃ cs b', Ao.newClauses K ms out b = .ok (cs, b') ∧ BuildInv K cap (done ++ ms) b' := by
  induction ms with
  | nil =>
    intro done b out inv _ _
    exact ⟨out, b, rfl, by simpa using inv⟩
  | cons m ms ih =>
    intro done b out inv hcap hops
    rw [List.length_cons] at hcap
    obtain ⟨c, b1, h1, inv1⟩ := inv.step_total m (by omega)
      (hops m (List.mem_cons_self _ _))
    obtain ⟨cs, b', h2, inv2⟩ := ih (out ++ [c]) inv1
      (by rw [List.length_append, List.length_singleton]; omega)
      (fun x hx a ha => by
        rw [List.map_append]
        exact List.mem_append_left _ (hops x (List.mem_cons_of_mem _ hx) a ha))
    refine ⟨cs, b', ?_, by simpa using inv2⟩
    simp only [Ao.newClauses, h1, h2]

theorem BuildInv.fillRow_total {α : Type} {K cap : Nat} (ms : List (Atom α)) :
    ∀ {done : List (Atom α)} {b : Builder α} (row : Row),
      BuildInv K cap done b → done.length + ms.length ≤ cap →
      (∀ m ∈ ms, ∀ a ∈ m.operands, a ∈ done.map Atom.id) →
      ∃ row' b', Ao.fillRow K ms row b = .ok (row', b') ∧ BuildInv K cap (done ++ ms) b' := by
  induction ms with
  | nil =>
    intro done b row inv _ _
    exact ⟨row, b, rfl, by simpa using inv⟩
  | cons m ms ih =>
    intro done b row inv hcap hops
    rw [List.length_cons] at hcap
    obtain ⟨c, b1, h1, inv1⟩ := inv.step_total m (by omega)
      (hops m (List.mem_cons_self _ _))
    obtain ⟨row', b', h2, inv2⟩ := ih (row.push_back c) inv1
      (by rw [List.length_append, List.length_singleton]; omega)
      (fun x hx a ha => by
        rw [List.map_append]
        exact List.mem_append_left _ (hops x (List.mem_cons_of_mem _ hx) a ha))
    refine ⟨row', b', ?_, by simpa using inv2⟩
    simp only [Ao.fillRow, h1, h2]

theorem BuildInv.buildRows_total {α : Type} {K cap : Nat} (rs : List (List (Atom α))) :
    ∀ {done : List (Atom α)} {b : Builder α} (rows : List Row),
      BuildInv K cap done b → done.length + rs.flatten.length ≤ cap →
      scheduledFrom done rs →
      ∃ rows' b', Ao.buildRows K rs rows b = .ok (rows', b')
        ∧ BuildInv K cap (done ++ rs.flatten) b' := by
  induction rs with
  | nil =>
    intro done b rows inv _ _
    exact ⟨rows, b, rfl, by simpa using inv⟩
  | cons r rs ih =>
    intro done b rows inv hcap hs
    rw [List.flatten_cons, List.length_append] at hcap
    obtain ⟨row, b1, h1, inv1⟩ := inv.fillRow_total r Row.empty (by omega) hs.1
    obtain ⟨rows', b', h2, inv2⟩ := ih (rows ++ [row.setSize]) inv1
      (by rw [List.length_append]; omega) hs.2
    refine ⟨rows', b', ?_, by simpa using inv2⟩
    simp only [Ao.buildRows, h1, h2]

theorem build_total {α : Type} (K : Nat) (tree : Tree α) (hs : Scheduled tree) :
    (∃ s, build K tree = .ok s)
    ∨ (tree.matrix.length ≠ 12 ∧ build K tree = .error .matrixSize) := by
  obtain ⟨hleaf, hrows⟩ := hs
  have hcap : tree.count
      = tree.constants.length + 3 + tree.matrix.length + tree.rows.flatten.length := by
    rw [Tree.count_eq]
    simp only [Tree.atoms, List.length_append, List.length_cons, List.length_nil]
  have hnil : ∀ (done : List (Atom α)) m, m ∈ tree.leaves →
      ∀ a ∈ m.operands, a ∈ done.map Atom.id := by
    intro done m hmem a ha
    rw [hleaf m hmem] at ha
    cases ha
  have hX : tree.X ∈ tree.leaves := by simp [Tree.leaves]
  have hY : tree.Y ∈ tree.leaves := by simp [Tree.leaves]
  have hZ : tree.Z ∈ tree.leaves := by simp [Tree.leaves]
  obtain ⟨constants, b1, h1, inv1⟩ := (BuildInv.init K tree.count).newClauses_total
    tree.constants [] (by simp only [List.length_nil]; omega)
    (fun m hmem => hnil _ m (by simp [Tree.leaves, hmem]))
  obtain ⟨X, b2, h2, inv2⟩ := inv1.step_total tree.X
    (by simp only [List.length_append, List.length_nil]; omega) (hnil _ _ hX)
  obtain ⟨Y, b3, h3, inv3⟩ := inv2.step_total tree.Y
    (by simp only [List.length_append, List.length_nil, List.length_cons]; omega)
    (hnil _ _ hY)
  obtain ⟨Z, b4, h4, inv4⟩ := inv3.step_total tree.Z
    (by simp only [List.length_append, List.length_nil, List.length_cons]; omega)
    (hnil _ _ hZ)
  by_cases hm : tree.matrix.length = 12
  swap
  · exact Or.inr ⟨hm, by simp only [build, h1, h2, h3, h4, hm, if_false]⟩
  left
  obtain ⟨matrix, b5, h5, inv5⟩ := inv4.newClauses_total tree.matrix []
    (by simp only [List.length_append, List.length_nil, List.length_cons]; omega)
    (fun m hmem => hnil _ m (by simp [Tree.leaves, hmem]))
  have hd : [] ++ tree.constants ++ [tree.X] ++ [tree.Y] ++ [tree.Z] ++ tree.matrix
      = tree.leaves := by simp [Tree.leaves]
  rw [hd] at inv5
  obtain ⟨rows, b6, h6, -⟩ := inv5.buildRows_total tree.rows []
    (by simp only [Tree.leaves, List.length_append, List.length_nil, List.length_cons]; omega)
    hrows
  simp only [build, h1, h2, h3, h4, hm, if_true, h5, h6]
  exact ⟨_, rfl⟩

theorem forall₂_mem_right {A B : Type} (R : A → B → Prop) :
    ∀ (l1 : List A) (l2 : List B), List.Forall₂ R l1 l2 → ∀ y ∈ l2, ∃ x ∈ l1, R x y := by
  intro l1 l2 h
  induction h with
  | nil => intro y hy; cases hy
  | cons hr _ ih =>
    intro y hy
    rcases List.mem_cons.1 hy with rfl | hy
    · exact ⟨_, List.mem_cons_self _ _, hr⟩
    · obtain ⟨x, hx, hxy⟩ := ih y hy
      exact ⟨x, List.mem_cons_of_mem _ hx, hxy⟩

/-! ## The bound of the rows -/

theorem Row.push_length {α : Type} (d : Arena α) (row : Row) :
    (Row.push d row).2.clauses.length = row.clauses.length
    ∧ (Row.push d row).2.active ≤ row.active := by
  have hperm := List.filter_append_perm
    (fun c => !(row.activeClauses.foldl clearOperands d).isIgnored c) row.activeClauses
  have hlen := hperm.length_eq
  simp only [Bool.not_not, List.length_append] at hlen
  have htake : row.activeClauses.length = min row.active row.clauses.length := by
    simp [Row.activeClauses]
  constructor
  · show (_ ++ _ ++ _ : List Nat).length = _
    simp only [List.length_append, List.length_drop]
    omega
  · show (List.filter _ _).length ≤ _
    omega

theorem Row.push_bounded {α : Type} (d : Arena α) (row : Row) (h : row.bounded) :
    (Row.push d row).2.bounded := by
  obtain ⟨h1, h2⟩ := Row.push_length d row
  refine ⟨by rw [h1]; exact Nat.le_trans h2 h.1, ?_⟩
  intro n hn
  rw [h1]
  have hn1 : n ∈ row.active :: row.saved := hn
  rcases List.mem_cons.1 hn1 with rfl | hn2
  · exact h.1
  · exact h.2 n hn2

theorem pushRows_bounded {α : Type} (d : Arena α) (rows : List Row)
    (h : ∀ row ∈ rows, row.bounded) : ∀ row ∈ (pushRows d rows).2, row.bounded := by
  induction rows with
  | nil => intro row hrow; cases hrow
  | cons r rest ih =>
    intro row hrow
    have hrow1 : row ∈ (Row.push (pushRows d rest).1 r).2 :: (pushRows d rest).2 := hrow
    rcases List.mem_cons.1 hrow1 with rfl | hmem
    · exact Row.push_bounded _ r (h r (List.mem_cons_self _ _))
    · exact ih (fun x hx => h x (List.mem_cons_of_mem _ hx)) row hmem

theorem pushRows_active_le {α : Type} (d : Arena α) (rows : List Row) :
    List.Forall₂ (fun (row row' : Row) => row'.active ≤ row.active
      ∧ row'.clauses.length = row.clauses.length) rows (pushRows d rows).2 := by
  induction rows with
  | nil => exact List.Forall₂.nil
  | cons r rest ih =>
    exact List.Forall₂.cons ⟨(Row.push_length _ r).2, (Row.push_length _ r).1⟩ ih

theorem Row.pop_bounded (row row' : Row) (h : row.bounded) (hp : row.pop = some row') :
    row'.bounded := by
  unfold Row.pop at hp
  cases hs : row.saved with
  | nil => simp [hs] at hp
  | cons a s =>
    simp only [hs, Option.some.injEq] at hp
    subst hp
    have h2 := h.2
    rw [hs] at h2
    exact ⟨h2 a (List.mem_cons_self _ _), fun n hn => h2 n (List.mem_cons_of_mem _ hn)⟩

theorem popRows_bounded (rows : List Row) :
    ∀ rows', (∀ row ∈ rows, row.bounded) → popRows rows = some rows' →
      ∀ row ∈ rows', row.bounded := by
  induction rows with
  | nil =>
    intro rows' _ hp
    simp only [popRows, Option.some.injEq] at hp
    subst hp
    intro row hrow; cases hrow
  | cons r rest ih =>
    intro rows' h hp
    simp only [popRows] at hp
    cases hr : Row.pop r with
    | none => simp [hr] at hp
    | some r' =>
      cases hrest : popRows rest with
      | none => simp [hr, hrest] at hp
      | some rest' =>
        simp only [hr, hrest, Option.map_some', Option.some.injEq] at hp
        subst hp
        intro row hrow
        rcases List.mem_cons.1 hrow with rfl | hmem
        · exact Row.pop_bounded r _ (h r (List.mem_cons_self _ _)) hr
        · exact ih rest' (fun x hx => h x (List.mem_cons_of_mem _ hx)) hrest row hmem

theorem rowsFrom_bounded {α : Type} (rs : List (List (Atom α))) :
    ∀ n, ∀ row ∈ rowsFrom n rs, row.bounded := by
  induction rs with
  | nil => intro n row hrow; cases hrow
  | cons r rs ih =>
    intro n row hrow
    rcases List.mem_cons.1 hrow with rfl | hmem
    · exact ⟨by simp, fun k hk => by cases hk⟩
    · exact ih _ row hmem

theorem Evaluator.call_bounded {α : Type} (sem : Opcode → List α → α) (K : Nat)
    (e e' : Evaluator α) (c : Call α) (h : ∀ row ∈ e.rows, row.bounded)
    (hc : e.call sem K c = some e') : ∀ row ∈ e'.rows, row.bounded := by
  cases c with
  | setMatrix m =>
    obtain ⟨d, n, -, rfl⟩ := e.setMatrix_some K m e' hc
    exact h
  | push =>
    simp only [Evaluator.call, Option.some.injEq] at hc
    subst hc
    exact pushRows_bounded _ _ h
  | eval r =>
    simp only [Evaluator.call] at hc
    by_cases hk : r.voxels ≤ K
    · rw [e.eval_of_le sem K r hk] at hc
      simp only [Option.map_some', Option.some.injEq] at hc
      subst hc
      exact h
    · simp [Evaluator.eval, hk] at hc
  | pop =>
    simp only [Evaluator.call, Evaluator.pop] at hc
    cases hp : popRows e.rows with
    | none => simp [hp] at hc
    | some rows' =>
      simp only [hp, Option.map_some', Option.some.injEq] at hc
      subst hc
      exact popRows_bounded e.rows rows' h hp

theorem Evaluator.calls_bounded {α : Type} (sem : Opcode → List α → α) (K : Nat)
    (cs : List (Call α)) :
    ∀ e e' : Evaluator α, (∀ row ∈ e.rows, row.bounded) →
      Evaluator.calls sem K cs e = some e' → ∀ row ∈ e'.rows, row.bounded := by
  induction cs with
  | nil =>
    intro e e' h hc
    simp only [Evaluator.calls, Option.some.injEq] at hc
    subst hc
    exact h
  | cons c cs ih =>
    intro e e' h hc
    simp only [Evaluator.calls] at hc
    cases h1 : e.call sem K c with
    | none => simp [h1] at hc
    | some e1 =>
      simp only [h1, Option.some_bind] at hc
      exact ih e1 e' (e.call_bounded sem K e1 c h h1) hc

/-! ## The indices of the flattening loop -/

theorem flatten_index {α : Type} (X Y Z : Nat) (r : Region α) (l : List (Nat × Nat × Nat)) :
    ∀ (d : Arena α) (n : Nat), (l.foldl (flattenStep X Y Z r) (d, n)).2 = n + l.length := by
  induction l with
  | nil => intro d n; rfl
  | cons a l ih =>
    intro d n
    have hst : flattenStep X Y Z r (d, n) a = ((flattenStep X Y Z r (d, n) a).1, n + 1) := rfl
    rw [List.foldl_cons, hst, ih, List.length_cons]
    omega

theorem flattenWrites_indices {α : Type} (X Y Z : Nat) (r : Region α) (c : Nat)
    (hone : ∀ n ijk, (stepWrites X Y Z r c n ijk).map Prod.fst = [n])
    (l : List (Nat × Nat × Nat)) :
    ∀ n, (flattenWrites X Y Z r c n l).map Prod.fst = List.range' n l.length := by
  induction l with
  | nil => intro n; rfl
  | cons a l ih =>
    intro n
    rw [flattenWrites, List.map_append, hone, ih, List.length_cons, List.range'_succ]
    rfl

theorem stepWrites_axis {α : Type} (X Y Z : Nat) (r : Region α) (hXY : X ≠ Y) (hXZ : X ≠ Z)
    (hYZ : Y ≠ Z) (c : Nat) (hc : c = X ∨ c = Y ∨ c = Z) (n : Nat) (ijk : Nat × Nat × Nat) :
    (stepWrites X Y Z r c n ijk).map Prod.fst = [n] := by
  rcases hc with rfl | rfl | rfl
  · simp [stepWrites, hXY.symm, hXZ.symm]
  · simp [stepWrites, hXY, hYZ.symm]
  · simp [stepWrites, hXZ, hYZ]

theorem lastWrite_none {α : Type} (ws : List (Nat × α)) (s : Nat)
    (h : s ∉ ws.map Prod.fst) : lastWrite ws s = none := by
  induction ws with
  | nil => rfl
  | cons w ws ih =>
    rw [List.map_cons, List.mem_cons, not_or] at h
    have hw : ¬ w.1 = s := fun hw => h.1 hw.symm
    simp only [lastWrite, ih h.2, hw, if_false]

theorem mem_region_iterate {α : Type} (r : Region α) (ijk : Nat × Nat × Nat)
    (h : ijk ∈ REGION_ITERATE_XYZ r) :
    ijk.1 < r.X.size ∧ ijk.2.1 < r.Y.size ∧ ijk.2.2 < r.Z.size := by
  simp only [REGION_ITERATE_XYZ, List.mem_flatMap, List.mem_map, List.mem_range] at h
  obtain ⟨k, hk, j, hj, i, hi, rfl⟩ := h
  exact ⟨hi, hj, hk⟩

/-! ## Layered rows -/

theorem layered_tiered {α : Type} (d : Arena α) (rows : List Row) (h : Layered d rows) :
    Tiered d rows := by
  induction rows with
  | nil => trivial
  | cons row rest ih =>
    refine ⟨?_, ih h.2⟩
    intro c hc o ho r hr hor
    exact h.1 c (List.mem_of_mem_take hc) o ho r hr (List.mem_of_mem_take hor)

theorem layered_transfer {α : Type} (d d' : Arena α)
    (hops : ∀ c, d'.operandsOf c = d.operandsOf c) (rows rows' : List Row)
    (hsub : List.Forall₂ (fun (r r' : Row) => ∀ x, x ∈ r'.clauses → x ∈ r.clauses) rows rows')
    (h : Layered d rows) : Layered d' rows' := by
  induction hsub with
  | nil => trivial
  | @cons r r' rest rest' hr hrest ih =>
    refine ⟨?_, ih h.2⟩
    intro c hc o ho q' hq' hoq
    rw [hops] at ho
    rcases List.mem_cons.1 hq' with rfl | hq'
    · exact h.1 c (hr c hc) o ho r (List.mem_cons_self _ _) (hr o hoq)
    · obtain ⟨q, hq, hqq⟩ := forall₂_mem_right _ _ _ hrest q' hq'
      exact h.1 c (hr c hc) o ho q (List.mem_cons_of_mem _ hq) (hqq o hoq)

theorem Row.push_clauses {α : Type} (d : Arena α) (row : Row) (x : Nat)
    (h : x ∈ (Row.push d row).2.clauses) : x ∈ row.clauses := by
  have h1 : x ∈ row.activeClauses.filter
        (fun c => !(row.activeClauses.foldl clearOperands d).isIgnored c)
      ++ row.activeClauses.filter
        (fun c => (row.activeClauses.foldl clearOperands d).isIgnored c)
      ++ row.clauses.drop row.active := h
  rcases List.mem_append.1 h1 with h2 | h2
  · rcases List.mem_append.1 h2 with h3 | h3
    · exact List.mem_of_mem_take (List.mem_of_mem_filter h3)
    · exact List.mem_of_mem_take (List.mem_of_mem_filter h3)
  · exact List.mem_of_mem_drop h2

theorem pushRows_clauses {α : Type} (d : Arena α) (rows : List Row) :
    List.Forall₂ (fun (r r' : Row) => ∀ x, x ∈ r'.clauses → x ∈ r.clauses) rows
      (pushRows d rows).2 := by
  induction rows with
  | nil => exact List.Forall₂.nil
  | cons r rest ih => exact List.Forall₂.cons (Row.push_clauses _ r) ih

theorem popRows_clauses (rows : List Row) :
    ∀ rows', popRows rows = some rows' →
      List.Forall₂ (fun (r r' : Row) => ∀ x, x ∈ r'.clauses → x ∈ r.clauses) rows rows' := by
  induction rows with
  | nil =>
    intro rows' hp
    simp only [popRows, Option.some.injEq] at hp
    subst hp
    exact List.Forall₂.nil
  | cons r rest ih =>
    intro rows' hp
    simp only [popRows] at hp
    cases hr : Row.pop r with
    | none => simp [hr] at hp
    | some r' =>
      cases hrest : popRows rest with
      | none => simp [hr, hrest] at hp
      | some rest' =>
        simp only [hr, hrest, Option.map_some', Option.some.injEq] at hp
        subst hp
        refine List.Forall₂.cons ?_ (ih rest' hrest)
        intro x hx
        unfold Row.pop at hr
        cases hs : r.saved with
        | nil => simp [hs] at hr
        | cons a s =>
          simp only [hs, Option.some.injEq] at hr
          subst hr
          exact hx

theorem forall₂_clauses_refl (rows : List Row) :
    List.Forall₂ (fun (r r' : Row) => ∀ x, x ∈ r'.clauses → x ∈ r.clauses) rows rows := by
  induction rows with
  | nil => exact List.Forall₂.nil
  | cons r rest ih => exact List.Forall₂.cons (fun _ h => h) ih

theorem shape_modify {α : Type} (f : Clause α → Clause α)
    (hf : ∀ cl, (f cl).shape = cl.shape) (d : Arena α) (i c : Nat) :
    ((Arena.modify f d i).get c).map Clause.shape = (d.get c).map Clause.shape := by
  rw [Arena.get_modify]
  by_cases hi : i = c
  · rw [if_pos hi]
    cases d.get c with
    | none => rfl
    | some cl => simp [hf]
  · rw [if_neg hi]

theorem shape_setMatrix_loop {α : Type} (matrix : List Nat) (m : Nat → Nat → α)
    (pairs : List (Nat × Nat)) :
    ∀ (d d' : Arena α) (n n' : Nat),
      pairs.foldl (setMatrixStep matrix m) (some (d, n)) = some (d', n') →
      ∀ c, (d'.get c).map Clause.shape = (d.get c).map Clause.shape := by
  induction pairs with
  | nil =>
    intro d d' n n' h c
    simp only [List.foldl_nil, Option.some.injEq, Prod.mk.injEq] at h
    rw [h.1]
  | cons p ps ih =>
    intro d d' n n' h c
    simp only [List.foldl_cons] at h
    cases hs : setMatrixStep matrix m (some (d, n)) p with
    | none => rw [hs, foldl_setMatrixStep_none] at h; cases h
    | some s1 =>
      obtain ⟨d1, n1⟩ := s1
      rw [hs] at h
      obtain ⟨c0, cl0, -, -, -, rfl, rfl⟩ := setMatrixStep_some _ _ _ _ _ _ _ hs
      rw [ih _ _ _ _ h c]
      exact shape_modify (fun x => { x with mutable_value := m p.2 p.1 }) (fun _ => rfl) d c0 c

theorem shape_fill_loop {α : Type} (K : Nat) (l : List Nat) (d : Arena α) (c : Nat) :
    ((l.foldl (fun d c => Arena.modify (Clause.fill K) d c) d).get c).map Clause.shape
      = (d.get c).map Clause.shape := by
  induction l generalizing d with
  | nil => rfl
  | cons a l ih =>
    rw [List.foldl_cons, ih]
    exact shape_modify (Clause.fill K) (fun _ => rfl) d a c

theorem Evaluator.call_layered {α : Type} (sem : Opcode → List α → α) (K : Nat)
    (e e' : Evaluator α) (c : Call α) (h : Layered e.data e.rows)
    (hc : e.call sem K c = some e') : Layered e'.data e'.rows := by
  cases c with
  | setMatrix m =>
    obtain ⟨d, n, hloop, rfl⟩ := e.setMatrix_some K m e' hc
    refine layered_transfer e.data _ ?_ e.rows e.rows (forall₂_clauses_refl _) h
    intro c
    exact operandsOf_of_shape _ _ c
      ((shape_fill_loop K e.matrix d c).trans (shape_setMatrix_loop _ _ _ _ _ _ _ hloop c))
  | push =>
    simp only [Evaluator.call, Option.some.injEq] at hc
    subst hc
    exact layered_transfer e.data _ (fun c => (e.flagEq_push.flag_operandsOf c).symm)
      e.rows _ (pushRows_clauses _ _) h
  | eval r =>
    simp only [Evaluator.call] at hc
    by_cases hk : r.voxels ≤ K
    · rw [e.eval_of_le sem K r hk] at hc
      simp only [Option.map_some', Option.some.injEq] at hc
      subst hc
      refine layered_transfer e.data _ ?_ e.rows e.rows (forall₂_clauses_refl _) h
      intro c
      exact operandsOf_of_shape _ _ c
        ((shape_evalSeq sem r.voxels _ _ c).trans (shape_flatten _ _ _ _ _ c))
    · simp [Evaluator.eval, hk] at hc
  | pop =>
    simp only [Evaluator.call, Evaluator.pop] at hc
    cases hp : popRows e.rows with
    | none => simp [hp] at hc
    | some rows' =>
      simp only [hp, Option.map_some', Option.some.injEq] at hc
      subst hc
      exact layered_transfer e.data e.data (fun _ => rfl) e.rows rows'
        (popRows_clauses e.rows rows' hp) h

theorem Evaluator.calls_layered {α : Type} (sem : Opcode → List α → α) (K : Nat)
    (cs : List (Call α)) :
    ∀ e e' : Evaluator α, Layered e.data e.rows →
      Evaluator.calls sem K cs e = some e' → Layered e'.data e'.rows := by
  induction cs with
  | nil =>
    intro e e' h hc
    simp only [Evaluator.calls, Option.some.injEq] at hc
    subst hc
    exact h
  | cons c cs ih =>
    intro e e' h hc
    simp only [Evaluator.calls] at hc
    cases h1 : e.call sem K c with
    | none => simp [h1] at hc
    | some e1 =>
      simp only [h1, Option.some_bind] at hc
      exact ih e1 e' (e.call_layered sem K e1 c h h1) hc

theorem le_of_mem_clauses_rowsFrom {α : Type} (rs : List (List (Atom α))) :
    ∀ (n : Nat) (q : Row), q ∈ rowsFrom n rs → ∀ x ∈ q.clauses, n ≤ x := by
  induction rs with
  | nil => intro n q hq; cases hq
  | cons r rs ih =>
    intro n q hq x hx
    rcases List.mem_cons.1 hq with rfl | hq
    · exact (List.mem_range'_1.1 hx).1
    · exact Nat.le_trans (Nat.le_add_right _ _) (ih _ q hq x hx)

theorem layered_rowsFrom {α : Type} (d : Arena α) (atoms : List (Atom α))
    (hnd : (atoms.map Atom.id).Nodup)
    (hP : ∀ i m, atoms[i]? = some m → ∀ o ∈ d.operandsOf i,
      ∃ a ∈ m.operands, (atoms[o]?).map Atom.id = some a)
    (rs : List (List (Atom α))) :
    ∀ done, atoms = done ++ rs.flatten → scheduledFrom done rs →
      Layered d (rowsFrom done.length rs) := by
  induction rs with
  | nil => intro done _ _; trivial
  | cons r rs ih =>
    intro done hat hs
    have htail := ih (done ++ r) (by rw [hat, List.flatten_cons, List.append_assoc]) hs.2
    rw [List.length_append] at htail
    refine ⟨?_, htail⟩
    intro c hc o ho q hq hoq
    have hc1 : c ∈ List.range' done.length r.length := hc
    obtain ⟨hc2, hc3⟩ := List.mem_range'_1.1 hc1
    have hlt : c - done.length < r.length := by omega
    have hm : atoms[c]? = some r[c - done.length] := by
      rw [hat, List.getElem?_append_right hc2, List.flatten_cons,
        List.getElem?_append_left hlt]
      exact List.getElem?_eq_getElem hlt
    obtain ⟨a, ha, hoa⟩ := hP c _ hm o ho
    have hmem : a ∈ done.map Atom.id := hs.1 _ (List.getElem_mem hlt) a ha
    obtain ⟨j, hj⟩ := List.getElem?_of_mem hmem
    rw [List.getElem?_map] at hj
    have hjlt : j < done.length := lt_of_map_getElem? _ _ _ _ hj
    have hja : (atoms[j]?).map Atom.id = some a := by
      rw [hat]
      exact map_getElem?_append_some _ _ _ _ _ hj
    have hoj : o = j := index_unique atoms hnd o j a hoa hja
    have hge : done.length ≤ o := le_of_mem_clauses_rowsFrom (r :: rs) done.length q hq o hoq
    omega

theorem compile_layered {α : Type} (K : Nat) (tree : Tree α) (e : Evaluator α)
    (hs : Scheduled tree) (hnd : (tree.atoms.map Atom.id).Nodup)
    (h : compile K tree = some e) : Layered e.data e.rows := by
  obtain ⟨s, root, hb, -, rfl⟩ := (compile_eq_ok K tree e).1 h
  obtain ⟨hm, -, -, -, -, -, hrows, inv⟩ := build_ok K tree s hb
  show Layered s.data s.rows
  rw [hrows]
  have hlen : tree.leaves.length = tree.constants.length + 15 := by
    simp only [Tree.leaves, List.length_append, List.length_cons, List.length_nil, hm]
  rw [← hlen]
  refine layered_rowsFrom s.data tree.atoms hnd ?_ tree.rows tree.leaves
    (by simp [Tree.atoms, Tree.leaves]) hs.2
  intro i m hi o ho
  obtain ⟨ops, hget, hall⟩ := inv.slot i m hi
  have hget1 : s.data.get i = some (Clause.ofAtom K m ops) := hget
  have hops : s.data.operandsOf i = ops := by
    simp [Arena.operandsOf, hget1, Clause.ofAtom]
  rw [hops] at ho
  obtain ⟨a, ha, -, hoa⟩ := forall₂_mem_right _ _ _ hall o ho
  exact ⟨a, ha, hoa⟩

/-- Every state a compiled evaluator of a tree that keeps the schedule contract reaches
has topologically ordered rows. -/
theorem Evaluator.calls_tiered {α : Type} (sem : Opcode → List α → α) (K : Nat)
    (tree : Tree α) (cs : List (Call α)) (e0 e : Evaluator α) (hs : Scheduled tree)
    (hnd : (tree.atoms.map Atom.id).Nodup) (h0 : compile K tree = some e0)
    (h : Evaluator.calls sem K cs e0 = some e) : Tiered e.data e.rows :=
  layered_tiered _ _
    (Evaluator.calls_layered sem K cs e0 e (compile_layered K tree e0 hs hnd h0) h)

/-! # Statements about the evaluator -/

/-- C1 (pruning correctness).  For an evaluator whose rows are topologically ordered and
a region of at most `K` voxels, `eval` after one `push()` and `eval` with no `push()` both
return, and they return the same root buffer (so the same values in slots
`0 .. count-1`); and every clause the root depends on through active clauses stays in
the active prefix of its row. -/
theorem push_preserves_eval {α : Type} (sem : Opcode → List α → α) (K : Nat)
    (e : Evaluator α) (r : Region α) (ht : Tiered e.data e.rows) (hk : r.voxels ≤ K) :
    (∃ e1 e2 out, e.push.eval sem K r = some (e1, out) ∧ e.eval sem K r = some (e2, out))
    ∧ List.Forall₂
        (fun row row' => ∀ c ∈ row.activeClauses, Needed e c → c ∈ row'.activeClauses)
        e.rows e.push.rows := by
  constructor
  · have hout : (e.push.evalData sem r).resultOf e.root = (e.evalData sem r).resultOf e.root :=
      ((e.push_evalData_agree sem r ht).resultOf (c := e.root)
        (by simp [e.root_not_ignored])).symm
    refine ⟨{ e.push with data := e.push.evalData sem r }, { e with data := e.evalData sem r },
      (e.evalData sem r).resultOf e.root, ?_, e.eval_of_le sem K r hk⟩
    rw [e.push.eval_of_le sem K r hk, ← hout]
    rfl
  · have ht' : Tiered e.marked e.rows :=
      tiered_congr (fun c => e.flagEq_marked.flag_operandsOf c) _ ht
    have hmap := (pushRows_tiered e.marked e.rows ht').1
    rw [← Evaluator.push_rows, ← Evaluator.push_data] at hmap
    have h2 : List.Forall₂
        (fun row row' => row.activeClauses.filter (fun c => !e.push.data.isIgnored c)
          = row'.activeClauses) e.rows e.push.rows := by
      exact forall₂_of_map_eq _ _ _ _ hmap.symm
    refine h2.imp ?_
    intro row row' hrow c hc hn
    rw [← hrow, List.mem_filter]
    exact ⟨hc, by simp [e.needed_not_ignored ht c hn]⟩


/-- Witness for C1: `prunedEvaluator` (where `push()` prunes the unused product) on the
2x2x2 region. -/
theorem push_preserves_eval_witness :
    Tiered prunedEvaluator.data prunedEvaluator.rows ∧ cubeRegion.voxels ≤ 8
    ∧ ((∃ e1 e2 out, prunedEvaluator.push.eval intSem 8 cubeRegion = some (e1, out)
          ∧ prunedEvaluator.eval intSem 8 cubeRegion = some (e2, out))
      ∧ List.Forall₂
          (fun row row' => ∀ c ∈ row.activeClauses, Needed prunedEvaluator c →
            c ∈ row'.activeClauses)
          prunedEvaluator.rows prunedEvaluator.push.rows) :=
  ⟨by decide, by decide,
    push_preserves_eval intSem 8 prunedEvaluator cubeRegion (by decide) (by decide)⟩

/-- C2 (push/pop restoration of the active counts).  In every evaluator state, `push()`
followed by `pop()` succeeds and leaves every row's `active` count as it was before the
`push()`. -/
theorem push_pop_active {α : Type} (e : Evaluator α) :
    ∃ e', e.push.pop = some e' ∧ e'.rows.map Row.active = e.rows.map Row.active := by
  refine ⟨e.restored, e.pop_push, ?_⟩
  exact map_active_unpush _ _ (by rw [Evaluator.push_rows, length_pushRows])

/-- C3 (push/pop restoration of the results).  For a tree that keeps the schedule contract
(every operand of an atom of a tier is a leaf or an atom of an earlier tier, and every
atom is listed once), in every state its compiled evaluator reaches by `setMatrix`,
`push`, `eval` and balanced `pop` calls, and for a region of at most `K` voxels:
`push(); pop()` succeeds and `eval` on the resulting state returns the same root buffer
as `eval` on the state before the `push()`; and when `eval` is called first, then
`push(); pop()`, then `eval` again, the second call returns the buffer the first call
returned.  The clauses of a row may have been reordered and flags changed in between. -/
theorem push_pop_eval {α : Type} (sem : Opcode → List α → α) (K : Nat) (tree : Tree α)
    (cs : List (Call α)) (e0 e : Evaluator α) (r : Region α) (hs : Scheduled tree)
    (hnd : (tree.atoms.map Atom.id).Nodup) (h0 : compile K tree = some e0)
    (h : Evaluator.calls sem K cs e0 = some e) (hk : r.voxels ≤ K) :
    (∃ e' e1 e2 out, e.push.pop = some e' ∧ e'.eval sem K r = some (e1, out)
      ∧ e.eval sem K r = some (e2, out))
    ∧ (∃ e1 out e' e2, e.eval sem K r = some (e1, out) ∧ e1.push.pop = some e'
      ∧ e'.eval sem K r = some (e2, out)) := by
  have ht : Tiered e.data e.rows := Evaluator.calls_tiered sem K tree cs e0 e hs hnd h0 h
  have fork : ∀ e : Evaluator α, Tiered e.data e.rows →
      (e.restored.evalData sem r).resultOf e.root = (e.evalData sem r).resultOf e.root :=
    fun e ht => ((e.pop_push_evalData_agree sem r ht).resultOf (c := e.root)
      (by simp [e.root_not_ignored])).symm
  constructor
  · refine ⟨e.restored, { e.restored with data := e.restored.evalData sem r },
      { e with data := e.evalData sem r }, (e.evalData sem r).resultOf e.root,
      e.pop_push, ?_, e.eval_of_le sem K r hk⟩
    rw [Evaluator.eval_of_le sem K _ r hk, ← fork e ht]
    rfl
  · have ht1 : Tiered (e.evalData sem r) e.rows :=
      tiered_congr (fun c => operandsOf_of_shape _ _ c
        (((shape_evalSeq sem r.voxels _ _ c).trans (shape_flatten _ _ _ _ _ c)).symm)) _ ht
    have h1 := fork { e with data := e.evalData sem r } ht1
    have h2 := e.evalData_twice sem r ht e.root
    refine ⟨{ e with data := e.evalData sem r }, (e.evalData sem r).resultOf e.root,
      Evaluator.restored { e with data := e.evalData sem r },
      { Evaluator.restored { e with data := e.evalData sem r } with
        data := Evaluator.evalData sem
          (Evaluator.restored { e with data := e.evalData sem r }) r },
      e.eval_of_le sem K r hk, Evaluator.pop_push _, ?_⟩
    rw [Evaluator.eval_of_le sem K _ r hk, ← h2, ← h1]
    rfl

/-- Witness for C3: `prunedTree` keeps the schedule contract; the state is the one its
evaluator reaches by one `push()`, which prunes the unused product, and the region is
the 2x2x2 region. -/
theorem push_pop_eval_witness :
    Scheduled prunedTree ∧ (prunedTree.atoms.map Atom.id).Nodup
    ∧ compile 8 prunedTree = some prunedEvaluator
    ∧ Evaluator.calls intSem 8 [Call.push] prunedEvaluator = some prunedEvaluator.push
    ∧ cubeRegion.voxels ≤ 8
    ∧ ((∃ e' e1 e2 out, prunedEvaluator.push.push.pop = some e'
          ∧ e'.eval intSem 8 cubeRegion = some (e1, out)
          ∧ prunedEvaluator.push.eval intSem 8 cubeRegion = some (e2, out))
      ∧ (∃ e1 out e' e2, prunedEvaluator.push.eval intSem 8 cubeRegion = some (e1, out)
          ∧ e1.push.pop = some e' ∧ e'.eval intSem 8 cubeRegion = some (e2, out))) :=
  ⟨by decide, by decide, by rfl, by rfl, by decide,
    push_pop_eval intSem 8 prunedTree [Call.push] prunedEvaluator prunedEvaluator.push
      cubeRegion (by decide) (by decide) (by rfl) (by rfl) (by decide)⟩

/-- C7 (arena sizing).  The constructor allocates room for exactly
`3 + |matrix| + |constants| + (sum of the row sizes)` clauses; it never places a clause
past the allocation; and when it completes, the matrix has 12 atoms, the arena has that
many slots, the cursor `ptr` stands exactly at the capacity and every slot holds a
constructed clause. -/
theorem arena_sizing {α : Type} (K : Nat) (tree : Tree α) :
    tree.count
        = 3 + tree.matrix.length + tree.constants.length + (tree.rows.map List.length).sum
    ∧ build K tree ≠ .error .outOfArena
    ∧ ∀ e, compile K tree = some e →
        tree.matrix.length = 12 ∧ e.data.length = tree.count ∧ e.ptr = tree.count
          ∧ ∀ i, i < tree.count → (e.data.get i).isSome := by
  refine ⟨?_, ?_, ?_⟩
  · simp [Tree.count, foldl_add_length]
  · intro h
    rcases build_error K tree _ h with h2 | h2 <;> cases h2
  · intro e he
    obtain ⟨s, root, hb, -, rfl⟩ := (compile_eq_ok K tree e).1 he
    obtain ⟨hm, -, -, -, -, -, -, inv⟩ := build_ok K tree s hb
    have hptr : s.ptr = tree.count := by
      rw [Tree.count_eq]; exact inv.ptr_eq
    refine ⟨hm, inv.len_eq, hptr, ?_⟩
    intro i hi
    rw [Tree.count_eq] at hi
    obtain ⟨ops, hget, -⟩ := inv.slot i tree.atoms[i] (List.getElem?_eq_getElem hi)
    show (s.data.get i).isSome
    rw [hget]
    rfl


/-- Witness for C7: the arena of `prunedEvaluator` has 19 slots, all constructed. -/
theorem arena_sizing_witness :
    compile 8 prunedTree = some prunedEvaluator
    ∧ prunedTree.count = 19
    ∧ prunedEvaluator.data.length = prunedTree.count ∧ prunedEvaluator.ptr = prunedTree.count
    ∧ ∀ i, i < prunedTree.count → (prunedEvaluator.data.get i).isSome :=
  ⟨by rfl, by rfl,
    ((arena_sizing 8 prunedTree).2.2 prunedEvaluator (by rfl)).2.1,
    ((arena_sizing 8 prunedTree).2.2 prunedEvaluator (by rfl)).2.2.1,
    ((arena_sizing 8 prunedTree).2.2 prunedEvaluator (by rfl)).2.2.2⟩

/-- C8 (build order).  In a compiled evaluator of a tree with `c` constants, the
constants are the clauses `0 .. c-1`, `X`, `Y`, `Z` the clauses `c`, `c+1`, `c+2`, the
transform parameters the clauses `c+3 .. c+14`, the rows take the following indices in
row order and, within a row, in the order of the schedule; and the clause at arena index
`i` is the one built from the `i`-th atom of
`constants ++ [X, Y, Z] ++ matrix ++ rows.flatten`. -/
theorem build_order {α : Type} (K : Nat) (tree : Tree α) (e : Evaluator α)
    (h : compile K tree = some e) :
    e.constants = List.range' 0 tree.constants.length
    ∧ e.X = tree.constants.length
    ∧ e.Y = tree.constants.length + 1
    ∧ e.Z = tree.constants.length + 2
    ∧ e.matrix = List.range' (tree.constants.length + 3) 12
    ∧ e.rows = rowsFrom (tree.constants.length + 15) tree.rows
    ∧ ∀ i m, tree.atoms[i]? = some m → ∃ ops, e.data.get i = some (Clause.ofAtom K m ops) := by
  obtain ⟨s, root, hb, -, rfl⟩ := (compile_eq_ok K tree e).1 h
  obtain ⟨-, h1, h2, h3, h4, h5, h6, inv⟩ := build_ok K tree s hb
  refine ⟨h1, h2, h3, h4, h5, h6, ?_⟩
  intro i m hi
  obtain ⟨ops, hget, -⟩ := inv.slot i m hi
  exact ⟨ops, hget⟩


/-- Witness for C8: `prunedTree` has one constant, so `X`, `Y`, `Z` are the clauses 1, 2,
3, the parameters the clauses 4 to 15 and the rows the clauses 16, 17 and 18. -/
theorem build_order_witness :
    compile 8 prunedTree = some prunedEvaluator
    ∧ (prunedEvaluator.constants = List.range' 0 prunedTree.constants.length
      ∧ prunedEvaluator.X = prunedTree.constants.length
      ∧ prunedEvaluator.Y = prunedTree.constants.length + 1
      ∧ prunedEvaluator.Z = prunedTree.constants.length + 2
      ∧ prunedEvaluator.matrix = List.range' (prunedTree.constants.length + 3) 12
      ∧ prunedEvaluator.rows = rowsFrom (prunedTree.constants.length + 15) prunedTree.rows
      ∧ ∀ i m, prunedTree.atoms[i]? = some m →
          ∃ ops, prunedEvaluator.data.get i = some (Clause.ofAtom 8 m ops)) :=
  ⟨by rfl, build_order 8 prunedTree prunedEvaluator (by rfl)⟩

/-- C10 as amended (root check).  The constructor returns an evaluator exactly when it
has built all rows and the identity map then holds a clause for the root atom; the
evaluator's `root` is that clause, which was built from an atom with the address of the
root atom.  When all rows are built and the map holds no clause for the root atom, the
`assert` fails: no evaluator is returned, and the constructor has no error value to
return instead. -/
theorem root_check {α : Type} (K : Nat) (tree : Tree α) :
    (∀ e, compile K tree = some e ↔
        ∃ s root, build K tree = .ok s ∧ s.clauses.find tree.root.id = some root
          ∧ e = s.toEvaluator root ∧ e.root = root)
    ∧ (∀ s, build K tree = .ok s →
        ((∃ e, compile K tree = some e) ↔ (s.clauses.find tree.root.id).isSome))
    ∧ (∀ s, build K tree = .ok s → s.clauses.find tree.root.id = none →
        compile K tree = none)
    ∧ (∀ e, compile K tree = some e →
        ∃ m, tree.atoms[e.root]? = some m ∧ m.id = tree.root.id
          ∧ (e.data.get e.root).isSome) := by
  refine ⟨?_, ?_, ?_, ?_⟩
  · intro e
    rw [compile_eq_ok]
    constructor
    · rintro ⟨s, root, h1, h2, rfl⟩
      exact ⟨s, root, h1, h2, rfl, rfl⟩
    · rintro ⟨s, root, h1, h2, h3, -⟩
      exact ⟨s, root, h1, h2, h3⟩
  · intro s hs
    constructor
    · rintro ⟨e, he⟩
      obtain ⟨s', root, h1, h2, -⟩ := (compile_eq_ok K tree e).1 he
      rw [hs] at h1
      cases h1
      rw [h2]
      rfl
    · intro h
      obtain ⟨root, hroot⟩ := Option.isSome_iff_exists.1 h
      exact ⟨_, (compile_eq_ok K tree _).2 ⟨s, root, hs, hroot, rfl⟩⟩
  · intro s hs hnone
    exact (compile_eq_none K tree).2 (Or.inr ⟨s, hs, hnone⟩)
  · intro e he
    obtain ⟨s, root, hb, hroot, rfl⟩ := (compile_eq_ok K tree e).1 he
    obtain ⟨-, -, -, -, -, -, -, inv⟩ := build_ok K tree s hb
    have hval := inv.map_val tree.root.id root hroot
    cases hm : tree.atoms[root]? with
    | none => simp [hm] at hval
    | some m =>
      rw [hm, Option.map_some', Option.some.injEq] at hval
      obtain ⟨ops, hget, -⟩ := inv.slot root m hm
      have hget1 : s.data.get root = some (Clause.ofAtom K m ops) := hget
      refine ⟨m, hm, hval, ?_⟩
      show (s.data.get root).isSome
      rw [hget1]
      rfl

/-- Witness for C10 as amended: the constructor completes on `prunedTree`, and the root
of the evaluator is the clause 18 the identity map holds for the root atom. -/
theorem root_check_witness :
    build 8 prunedTree = .ok prunedBuilt
    ∧ prunedBuilt.clauses.find prunedTree.root.id = some 18
    ∧ prunedEvaluator.root = 18
    ∧ ((∃ e, compile 8 prunedTree = some e)
        ↔ (prunedBuilt.clauses.find prunedTree.root.id).isSome)
    ∧ build 8 strayTree = .ok strayBuilt
    ∧ strayBuilt.clauses.find strayTree.root.id = none
    ∧ compile 8 strayTree = none :=
  ⟨by rfl, by rfl, by rfl, (root_check 8 prunedTree).2.1 prunedBuilt (by rfl), by rfl,
    by rfl, (root_check 8 strayTree).2.2.1 strayBuilt (by rfl) (by rfl)⟩

/-- Counterexample to C10 as stated: the root atom of `strayTree` is in no tier.  The
constructor builds all rows, the identity map holds no clause for the root atom, and the
constructor returns nothing: neither an evaluator nor an error value. -/
theorem root_check_counterexample :
    build 8 strayTree = .ok strayBuilt
    ∧ strayBuilt.clauses.find strayTree.root.id = none
    ∧ compile 8 strayTree = none
    ∧ ¬ ∃ e, compile 8 strayTree = some e := by
  have h : compile 8 strayTree = none := by rfl
  refine ⟨by rfl, by rfl, h, ?_⟩
  rintro ⟨e, he⟩
  rw [h] at he
  cases he

/-- C9 (sharing).  When the constants, axis variables, transform parameters and rows of
the tree list every atom once, the identity map the constructor has built holds one
entry per clause constructed, sends the `i`-th atom to the clause at index `i` and is
injective; and every operand reference of a clause is the map's clause for the operand
atom, so an atom that is an operand of several consumers is the same clause in each. -/
theorem sharing {α : Type} (K : Nat) (tree : Tree α) (s : Built α)
    (hnd : (tree.atoms.map Atom.id).Nodup) (h : build K tree = .ok s) :
    s.clauses.length = s.ptr
    ∧ s.ptr = tree.atoms.length
    ∧ (∀ a a' c, s.clauses.find a = some c → s.clauses.find a' = some c → a = a')
    ∧ (∀ i m, tree.atoms[i]? = some m → s.clauses.find m.id = some i)
    ∧ (∀ i m, tree.atoms[i]? = some m → ∃ cl, s.data.get i = some cl ∧
        List.Forall₂ (fun a o => s.clauses.find a = some o) m.operands cl.operands) := by
  obtain ⟨-, -, -, -, -, -, -, inv⟩ := build_ok K tree s h
  refine ⟨(inv.size hnd).trans inv.ptr_eq.symm, inv.ptr_eq, ?_, ?_, ?_⟩
  · intro a a' c ha ha'
    have h1 := inv.map_val a c ha
    have h2 := inv.map_val a' c ha'
    rw [h1] at h2
    exact Option.some.inj h2
  · intro i m hi
    exact inv.find_id hnd i m hi
  · intro i m hi
    obtain ⟨ops, hget, hops⟩ := inv.slot i m hi
    refine ⟨_, hget, ?_⟩
    refine hops.imp (fun a o hao => ?_)
    cases hx : tree.atoms[o]? with
    | none => rw [hx] at hao; cases hao.2
    | some x =>
      have hid : x.id = a := by
        have := hao.2
        rw [hx] at this
        exact Option.some.inj this
      have := inv.find_id hnd o x hx
      rw [hid] at this
      exact this


/-- Witness for C9: in `prunedTree` the constant 5 is an operand of both the sum and the
product. -/
theorem sharing_witness :
    (prunedTree.atoms.map Atom.id).Nodup ∧ build 8 prunedTree = .ok prunedBuilt
    ∧ (prunedBuilt.clauses.length = prunedBuilt.ptr
      ∧ prunedBuilt.ptr = prunedTree.atoms.length
      ∧ (∀ a a' c, prunedBuilt.clauses.find a = some c → prunedBuilt.clauses.find a' = some c →
          a = a')
      ∧ (∀ i m, prunedTree.atoms[i]? = some m → prunedBuilt.clauses.find m.id = some i)
      ∧ (∀ i m, prunedTree.atoms[i]? = some m → ∃ cl, prunedBuilt.data.get i = some cl ∧
          List.Forall₂ (fun a o => prunedBuilt.clauses.find a = some o) m.operands
            cl.operands)) :=
  ⟨by decide, by rfl, sharing 8 prunedTree prunedBuilt (by decide) (by rfl)⟩

/-- C5 (transform copy).  On an evaluator whose twelve transform-parameter pointers are
distinct, after a successful `setMatrix(m)` the parameter clause at index `4*i + j`
(`i < 3`, `j < 4`) has mutable value `m[j][i]`; and the fourth row `m[j][3]` is never
read: two matrices that agree on the upper three rows give the same result. -/
theorem setMatrix_copy {α : Type} (K : Nat) (m : Nat → Nat → α) (e e' : Evaluator α)
    (hnd : e.matrix.Nodup) (h : e.setMatrix K m = some e') :
    (∀ i j, i < 3 → j < 4 → ∃ c cl, e'.matrix[4 * i + j]? = some c ∧ e'.data.get c = some cl
        ∧ cl.mutable_value = m j i)
    ∧ ∀ m' : Nat → Nat → α, (∀ i j, i < 3 → j < 4 → m' j i = m j i) →
        e.setMatrix K m' = e.setMatrix K m := by
  constructor
  · intro i j hi hj
    obtain ⟨d, n, hloop, rfl⟩ := e.setMatrix_some K m e' h
    obtain ⟨-, -, -, h4⟩ := setMatrix_loop e.matrix m matrixIndices _ _ _ _ hloop
    obtain ⟨c, hc, -, hval⟩ := h4 (4 * i + j) (i, j) (matrixIndices_get i hi j hj)
    obtain ⟨cl, hcl, hmv⟩ := hval hnd
    rw [Nat.zero_add] at hc
    refine ⟨c, Clause.fill K cl, hc, ?_, hmv⟩
    show (e.matrix.foldl (fun d c => Arena.modify (Clause.fill K) d c) d).get c = _
    rw [get_fill_loop, if_pos (List.getElem?_mem hc), hcl]
    rfl
  · intro m' hm'
    unfold Evaluator.setMatrix
    rw [foldl_congr_mem (setMatrixStep e.matrix m') (setMatrixStep e.matrix m) matrixIndices]
    intro s ij hij
    obtain ⟨h1, h2⟩ := matrixIndices_bound ij hij
    simp only [setMatrixStep, hm' ij.1 ij.2 h1 h2]


/-- Witness for C5: `setMatrix(sampleMatrix)` on `prunedEvaluator`. -/
theorem setMatrix_copy_witness :
    prunedEvaluator.matrix.Nodup
    ∧ prunedEvaluator.setMatrix 8 sampleMatrix = some transformedEvaluator
    ∧ ((∀ i j, i < 3 → j < 4 → ∃ c cl, transformedEvaluator.matrix[4 * i + j]? = some c
          ∧ transformedEvaluator.data.get c = some cl ∧ cl.mutable_value = sampleMatrix j i)
      ∧ ∀ m' : Nat → Nat → Int, (∀ i j, i < 3 → j < 4 → m' j i = sampleMatrix j i) →
          prunedEvaluator.setMatrix 8 m' = prunedEvaluator.setMatrix 8 sampleMatrix) :=
  ⟨by decide, by rfl,
    setMatrix_copy 8 sampleMatrix prunedEvaluator transformedEvaluator (by decide) (by rfl)⟩

/-- C6 (transform broadcast).  After a successful `setMatrix(m)`, each of the twelve
transform-parameter clauses has a result buffer of `K` slots, every one of which holds
the clause's new mutable value. -/
theorem setMatrix_broadcast {α : Type} (K : Nat) (m : Nat → Nat → α) (e e' : Evaluator α)
    (h : e.setMatrix K m = some e') :
    ∀ idx, idx < 12 → ∃ c cl, e'.matrix[idx]? = some c ∧ e'.data.get c = some cl
      ∧ cl.result.length = K ∧ ∀ s, s < K → cl.result[s]? = some cl.mutable_value := by
  intro idx hidx
  obtain ⟨d, n, hloop, rfl⟩ := e.setMatrix_some K m e' h
  obtain ⟨-, h2, -, h4⟩ := setMatrix_loop e.matrix m matrixIndices _ _ _ _ hloop
  have hlen := matrixIndices_length
  obtain ⟨ij, hij⟩ : ∃ ij, matrixIndices[idx]? = some ij :=
    ⟨matrixIndices[idx], List.getElem?_eq_getElem (by omega)⟩
  obtain ⟨c, hc, hsome, -⟩ := h4 idx ij hij
  rw [Nat.zero_add] at hc
  rw [← h2 c] at hsome
  obtain ⟨cl, hcl⟩ := Option.isSome_iff_exists.1 hsome
  refine ⟨c, Clause.fill K cl, hc, ?_, ?_, ?_⟩
  · show (e.matrix.foldl (fun d c => Arena.modify (Clause.fill K) d c) d).get c = _
    rw [get_fill_loop, if_pos (List.getElem?_mem hc), hcl]
    rfl
  · simp [Clause.fill]
  · intro s hs
    simp [Clause.fill, List.getElem?_replicate, hs]


/-- Witness for C6: `setMatrix(sampleMatrix)` on `prunedEvaluator`. -/
theorem setMatrix_broadcast_witness :
    prunedEvaluator.setMatrix 8 sampleMatrix = some transformedEvaluator
    ∧ ∀ idx, idx < 12 → ∃ c cl, transformedEvaluator.matrix[idx]? = some c
        ∧ transformedEvaluator.data.get c = some cl
        ∧ cl.result.length = 8 ∧ ∀ s, s < 8 → cl.result[s]? = some cl.mutable_value :=
  ⟨by rfl, setMatrix_broadcast 8 sampleMatrix prunedEvaluator transformedEvaluator (by rfl)⟩

/-- C4 (region enumeration order).  On an evaluator whose `X`, `Y` and `Z` leaves are
three different clauses with `K`-slot buffers that belong to no row, `eval` on a region
with axis sizes `(nx, ny, nz)`, `nx*ny*nz <= K`, leaves in slot `i < nx*ny*nz` of the
`X` buffer `X.pos(i mod nx)`, of the `Y` buffer `Y.pos((i / nx) mod ny)` and of the `Z`
buffer `Z.pos(nz - 1 - i / (nx*ny))`. -/
theorem region_order {α : Type} (sem : Opcode → List α → α) (K : Nat) (e : Evaluator α)
    (r : Region α) (hk : r.voxels ≤ K)
    (hXY : e.X ≠ e.Y) (hXZ : e.X ≠ e.Z) (hYZ : e.Y ≠ e.Z)
    (hX : (e.data.resultOf e.X).length = K) (hY : (e.data.resultOf e.Y).length = K)
    (hZ : (e.data.resultOf e.Z).length = K)
    (hrX : e.X ∉ activeSeq e.rows) (hrY : e.Y ∉ activeSeq e.rows)
    (hrZ : e.Z ∉ activeSeq e.rows) :
    ∃ e1 out, e.eval sem K r = some (e1, out) ∧
      ∀ i, i < r.X.size * r.Y.size * r.Z.size →
        (e1.data.resultOf e.X)[i]? = some (r.X.pos (i % r.X.size))
        ∧ (e1.data.resultOf e.Y)[i]? = some (r.Y.pos (i / r.X.size % r.Y.size))
        ∧ (e1.data.resultOf e.Z)[i]?
            = some (r.Z.pos (r.Z.size - 1 - i / (r.X.size * r.Y.size))) := by
  refine ⟨_, _, e.eval_of_le sem K r hk, ?_⟩
  intro i hi
  obtain ⟨hlen, hget⟩ := region_iterate_get r
  have hv : i < r.voxels := hi
  have hslot : ∀ (buf : List α) (val : Nat × Nat × Nat → α), buf.length = K →
      (writeFrom buf 0 ((REGION_ITERATE_XYZ r).map val))[i]?
        = some (val (i % r.X.size, i / r.X.size % r.Y.size, i / (r.X.size * r.Y.size))) := by
    intro buf val hbuf
    rw [getElem?_writeFrom, if_pos ⟨Nat.zero_le _, by simp [hlen]; exact hv, by omega⟩,
      Nat.sub_zero, List.getElem?_map, hget i hi]
    rfl
  refine ⟨?_, ?_, ?_⟩
  · show ((e.evalData sem r).resultOf e.X)[i]? = _
    rw [e.evalData_resultOf sem r e.X _ hrX (flattenStep_get_X _ _ _ r hXY hXZ), hslot _ _ hX]
  · show ((e.evalData sem r).resultOf e.Y)[i]? = _
    rw [e.evalData_resultOf sem r e.Y _ hrY (flattenStep_get_Y _ _ _ r hXY hYZ), hslot _ _ hY]
  · show ((e.evalData sem r).resultOf e.Z)[i]? = _
    rw [e.evalData_resultOf sem r e.Z _ hrZ (flattenStep_get_Z _ _ _ r hXZ hYZ), hslot _ _ hZ,
      Nat.sub_right_comm]

/-- Witness for C4: `prunedEvaluator` on the 2x2x2 region with the coordinates 10, 11 on
X, 20, 21 on Y and 30, 31 on Z; the three buffers after `eval` are spelled out. -/
theorem region_order_witness :
    cubeRegion.voxels ≤ 8
    ∧ (prunedEvaluator.eval intSem 8 cubeRegion).map
        (fun p => (p.1.data.resultOf prunedEvaluator.X, p.1.data.resultOf prunedEvaluator.Y,
          p.1.data.resultOf prunedEvaluator.Z))
      = some ([10, 11, 10, 11, 10, 11, 10, 11], [20, 20, 21, 21, 20, 20, 21, 21],
          [31, 31, 31, 31, 30, 30, 30, 30])
    ∧ ∃ e1 out, prunedEvaluator.eval intSem 8 cubeRegion = some (e1, out) ∧
        ∀ i, i < cubeRegion.X.size * cubeRegion.Y.size * cubeRegion.Z.size →
          (e1.data.resultOf prunedEvaluator.X)[i]?
              = some (cubeRegion.X.pos (i % cubeRegion.X.size))
          ∧ (e1.data.resultOf prunedEvaluator.Y)[i]?
              = some (cubeRegion.Y.pos (i / cubeRegion.X.size % cubeRegion.Y.size))
          ∧ (e1.data.resultOf prunedEvaluator.Z)[i]?
              = some (cubeRegion.Z.pos
                  (cubeRegion.Z.size - 1 - i / (cubeRegion.X.size * cubeRegion.Y.size))) :=
  ⟨by decide, by rfl,
    region_order intSem 8 prunedEvaluator cubeRegion (by decide) (by decide) (by decide)
      (by decide) (by rfl) (by rfl) (by rfl) (by decide) (by decide) (by decide)⟩

/-- C11 as amended (capacity boundary).  On a region of at most `K` voxels, in particular
of exactly `K`, `eval` returns, and what it returns is the root's result buffer; on a
region of more than `K` voxels the `assert` at the head of `eval` fails: no result is
returned, and since nothing has run before the `assert`, no slot has been written. -/
theorem eval_capacity {α : Type} (sem : Opcode → List α → α) (K : Nat) (e : Evaluator α)
    (r : Region α) :
    (r.voxels ≤ K → ∃ e1, e.eval sem K r = some (e1, e1.data.resultOf e1.root))
    ∧ (K < r.voxels → e.eval sem K r = none) := by
  constructor
  · intro hk
    exact ⟨_, e.eval_of_le sem K r hk⟩
  · intro hk
    simp only [Evaluator.eval, Nat.not_le.2 hk, if_false]

/-- Witness for C11 as amended: the 2x2x2 region has exactly 8 voxels, the capacity of
`prunedEvaluator`; the 3x3x1 region has 9. -/
theorem eval_capacity_witness :
    cubeRegion.voxels = 8 ∧ nineRegion.voxels = 8 + 1
    ∧ (∃ e1, prunedEvaluator.eval intSem 8 cubeRegion
        = some (e1, e1.data.resultOf e1.root))
    ∧ prunedEvaluator.eval intSem 8 nineRegion = none :=
  ⟨by decide, by decide,
    (eval_capacity intSem 8 prunedEvaluator cubeRegion).1 (by decide),
    (eval_capacity intSem 8 prunedEvaluator nineRegion).2 (by decide)⟩

/-- Counterexample to C11 as stated: on a region of `K + 1 = 9` voxels `eval` returns
nothing at all, so it does not return an error value. -/
theorem eval_capacity_counterexample :
    nineRegion.voxels = 8 + 1
    ∧ prunedEvaluator.eval intSem 8 nineRegion = none
    ∧ ¬ ∃ p, prunedEvaluator.eval intSem 8 nineRegion = some p := by
  have h : prunedEvaluator.eval intSem 8 nineRegion = none := by rfl
  refine ⟨by decide, h, ?_⟩
  rintro ⟨p, hp⟩
  rw [h] at hp
  cases hp

/-- C12 (determinism).  For a tree that keeps the schedule contract (every operand of an
atom of a tier is a leaf or an atom of an earlier tier, and every atom is listed once),
in every state its compiled evaluator reaches by `setMatrix`, `push`, `eval` and
balanced `pop` calls, and for a region of at most `K` voxels: two calls of `eval` in
succession both return, they return the same root buffer, and they leave the same
result buffer in every clause, although the second call starts from the buffers the
first call has overwritten. -/
theorem eval_deterministic {α : Type} (sem : Opcode → List α → α) (K : Nat)
    (tree : Tree α) (cs : List (Call α)) (e0 e : Evaluator α) (r : Region α)
    (hs : Scheduled tree) (hnd : (tree.atoms.map Atom.id).Nodup)
    (h0 : compile K tree = some e0) (h : Evaluator.calls sem K cs e0 = some e)
    (hk : r.voxels ≤ K) :
    ∃ e1 e2 out, e.eval sem K r = some (e1, out) ∧ e1.eval sem K r = some (e2, out)
      ∧ ∀ c, e2.data.resultOf c = e1.data.resultOf c := by
  have ho : SeqOrdered e.data (activeSeq e.rows) :=
    tiered_seqOrdered _ _ (Evaluator.calls_tiered sem K tree cs e0 e hs hnd h0 h)
  refine ⟨{ e with data := e.evalData sem r },
    { e with data := Evaluator.evalData sem { e with data := e.evalData sem r } r },
    (e.evalData sem r).resultOf e.root, e.eval_of_le sem K r hk, ?_,
    fun c => e.evalData_again sem r ho c⟩
  rw [Evaluator.eval_of_le sem K _ r hk, ← e.evalData_again sem r ho e.root]

/-- Witness for C12: `prunedTree` keeps the schedule contract; the state is the one its
evaluator reaches by `push(); pop()`, after which the first row holds its clauses in
another order, and the region is the 2x2x2 region. -/
theorem eval_deterministic_witness :
    Scheduled prunedTree ∧ (prunedTree.atoms.map Atom.id).Nodup
    ∧ compile 8 prunedTree = some prunedEvaluator
    ∧ Evaluator.calls intSem 8 [Call.push, Call.pop] prunedEvaluator
        = some prunedEvaluator.restored
    ∧ prunedEvaluator.restored.rows.map Row.clauses = [[17, 16], [18]]
    ∧ cubeRegion.voxels ≤ 8
    ∧ ∃ e1 e2 out, prunedEvaluator.restored.eval intSem 8 cubeRegion = some (e1, out)
        ∧ e1.eval intSem 8 cubeRegion = some (e2, out)
        ∧ ∀ c, e2.data.resultOf c = e1.data.resultOf c :=
  ⟨by decide, by decide, by rfl, by rfl, by rfl, by decide,
    eval_deterministic intSem 8 prunedTree [Call.push, Call.pop] prunedEvaluator
      prunedEvaluator.restored cubeRegion (by decide) (by decide) (by rfl) (by rfl)
      (by decide)⟩

/-- C13 (stack discipline).  In every evaluator state, after `n` calls of `push()` the
first `k <= n` calls of `pop()` all succeed and leave every row with the `active` count
and the saved counts it had after `n - k` calls of `push()`, that is just before the
matching `push()`; with `k = n` these are the counts from before the first `push()`. -/
theorem push_pop_stack {α : Type} (e : Evaluator α) (n k : Nat) (hk : k ≤ n) :
    ∃ e', popN k (pushN n e) = some e'
      ∧ e'.rows.map Row.active = (pushN (n - k) e).rows.map Row.active
      ∧ e'.rows.map Row.saved = (pushN (n - k) e).rows.map Row.saved := by
  obtain ⟨e', he', hsame⟩ := popN_pushN e n k hk
  refine ⟨e', he', ?_, ?_⟩
  · have := hsame.imp (fun _ _ h => h.1)
    rw [← List.forall₂_eq_eq_eq, List.forall₂_map_left_iff, List.forall₂_map_right_iff]
    exact this
  · have := hsame.imp (fun _ _ h => h.2)
    rw [← List.forall₂_eq_eq_eq, List.forall₂_map_left_iff, List.forall₂_map_right_iff]
    exact this

/-- Witness for C13: two calls of `push()` on `prunedEvaluator`, then one and two calls of
`pop()`; after the second the counts are the initial 2 and 1. -/
theorem push_pop_stack_witness :
    (∃ e', popN 1 (pushN 2 prunedEvaluator) = some e'
      ∧ e'.rows.map Row.active = (pushN (2 - 1) prunedEvaluator).rows.map Row.active
      ∧ e'.rows.map Row.saved = (pushN (2 - 1) prunedEvaluator).rows.map Row.saved)
    ∧ (∃ e', popN 2 (pushN 2 prunedEvaluator) = some e'
      ∧ e'.rows.map Row.active = (pushN (2 - 2) prunedEvaluator).rows.map Row.active
      ∧ e'.rows.map Row.saved = (pushN (2 - 2) prunedEvaluator).rows.map Row.saved)
    ∧ (pushN 2 prunedEvaluator).rows.map Row.active = [1, 1]
    ∧ prunedEvaluator.rows.map Row.active = [2, 1] :=
  ⟨push_pop_stack prunedEvaluator 2 1 (by decide),
    push_pop_stack prunedEvaluator 2 2 (by decide), by rfl, by rfl⟩

/-- C14 as amended (unbalanced pop).  `pop()` makes no depth check and has no error
path: all it does is `Row::pop` on every row, in order, whatever the number of
outstanding `push()` calls, so the state it leads to is the evaluator with every row
replaced by what `Row::pop` makes of it.  On an evaluator without rows it returns
normally and changes nothing. -/
theorem pop_unchecked {α : Type} (e : Evaluator α) :
    (e.rows = [] → e.pop = some e)
    ∧ ∀ e', e.pop = some e' ↔
        ∃ rows', List.Forall₂ (fun (row row' : Row) => row.pop = some row') e.rows rows'
          ∧ e' = { e with rows := rows' } := by
  have key : ∀ (rows rows' : List Row), popRows rows = some rows' ↔
      List.Forall₂ (fun (row row' : Row) => row.pop = some row') rows rows' := by
    intro rows
    induction rows with
    | nil =>
      intro rows'
      simp only [popRows, Option.some.injEq, List.forall₂_nil_left_iff]
      exact eq_comm
    | cons r rest ih =>
      intro rows'
      simp only [popRows]
      cases hr : Row.pop r with
      | none =>
        simp only [List.forall₂_cons_left_iff, hr, reduceCtorEq, false_and, exists_false,
          exists_const]
      | some r' =>
        cases hrest : popRows rest with
        | none =>
          simp only [Option.map_none', reduceCtorEq, false_iff]
          intro h
          obtain ⟨b, l, -, hl, -⟩ := List.forall₂_cons_left_iff.1 h
          have := (ih l).2 hl
          rw [hrest] at this
          cases this
        | some rest' =>
          simp only [Option.map_some', Option.some.injEq]
          constructor
          · intro h
            subst h
            exact List.Forall₂.cons hr ((ih rest').1 hrest)
          · intro h
            obtain ⟨b, l, hb, hl, rfl⟩ := List.forall₂_cons_left_iff.1 h
            have h1 := (ih l).2 hl
            rw [hrest, Option.some.injEq] at h1
            rw [hr, Option.some.injEq] at hb
            rw [hb, h1]
  constructor
  · intro h
    cases e
    simp only at h
    subst h
    rfl
  · intro e'
    unfold Evaluator.pop
    cases hp : popRows e.rows with
    | none =>
      simp only [Option.map_none', reduceCtorEq, false_iff]
      rintro ⟨rows', h, -⟩
      have := (key e.rows rows').2 h
      rw [hp] at this
      cases this
    | some rows =>
      simp only [Option.map_some', Option.some.injEq]
      constructor
      · intro h
        exact ⟨rows, (key e.rows rows).1 hp, h.symm⟩
      · rintro ⟨rows', h, rfl⟩
        have := (key e.rows rows').2 h
        rw [hp, Option.some.injEq] at this
        rw [this]

/-- Witness for C14 as amended: `pop()` on the freshly compiled `leafEvaluator`, which
has no rows, and on `prunedEvaluator` after one `push()`, whose rows have one saved count
each. -/
theorem pop_unchecked_witness :
    leafEvaluator.rows = [] ∧ leafEvaluator.pop = some leafEvaluator
    ∧ prunedEvaluator.push.pop = some prunedEvaluator.restored
    ∧ ∃ rows', List.Forall₂ (fun (row row' : Row) => row.pop = some row')
          prunedEvaluator.push.rows rows'
        ∧ prunedEvaluator.restored = { prunedEvaluator.push with rows := rows' } :=
  ⟨by rfl, (pop_unchecked leafEvaluator).1 (by rfl), prunedEvaluator.pop_push,
    ((pop_unchecked prunedEvaluator.push).2 prunedEvaluator.restored).1
      prunedEvaluator.pop_push⟩

/-- Counterexample to C14 as stated: `leafEvaluator` is the freshly compiled evaluator
of the expression `X`; no `push()` is outstanding, and `pop()` returns normally, with
the evaluator as it was. -/
theorem pop_unchecked_counterexample :
    compile 8 leafTree = some leafEvaluator
    ∧ leafEvaluator.rows.map Row.saved = []
    ∧ leafEvaluator.pop = some leafEvaluator := by
  exact ⟨by rfl, by rfl, by rfl⟩

/-- C15 (end-to-end scenario).  For the graph `root = X + constant(five)` with a single
row that holds the addition, compiled with a batch capacity `K >= 1` and evaluated
without `push()` on the single point `(two, zero, zero)`, `eval` returns a buffer whose
slot 0 is `seven`, whenever the addition kernel gives `two + five = seven`. -/
theorem end_to_end {α : Type} (sem : Opcode → List α → α) (K : Nat)
    (zero two five seven : α) (hK : 1 ≤ K)
    (hadd : sem Opcode.OP_ADD [two, five] = seven) :
    ∃ e e1 out, compile K (sumTree zero five) = some e
      ∧ e.eval sem K (pointAt two zero zero) = some (e1, out)
      ∧ out[0]? = some seven := by
  have hv : (pointAt two zero zero).voxels ≤ K := hK
  refine ⟨sumEvaluator K zero five, _, _, sum_compile K zero five,
    Evaluator.eval_of_le sem K _ _ hv, ?_⟩
  show (((sumEvaluator K zero five).evalData sem (pointAt two zero zero)).resultOf 16)[0]? = _
  rw [sum_eval sem K zero two five hK, hadd, List.getElem?_set]
  simp
  omega

/-- Witness for C15: integers, the capacity 8 and the point `(2, 0, 0)`; the whole buffer
`eval` returns is spelled out. -/
theorem end_to_end_witness :
    1 ≤ 8 ∧ intSem Opcode.OP_ADD [2, 5] = 7
    ∧ ((sumEvaluator 8 (0 : Int) 5).eval intSem 8 (pointAt 2 0 0)).map Prod.snd
        = some [7, 0, 0, 0, 0, 0, 0, 0]
    ∧ ∃ e e1 out, compile 8 (sumTree (0 : Int) 5) = some e
        ∧ e.eval intSem 8 (pointAt 2 0 0) = some (e1, out)
        ∧ out[0]? = some 7 :=
  ⟨by decide, by decide, by rfl, end_to_end intSem 8 0 2 5 7 (by decide) (by decide)⟩

/-- C16 (identity transform).  On a freshly compiled evaluator, after a successful
`setMatrix(identity)` the transform-parameter clauses at indices 0, 5 and 10 hold `one`
in all `K` result slots and the other nine parameter clauses hold `zero` in all `K`
result slots. -/
theorem setMatrix_identity {α : Type} (K : Nat) (zero one : α) (tree : Tree α)
    (e e' : Evaluator α) (hc : compile K tree = some e)
    (h : e.setMatrix K (identityMatrix zero one) = some e') :
    ∀ idx, idx < 12 → ∃ c cl, e'.matrix[idx]? = some c ∧ e'.data.get c = some cl
      ∧ cl.result
          = List.replicate K (if idx = 0 ∨ idx = 5 ∨ idx = 10 then one else zero) := by
  intro idx hidx
  obtain ⟨-, -, -, hnd, -⟩ := compile_leaves K tree e hc
  obtain ⟨d, n, hloop, rfl⟩ := e.setMatrix_some K _ e' h
  obtain ⟨-, -, -, h4⟩ := setMatrix_loop e.matrix _ matrixIndices _ _ _ _ hloop
  have hi : idx / 4 < 3 := by omega
  have hj : idx % 4 < 4 := by omega
  have hidx4 : 4 * (idx / 4) + idx % 4 = idx := by omega
  have hget := matrixIndices_get (idx / 4) hi (idx % 4) hj
  rw [hidx4] at hget
  obtain ⟨c, hcm, -, hval⟩ := h4 idx (idx / 4, idx % 4) hget
  obtain ⟨cl, hcl, hmv⟩ := hval hnd
  rw [Nat.zero_add] at hcm
  refine ⟨c, Clause.fill K cl, hcm, ?_, ?_⟩
  · show (e.matrix.foldl (fun d c => Arena.modify (Clause.fill K) d c) d).get c = _
    rw [get_fill_loop, if_pos (List.getElem?_mem hcm), hcl]
    rfl
  · have hiff : (idx % 4 = idx / 4) ↔ (idx = 0 ∨ idx = 5 ∨ idx = 10) := by omega
    show List.replicate K cl.mutable_value = _
    rw [hmv]
    simp only [identityMatrix, hiff]

/-- Witness for C16: `setMatrix(identity)` on `prunedEvaluator`, over the integers; the
twelve parameter buffers are spelled out for index 0 and index 1. -/
theorem setMatrix_identity_witness :
    compile 8 prunedTree = some prunedEvaluator
    ∧ (∃ e', prunedEvaluator.setMatrix 8 (identityMatrix 0 1) = some e'
        ∧ e'.data.resultOf 4 = List.replicate 8 1 ∧ e'.data.resultOf 5 = List.replicate 8 0
        ∧ ∀ idx, idx < 12 → ∃ c cl, e'.matrix[idx]? = some c ∧ e'.data.get c = some cl
          ∧ cl.result
              = List.replicate 8 (if idx = 0 ∨ idx = 5 ∨ idx = 10 then 1 else 0)) :=
  ⟨by rfl, (prunedEvaluator.setMatrix 8 (identityMatrix 0 1)).get (by rfl), by rfl, by rfl,
    by rfl,
    setMatrix_identity 8 0 1 prunedTree prunedEvaluator _ (by rfl) (by rfl)⟩

/-- C17 (nothing pruned initially).  Immediately after compilation the evaluator has one
row per schedule tier, in the order of the schedule; each row holds, in order, the
clauses built from the atoms of its tier; each row's active count equals its length; and
no row has a saved count. -/
theorem initial_rows {α : Type} (K : Nat) (tree : Tree α) (e : Evaluator α)
    (h : compile K tree = some e) :
    e.rows.length = tree.rows.length
    ∧ List.Forall₂ (fun tier (row : Row) => row.active = row.clauses.length
        ∧ row.saved = []
        ∧ List.Forall₂ (fun m c => ∃ ops, e.data.get c = some (Clause.ofAtom K m ops))
            tier row.clauses) tree.rows e.rows := by
  obtain ⟨s, root, hb, -, rfl⟩ := (compile_eq_ok K tree e).1 h
  obtain ⟨hm, -, -, -, -, -, hrows, inv⟩ := build_ok K tree s hb
  have hall : List.Forall₂ (fun tier (row : Row) => row.active = row.clauses.length
        ∧ row.saved = []
        ∧ List.Forall₂ (fun m c => ∃ ops, s.data.get c = some (Clause.ofAtom K m ops))
            tier row.clauses) tree.rows s.rows := by
    rw [hrows]
    refine rowsFrom_forall₂ _ tree.rows _ ?_
    intro k m hk
    have hat : tree.atoms[tree.constants.length + 15 + k]? = some m := by
      unfold Tree.atoms
      rw [List.getElem?_append_right (by
        simp only [List.length_append, List.length_cons, List.length_nil]; omega)]
      simp only [List.length_append, List.length_cons, List.length_nil, hm]
      rw [← hk]
      congr 1
      omega
    obtain ⟨ops, hget, -⟩ := inv.slot _ m hat
    exact ⟨ops, hget⟩
  exact ⟨hall.length_eq.symm, hall⟩

/-- Witness for C17: `prunedTree` has the tiers `[201, 200]` and `[202]`; its evaluator
has the rows `[16, 17]` and `[18]` with active counts 2 and 1. -/
theorem initial_rows_witness :
    compile 8 prunedTree = some prunedEvaluator
    ∧ prunedEvaluator.rows = [{ clauses := [16, 17], active := 2, saved := [] },
        { clauses := [18], active := 1, saved := [] }]
    ∧ prunedEvaluator.rows.length = prunedTree.rows.length
    ∧ List.Forall₂ (fun tier (row : Row) => row.active = row.clauses.length
        ∧ row.saved = []
        ∧ List.Forall₂ (fun m c => ∃ ops, prunedEvaluator.data.get c
              = some (Clause.ofAtom 8 m ops)) tier row.clauses)
        prunedTree.rows prunedEvaluator.rows :=
  ⟨by rfl, by rfl, initial_rows 8 prunedTree prunedEvaluator (by rfl)⟩

/-- C18 (topological arena order).  For a tree that keeps the schedule contract (the
leaves have no operands; every operand of an atom of a tier is a leaf or an atom of an
earlier tier), no operand lookup of the constructor fails: the constructor builds all
rows, unless it stops at the check of the matrix size.  In the compiled evaluator every
operand reference of the clause at arena index `i` points to a constructed clause with an
index strictly smaller than `i`. -/
theorem topological_arena {α : Type} (K : Nat) (tree : Tree α) (hs : Scheduled tree) :
    ((∃ s, build K tree = .ok s)
      ∨ (tree.matrix.length ≠ 12 ∧ build K tree = .error .matrixSize))
    ∧ ∀ e, compile K tree = some e → ∀ i cl, e.data.get i = some cl →
        ∀ o ∈ cl.operands, o < i ∧ (e.data.get o).isSome := by
  refine ⟨build_total K tree hs, ?_⟩
  intro e h i cl hget o ho
  obtain ⟨s, root, hb, -, rfl⟩ := (compile_eq_ok K tree e).1 h
  obtain ⟨-, -, -, -, -, -, -, inv⟩ := build_ok K tree s hb
  have hget1 : s.data.get i = some cl := hget
  by_cases hi : i < tree.atoms.length
  · obtain ⟨ops, hslot, hall⟩ := inv.slot i tree.atoms[i] (List.getElem?_eq_getElem hi)
    have hslot1 : s.data.get i = some (Clause.ofAtom K tree.atoms[i] ops) := hslot
    rw [hget1, Option.some.injEq] at hslot1
    subst hslot1
    obtain ⟨a, -, hlt, hsome⟩ := forall₂_mem_right _ _ _ hall o ho
    refine ⟨hlt, ?_⟩
    have ho1 : o < tree.atoms.length := Nat.lt_trans hlt hi
    obtain ⟨ops1, hslot2, -⟩ := inv.slot o tree.atoms[o] (List.getElem?_eq_getElem ho1)
    have hslot3 : s.data.get o = some (Clause.ofAtom K tree.atoms[o] ops1) := hslot2
    show (s.data.get o).isSome
    rw [hslot3]
    rfl
  · have hfree : s.data.get i = none := inv.free i (Nat.le_of_not_lt hi)
    rw [hget1] at hfree
    cases hfree

/-- Witness for C18: `prunedTree` keeps the schedule contract; its constructor builds all
rows, and the clauses 16, 17 and 18 have the operands `[2, 0]`, `[1, 0]` and `[17]`. -/
theorem topological_arena_witness :
    Scheduled prunedTree
    ∧ compile 8 prunedTree = some prunedEvaluator
    ∧ [16, 17, 18].map (fun i => prunedEvaluator.data.operandsOf i) = [[2, 0], [1, 0], [17]]
    ∧ (((∃ s, build 8 prunedTree = .ok s)
        ∨ (prunedTree.matrix.length ≠ 12 ∧ build 8 prunedTree = .error .matrixSize))
      ∧ ∀ e, compile 8 prunedTree = some e → ∀ i cl, e.data.get i = some cl →
          ∀ o ∈ cl.operands, o < i ∧ (e.data.get o).isSome) :=
  ⟨by decide, by rfl, by rfl, topological_arena 8 prunedTree (by decide)⟩

/-- C19 (row bound invariant).  In every state a freshly compiled evaluator reaches by a
sequence of `setMatrix`, `push`, `eval` and `pop` calls in which no `assert` fails and
every `pop` finds a saved count, every row's `active` count and every saved count is at
most the row's length; and a further `push()` keeps the number and the lengths of the
rows and increases no row's `active` count. -/
theorem row_bound {α : Type} (sem : Opcode → List α → α) (K : Nat) (tree : Tree α)
    (cs : List (Call α)) (e0 e : Evaluator α) (h0 : compile K tree = some e0)
    (h : Evaluator.calls sem K cs e0 = some e) :
    (∀ row ∈ e.rows, row.active ≤ row.clauses.length
        ∧ ∀ n ∈ row.saved, n ≤ row.clauses.length)
    ∧ List.Forall₂ (fun (row row' : Row) => row'.active ≤ row.active
        ∧ row'.clauses.length = row.clauses.length) e.rows e.push.rows := by
  refine ⟨?_, pushRows_active_le _ e.rows⟩
  refine Evaluator.calls_bounded sem K cs e0 e ?_ h
  obtain ⟨s, root, hb, -, rfl⟩ := (compile_eq_ok K tree e0).1 h0
  obtain ⟨-, -, -, -, -, -, hrows, -⟩ := build_ok K tree s hb
  show ∀ row ∈ s.rows, row.bounded
  rw [hrows]
  exact rowsFrom_bounded tree.rows _

/-- Witness for C19: the session `sampleCalls` on `prunedEvaluator`; it ends two pushes
deep, with the active counts 1 and 1 in rows of 2 and 1 clauses. -/
theorem row_bound_witness :
    compile 8 prunedTree = some prunedEvaluator
    ∧ ∃ e, Evaluator.calls intSem 8 sampleCalls prunedEvaluator = some e
      ∧ e.rows.map (fun row => (row.active, row.clauses.length, row.saved))
          = [(1, 2, [1, 2]), (1, 1, [1, 1])]
      ∧ ((∀ row ∈ e.rows, row.active ≤ row.clauses.length
            ∧ ∀ n ∈ row.saved, n ≤ row.clauses.length)
        ∧ List.Forall₂ (fun (row row' : Row) => row'.active ≤ row.active
            ∧ row'.clauses.length = row.clauses.length) e.rows e.push.rows) :=
  ⟨by rfl, (Evaluator.calls intSem 8 sampleCalls prunedEvaluator).get (by rfl), by rfl,
    by rfl, row_bound intSem 8 prunedTree sampleCalls prunedEvaluator _ (by rfl) (by rfl)⟩

/-- C20 (flattening index safety).  On an evaluator whose `X`, `Y` and `Z` leaves are
three different clauses, for a region with `voxels() <= K` the flattening loop of `eval`
ends with `index == voxels()`; the writes it makes to each of the three buffers are
writes to the indices `0, 1, ..., voxels()-1`, each once, all below `K`; the slots from
`voxels()` on keep their contents; and every loop index `k` has `k + 1 <= nz`, so that
the position `nz - k - 1` asked of the Z axis lies in `0 .. nz-1`. -/
theorem flatten_safety {α : Type} (K : Nat) (e : Evaluator α) (r : Region α)
    (hk : r.voxels ≤ K) (hXY : e.X ≠ e.Y) (hXZ : e.X ≠ e.Z) (hYZ : e.Y ≠ e.Z) :
    (flatten e.X e.Y e.Z r e.data).2 = r.voxels
    ∧ (∀ c, c = e.X ∨ c = e.Y ∨ c = e.Z →
        (flatten e.X e.Y e.Z r e.data).1.resultOf c
            = applyWrites (flattenWrites e.X e.Y e.Z r c 0 (REGION_ITERATE_XYZ r))
                (e.data.resultOf c)
        ∧ (flattenWrites e.X e.Y e.Z r c 0 (REGION_ITERATE_XYZ r)).map Prod.fst
            = List.range r.voxels
        ∧ (∀ w ∈ flattenWrites e.X e.Y e.Z r c 0 (REGION_ITERATE_XYZ r), w.1 < K)
        ∧ ∀ s, r.voxels ≤ s →
            ((flatten e.X e.Y e.Z r e.data).1.resultOf c)[s]? = (e.data.resultOf c)[s]?)
    ∧ ∀ ijk ∈ REGION_ITERATE_XYZ r,
        ijk.2.2 + 1 ≤ r.Z.size ∧ r.Z.size - ijk.2.2 - 1 < r.Z.size := by
  have hlen : (REGION_ITERATE_XYZ r).length = r.voxels := (region_iterate_get r).1
  refine ⟨?_, ?_, ?_⟩
  · show ((REGION_ITERATE_XYZ r).foldl (flattenStep e.X e.Y e.Z r) (e.data, 0)).2 = _
    rw [flatten_index, hlen, Nat.zero_add]
  · intro c hc
    have hidx : (flattenWrites e.X e.Y e.Z r c 0 (REGION_ITERATE_XYZ r)).map Prod.fst
        = List.range r.voxels := by
      rw [flattenWrites_indices e.X e.Y e.Z r c
        (stepWrites_axis e.X e.Y e.Z r hXY hXZ hYZ c hc), hlen, List.range_eq_range']
    have hwr : (flatten e.X e.Y e.Z r e.data).1.resultOf c
        = applyWrites (flattenWrites e.X e.Y e.Z r c 0 (REGION_ITERATE_XYZ r))
            (e.data.resultOf c) := flatten_writes e.X e.Y e.Z r c _ e.data 0
    refine ⟨hwr, hidx, ?_, ?_⟩
    · intro w hw
      have hmem : w.1 ∈ List.range r.voxels := by
        rw [← hidx]
        exact List.mem_map_of_mem Prod.fst hw
      exact Nat.lt_of_lt_of_le (List.mem_range.1 hmem) hk
    · intro s hs
      rw [hwr, getElem?_applyWrites, lastWrite_none]
      rw [hidx, List.mem_range]
      omega
  · intro ijk hmem
    have := (mem_region_iterate r ijk hmem).2.2
    omega

/-- Witness for C20: `prunedEvaluator` on the 2x2x2 region; `index` ends at 8, and the
writes to the buffer of `Z` are spelled out. -/
theorem flatten_safety_witness :
    cubeRegion.voxels ≤ 8
    ∧ prunedEvaluator.X ≠ prunedEvaluator.Y ∧ prunedEvaluator.X ≠ prunedEvaluator.Z
    ∧ prunedEvaluator.Y ≠ prunedEvaluator.Z
    ∧ flattenWrites prunedEvaluator.X prunedEvaluator.Y prunedEvaluator.Z cubeRegion
          prunedEvaluator.Z 0 (REGION_ITERATE_XYZ cubeRegion)
        = [(0, 31), (1, 31), (2, 31), (3, 31), (4, 30), (5, 30), (6, 30), (7, 30)]
    ∧ ((flatten prunedEvaluator.X prunedEvaluator.Y prunedEvaluator.Z cubeRegion
          prunedEvaluator.data).2 = cubeRegion.voxels
      ∧ (∀ c, c = prunedEvaluator.X ∨ c = prunedEvaluator.Y ∨ c = prunedEvaluator.Z →
          (flatten prunedEvaluator.X prunedEvaluator.Y prunedEvaluator.Z cubeRegion
              prunedEvaluator.data).1.resultOf c
            = applyWrites (flattenWrites prunedEvaluator.X prunedEvaluator.Y
                prunedEvaluator.Z cubeRegion c 0 (REGION_ITERATE_XYZ cubeRegion))
                (prunedEvaluator.data.resultOf c)
          ∧ (flattenWrites prunedEvaluator.X prunedEvaluator.Y prunedEvaluator.Z
                cubeRegion c 0 (REGION_ITERATE_XYZ cubeRegion)).map Prod.fst
              = List.range cubeRegion.voxels
          ∧ (∀ w ∈ flattenWrites prunedEvaluator.X prunedEvaluator.Y prunedEvaluator.Z
                cubeRegion c 0 (REGION_ITERATE_XYZ cubeRegion), w.1 < 8)
          ∧ ∀ s, cubeRegion.voxels ≤ s →
              ((flatten prunedEvaluator.X prunedEvaluator.Y prunedEvaluator.Z cubeRegion
                  prunedEvaluator.data).1.resultOf c)[s]?
                = (prunedEvaluator.data.resultOf c)[s]?)
      ∧ ∀ ijk ∈ REGION_ITERATE_XYZ cubeRegion,
          ijk.2.2 + 1 ≤ cubeRegion.Z.size
            ∧ cubeRegion.Z.size - ijk.2.2 - 1 < cubeRegion.Z.size) :=
  ⟨by decide, by decide, by decide, by decide, by rfl,
    flatten_safety 8 prunedEvaluator cubeRegion (by decide) (by decide) (by decide)
      (by decide)⟩

end Ao
